import Mathlib

/-! Tic-tac-toe engine of `script.js`.

A shallow embedding of the game engine of `src/script.js` (win/draw evaluation,
the three computer strategies and the click controller), followed by the
theorems that settle the specification's claims about it.

Conventions of the embedding:

* a JavaScript array read `state[i]` is `state[i]?`; `none` is `undefined`;
* the module-level variables are the fields of `Game`; every function that
  assigns one of them takes a `Game` and returns the updated one;
* `minimax` and `bestMove` write to the array they are given and restore it, so
  they return the array next to their result;
* the recursion of `minimax` is bounded by a `fuel` argument (the call depth
  still available); `none` means the bound was hit before the call returned;
* `Math.random()` is a rational number `r`;
* a session is a list of events (`Event`); the callback a click hands to
  `setTimeout` runs right after that click's handler, before the next event.
-/

namespace TicTacToe

/-- The content of a board slot: the strings `""`, `"X"` and `"O"`. -/
inductive Cell
  | E
  | X
  | O
  deriving DecidableEq, Repr

/-- The array `gameState`: a JavaScript array of cell strings. -/
abbrev Board := List Cell

/-- A non-null value returned by `getWinner`: the content of a cell, or `"draw"`. -/
inductive Winner
  | mark (c : Cell)
  | draw
  deriving DecidableEq, Repr

/-- A JavaScript number as used by the search: an integer or one of the infinities. -/
inductive Score
  | negInf
  | fin (n : Int)
  | posInf
  deriving DecidableEq, Repr

/-- The function `Math.max` on two scores. -/
def Score.max : Score → Score → Score
  | Score.posInf, _ => Score.posInf
  | _, Score.posInf => Score.posInf
  | Score.negInf, b => b
  | a, Score.negInf => a
  | Score.fin a, Score.fin b => Score.fin (if a ≤ b then b else a)

/-- The function `Math.min` on two scores. -/
def Score.min : Score → Score → Score
  | Score.negInf, _ => Score.negInf
  | _, Score.negInf => Score.negInf
  | Score.posInf, b => b
  | a, Score.posInf => a
  | Score.fin a, Score.fin b => Score.fin (if a ≤ b then a else b)

/-- The comparison `a > b` on two scores. -/
def Score.gt : Score → Score → Bool
  | Score.negInf, _ => false
  | _, Score.posInf => false
  | Score.fin a, Score.fin b => decide (b < a)
  | Score.fin _, Score.negInf => true
  | Score.posInf, Score.fin _ => true
  | Score.posInf, Score.negInf => true

/-- The constant `winConditions`: rows, columns, diagonals, in declared order. -/
def winConditions : List (Nat × Nat × Nat) :=
  [(0, 1, 2), (3, 4, 5), (6, 7, 8),
   (0, 3, 6), (1, 4, 7), (2, 5, 8),
   (0, 4, 8), (2, 4, 6)]

/-- The loop of `getWinner` over the remaining win conditions, then its last line. -/
def getWinnerFrom (state : Board) : List (Nat × Nat × Nat) → Option Winner
  | [] => if Cell.E ∈ state then none else some Winner.draw
  | (a, b, c) :: rest =>
    match state[a]? with
    | some v =>
      if v ≠ Cell.E ∧ state[b]? = some v ∧ state[c]? = some v then some (Winner.mark v)
      else getWinnerFrom state rest
    | none => getWinnerFrom state rest

/-- The function `getWinner(state)`; `none` is `null`. -/
def getWinner (state : Board) : Option Winner :=
  getWinnerFrom state winConditions

/-- One `for` loop of `minimax` over the cell indices still to visit: `recur` is the
recursive call, `mark` the trial mark, `pick` is `Math.max` or `Math.min`. -/
def minimaxLoop (recur : Board → Option (Score × Board)) (mark : Cell)
    (pick : Score → Score → Score) : List Nat → Board → Score → Option (Score × Board)
  | [], state, best => some (best, state)
  | i :: rest, state, best =>
    if state[i]? = some Cell.E then
      match recur (state.set i mark) with
      | none => none
      | some (score, state1) =>
        minimaxLoop recur mark pick rest (state1.set i Cell.E) (pick best score)
    else minimaxLoop recur mark pick rest state best

/-- The function `minimax(state, depth, isMaximizing)`: the score and the array as
the call leaves it. -/
def minimax : Nat → Board → Int → Bool → Option (Score × Board)
  | 0, _, _, _ => none
  | fuel + 1, state, depth, isMaximizing =>
    match getWinner state with
    | some (Winner.mark Cell.O) => some (Score.fin (10 - depth), state)
    | some (Winner.mark Cell.X) => some (Score.fin (depth - 10), state)
    | some _ => some (Score.fin 0, state)
    | none =>
      if isMaximizing then
        minimaxLoop (fun s => minimax fuel s (depth + 1) false) Cell.O Score.max
          (List.range 9) state Score.negInf
      else
        minimaxLoop (fun s => minimax fuel s (depth + 1) true) Cell.X Score.min
          (List.range 9) state Score.posInf

/-- The `for` loop of `bestMove` over the cell indices still to visit. -/
def bestMoveLoop (fuel : Nat) :
    List Nat → Board → Score → Option Nat → Option (Option Nat × Board)
  | [], state, _, move => some (move, state)
  | i :: rest, state, bestScore, move =>
    if state[i]? = some Cell.E then
      match minimax fuel (state.set i Cell.O) 0 false with
      | none => none
      | some (score, state1) =>
        if Score.gt score bestScore then
          bestMoveLoop fuel rest (state1.set i Cell.E) score (some i)
        else bestMoveLoop fuel rest (state1.set i Cell.E) bestScore move
    else bestMoveLoop fuel rest state bestScore move

/-- The function `bestMove()` on the array `gameState`: the move (`none` is
`undefined`) and the array as the call leaves it. -/
def bestMove (fuel : Nat) (gameState : Board) : Option (Option Nat × Board) :=
  bestMoveLoop fuel (List.range 9) gameState Score.negInf none

/-- The function `randomMove()`: `r` is the value of `Math.random()`. -/
def randomMove (gameState : Board) (r : ℚ) : Option Nat :=
  let empty : List Nat :=
    (gameState.enum.map (fun p => if p.2 = Cell.E then some p.1 else none)).filterMap id
  match Rat.floor (r * empty.length) with
  | Int.ofNat k => empty[k]?
  | Int.negSucc _ => none

/-- One `for` loop of `mediumMove` looking for a line with two `who` marks and an
empty cell: `some v` is `return v`, `none` is the loop running to its end. -/
def mediumScan (gameState : Board) (who : Cell) :
    List (Nat × Nat × Nat) → Option (Option Nat)
  | [] => none
  | (a, b, c) :: rest =>
    let line : List (Option Cell) := [gameState[a]?, gameState[b]?, gameState[c]?]
    if (line.filter (fun v => v = some who)).length = 2 ∧ some Cell.E ∈ line then
      some ([a, b, c][line.indexOf (some Cell.E)]?)
    else mediumScan gameState who rest

/-- The function `mediumMove()`. -/
def mediumMove (gameState : Board) (r : ℚ) : Option Nat :=
  match mediumScan gameState Cell.O winConditions with
  | some v => v
  | none =>
    match mediumScan gameState Cell.X winConditions with
    | some v => v
    | none => randomMove gameState r

/-- The values of `gameMode`: `"single"` and any other value (two players). -/
inductive Mode
  | single
  | two
  deriving DecidableEq, Repr

/-- The values of `difficulty`: `"easy"`, `"medium"` and any other value (hard). -/
inductive Difficulty
  | easy
  | medium
  | hard
  deriving DecidableEq, Repr

/-- The texts written to `statusText`. -/
inductive Status
  | turn (p : Cell)
  | wins (c : Cell)
  | draw
  deriving DecidableEq, Repr

/-- The module-level variables of the script. -/
structure Game where
  currentPlayer : Cell
  gameActive : Bool
  gameState : Board
  gameMode : Mode
  difficulty : Difficulty
  statusText : Status
  deriving DecidableEq, Repr

/-- The state after the top-level declarations and `init()`. -/
def initialGame : Game :=
  { currentPlayer := Cell.X
    gameActive := true
    gameState := [Cell.E, Cell.E, Cell.E, Cell.E, Cell.E, Cell.E, Cell.E, Cell.E, Cell.E]
    gameMode := Mode.single
    difficulty := Difficulty.easy
    statusText := Status.turn Cell.X }

/-- The function `makeMove(index, player)`; its callers pass the index of a cell
they have read as `""`, so the assignment never lengthens the array. -/
def makeMove (g : Game) (index : Nat) (player : Cell) : Game :=
  { g with gameState := g.gameState.set index player }

/-- The loop of `checkResult` over the remaining win conditions, then the draw test. -/
def checkResultFrom (g : Game) : List (Nat × Nat × Nat) → Game
  | [] =>
    if Cell.E ∈ g.gameState then g
    else { g with statusText := Status.draw, gameActive := false }
  | (a, b, c) :: rest =>
    match g.gameState[a]? with
    | some v =>
      if v ≠ Cell.E ∧ g.gameState[b]? = some v ∧ g.gameState[c]? = some v then
        { g with statusText := Status.wins v, gameActive := false }
      else checkResultFrom g rest
    | none => checkResultFrom g rest

/-- The function `checkResult()`. -/
def checkResult (g : Game) : Game :=
  checkResultFrom g winConditions

/-- The function `restartGame()`. -/
def restartGame (g : Game) : Game :=
  { g with
    gameState := [Cell.E, Cell.E, Cell.E, Cell.E, Cell.E, Cell.E, Cell.E, Cell.E, Cell.E]
    gameActive := true
    currentPlayer := Cell.X
    statusText := Status.turn Cell.X }

/-- The function `computerMove()`; `none` when the search ran out of fuel. -/
def computerMove (fuel : Nat) (g : Game) (r : ℚ) : Option Game :=
  let picked : Option (Option Nat × Board) :=
    match g.difficulty with
    | Difficulty.easy => some (randomMove g.gameState r, g.gameState)
    | Difficulty.medium => some (mediumMove g.gameState r, g.gameState)
    | Difficulty.hard => bestMove fuel g.gameState
  match picked with
  | none => none
  | some (some move, state) => some (makeMove { g with gameState := state } move Cell.O)
  | some (none, state) => some { g with gameState := state }

/-- The callback that `handleCellClick` hands to `setTimeout`. -/
def computerTurn (fuel : Nat) (g : Game) (r : ℚ) : Option Game :=
  match computerMove fuel g r with
  | none => none
  | some g1 =>
    let g2 := checkResult g1
    if g2.gameActive then
      some { g2 with currentPlayer := Cell.X, statusText := Status.turn Cell.X }
    else some g2

/-- The function `handleCellClick(e)` for a click on the cell whose `data-index` is
`index`: the new state, and whether the computer's turn was scheduled. -/
def handleCellClick (g : Game) (index : Nat) : Game × Bool :=
  if g.gameState[index]? ≠ some Cell.E ∨ g.gameActive = false then (g, false)
  else
    match g.gameMode with
    | Mode.single =>
      if g.currentPlayer ≠ Cell.X then (g, false)
      else
        let g1 := checkResult (makeMove g index Cell.X)
        if g1.gameActive then
          ({ g1 with currentPlayer := Cell.O, statusText := Status.turn Cell.O }, true)
        else (g1, false)
    | Mode.two =>
      let g1 := checkResult (makeMove g index g.currentPlayer)
      if g1.gameActive then
        let next := if g1.currentPlayer = Cell.X then Cell.O else Cell.X
        ({ g1 with currentPlayer := next, statusText := Status.turn next }, false)
      else (g1, false)

/-- A session: each click is handled by `handleCellClick` and, when it schedules the
computer's turn, followed by the timeout callback (with random draw `r`) before
the next click. -/
def play (fuel : Nat) : List (Nat × ℚ) → Game → Option Game
  | [], g => some g
  | (index, r) :: rest, g =>
    match handleCellClick g index with
    | (g1, true) =>
      match computerTurn fuel g1 r with
      | none => none
      | some g2 => play fuel rest g2
    | (g1, false) => play fuel rest g1

/-! ## Notions used in the statements and proofs -/

/-- All three cells of the line `l` hold the value `p`. -/
def lineFull (state : Board) (l : Nat × Nat × Nat) (p : Cell) : Prop :=
  state[l.1]? = some p ∧ state[l.2.1]? = some p ∧ state[l.2.2]? = some p

instance (state : Board) (l : Nat × Nat × Nat) (p : Cell) : Decidable (lineFull state l p) := by
  unfold lineFull
  infer_instance

/-- The line `l` is fully matched: its three cells hold the same non-empty value. -/
def lineMatched (state : Board) (l : Nat × Nat × Nat) : Prop :=
  ∃ p, p ≠ Cell.E ∧ lineFull state l p

/-- The line `l` holds two `who` marks and one empty cell, the empty one at index `e`. -/
def twoAndEmpty (state : Board) (who : Cell) (l : Nat × Nat × Nat) (e : Nat) : Prop :=
  (state[l.1]? = some Cell.E ∧ state[l.2.1]? = some who ∧ state[l.2.2]? = some who ∧ e = l.1) ∨
  (state[l.1]? = some who ∧ state[l.2.1]? = some Cell.E ∧ state[l.2.2]? = some who ∧ e = l.2.1) ∨
  (state[l.1]? = some who ∧ state[l.2.1]? = some who ∧ state[l.2.2]? = some Cell.E ∧ e = l.2.2)

/-- The number of empty cells of a board. -/
def countEmpty (state : Board) : Nat :=
  state.count Cell.E

/-- The score computed by `minimax`, as a function of the board alone: the same
case analysis with each loop written as a fold over the cell indices. -/
def searchScore : Nat → Board → Int → Bool → Score
  | 0, _, _, _ => Score.fin 0
  | fuel + 1, state, depth, isMaximizing =>
    match getWinner state with
    | some (Winner.mark Cell.O) => Score.fin (10 - depth)
    | some (Winner.mark Cell.X) => Score.fin (depth - 10)
    | some _ => Score.fin 0
    | none =>
      if isMaximizing then
        (List.range 9).foldl (fun acc i =>
          if state[i]? = some Cell.E then
            Score.max acc (searchScore fuel (state.set i Cell.O) (depth + 1) false)
          else acc) Score.negInf
      else
        (List.range 9).foldl (fun acc i =>
          if state[i]? = some Cell.E then
            Score.min acc (searchScore fuel (state.set i Cell.X) (depth + 1) true)
          else acc) Score.posInf

/-- One step of the selection made by `bestMove`: the running best score and move
after visiting cell `i`, when `f i` is the score of placing `O` there. -/
def pickBest (state : Board) (f : Nat → Score) (acc : Score × Option Nat) (i : Nat) :
    Score × Option Nat :=
  if state[i]? = some Cell.E then
    if Score.gt (f i) acc.1 then (f i, some i) else acc
  else acc

/-- The player `X` can force a win from `state`; the flag is `isMaximizing` (`true`
when `O` is to move, `false` when `X` is to move). -/
inductive XWins : Board → Bool → Prop
  | won (state : Board) (m : Bool) :
      getWinner state = some (Winner.mark Cell.X) → XWins state m
  | xMove (state : Board) (i : Nat) :
      getWinner state = none → state[i]? = some Cell.E →
      XWins (state.set i Cell.X) true → XWins state false
  | oMove (state : Board) :
      getWinner state = none →
      (∀ i, state[i]? = some Cell.E → XWins (state.set i Cell.O) false) → XWins state true

/-- The integer held by a finite score. -/
def Score.toInt : Score → Int
  | Score.fin z => z
  | _ => 0

/-- Evaluate a cell before passing it on. -/
def forceCell {α : Type} (c : Cell) (k : Cell → α) : α :=
  match c with
  | Cell.E => k Cell.E
  | Cell.X => k Cell.X
  | Cell.O => k Cell.O

/-- Evaluate every cell of a board before passing the board on. -/
def forceBoard {α : Type} : Board → (Board → α) → α
  | [], k => k []
  | c :: cs, k => forceCell c (fun c1 => forceBoard cs (fun cs1 => k (c1 :: cs1)))

/-- A table of replies for `O`: for each move of `X` that leaves the game in
progress, in increasing cell order, the reply `reply`, the table `sub` for the
position after the reply, and the table `rest` for the remaining moves of `X`. -/
inductive Cert
  | z
  | n (reply : Nat) (sub : Cert) (rest : Cert)

/-- Check that the table `c` answers every move of `X` among the cells `is` of the
board `b` without `X` ever completing a line. -/
def checkMoves : Nat → Cert → Board → List Nat → Bool
  | 0, _, _, _ => false
  | _ + 1, _, _, [] => true
  | fuel + 1, c, b, i :: is =>
    if b[i]? = some Cell.E then
      forceBoard (b.set i Cell.X) (fun b1 =>
        match getWinner b1 with
        | some (Winner.mark Cell.X) => false
        | some _ => checkMoves fuel c b is
        | none =>
          match c with
          | Cert.z => false
          | Cert.n j sub rest =>
            if b1[j]? = some Cell.E then
              forceBoard (b1.set j Cell.O) (fun b2 =>
                match getWinner b2 with
                | some (Winner.mark Cell.X) => false
                | some _ => checkMoves fuel rest b is
                | none => checkMoves fuel sub b2 (List.range 9) && checkMoves fuel rest b is)
            else false)
    else checkMoves fuel c b is

/-- A table of replies that holds the draw for `O` from the empty board. -/
def drawTable : Cert :=
  (.n 4 (.n 2 (.n 6 .z (.n 6 .z (.n 3 (.n 7 .z (.n 5 .z (.n 5 .z .z))) (.n 6 .z (.n 6 .z .z)))))
  (.n 1 (.n 7 .z (.n 7 .z (.n 7 .z (.n 3 (.n 8 .z (.n 5 .z (.n 5 .z .z))) (.n 7 .z .z))))) (.n 6
  (.n 2 .z (.n 1 (.n 7 .z (.n 5 .z (.n 5 .z .z))) (.n 2 .z (.n 2 .z (.n 2 .z .z))))) (.n 1 (.n 7
  .z (.n 7 .z (.n 7 .z (.n 6 (.n 8 .z (.n 2 .z (.n 2 .z .z))) (.n 7 .z .z))))) (.n 3 (.n 5 .z (.n
  5 .z (.n 1 (.n 7 .z (.n 8 .z (.n 7 .z .z))) (.n 5 .z (.n 5 .z .z))))) (.n 3 (.n 5 .z (.n 5 .z
  (.n 2 (.n 6 .z (.n 8 .z (.n 6 .z .z))) (.n 5 .z (.n 5 .z .z))))) (.n 1 (.n 7 .z (.n 7 .z (.n 7
  .z (.n 7 .z (.n 6 (.n 5 .z (.n 2 .z (.n 2 .z .z))) .z))))) .z))))))) (.n 4 (.n 2 (.n 6 .z (.n 6
  .z (.n 3 (.n 7 .z (.n 5 .z (.n 5 .z .z))) (.n 6 .z (.n 6 .z .z))))) (.n 0 (.n 8 .z (.n 8 .z (.n
  8 .z (.n 8 .z (.n 5 (.n 6 .z (.n 3 .z (.n 3 .z .z))) .z))))) (.n 0 (.n 8 .z (.n 8 .z (.n 8 .z
  (.n 8 .z (.n 2 (.n 6 .z (.n 7 .z (.n 6 .z .z))) .z))))) (.n 0 (.n 8 .z (.n 8 .z (.n 8 .z (.n 8
  .z (.n 2 (.n 6 .z (.n 7 .z (.n 6 .z .z))) .z))))) (.n 0 (.n 8 .z (.n 8 .z (.n 8 .z (.n 8 .z (.n
  7 (.n 5 .z (.n 2 .z (.n 2 .z .z))) .z))))) (.n 0 (.n 8 .z (.n 8 .z (.n 8 .z (.n 8 .z (.n 6 (.n
  3 .z (.n 2 .z (.n 2 .z .z))) .z))))) (.n 2 (.n 6 .z (.n 6 .z (.n 6 .z (.n 7 (.n 3 .z (.n 0 .z
  (.n 0 .z .z))) (.n 6 .z .z))))) .z))))))) (.n 4 (.n 1 (.n 7 .z (.n 7 .z (.n 7 .z (.n 3 (.n 8 .z
  (.n 5 .z (.n 5 .z .z))) (.n 7 .z .z))))) (.n 0 (.n 8 .z (.n 8 .z (.n 8 .z (.n 8 .z (.n 5 (.n 6
  .z (.n 3 .z (.n 3 .z .z))) .z))))) (.n 0 (.n 8 .z (.n 8 .z (.n 8 .z (.n 8 .z (.n 5 (.n 6 .z (.n
  7 .z (.n 6 .z .z))) .z))))) (.n 8 (.n 1 (.n 6 .z (.n 3 .z (.n 3 .z .z))) (.n 0 .z (.n 0 .z (.n
  0 .z (.n 0 .z .z))))) (.n 1 (.n 7 .z (.n 7 .z (.n 7 .z (.n 8 (.n 3 .z (.n 0 .z (.n 0 .z .z)))
  (.n 7 .z .z))))) (.n 3 (.n 5 .z (.n 5 .z (.n 8 (.n 1 .z (.n 0 .z (.n 0 .z .z))) (.n 5 .z (.n 5
  .z .z))))) (.n 5 (.n 3 .z (.n 3 .z (.n 0 (.n 6 .z (.n 7 .z (.n 6 .z .z))) (.n 3 .z (.n 3 .z
  .z))))) .z))))))) (.n 4 (.n 6 (.n 2 .z (.n 1 (.n 7 .z (.n 5 .z (.n 5 .z .z))) (.n 2 .z (.n 2 .z
  (.n 2 .z .z))))) (.n 0 (.n 8 .z (.n 8 .z (.n 8 .z (.n 8 .z (.n 2 (.n 6 .z (.n 7 .z (.n 6 .z
  .z))) .z))))) (.n 0 (.n 8 .z (.n 8 .z (.n 8 .z (.n 8 .z (.n 5 (.n 6 .z (.n 7 .z (.n 6 .z .z)))
  .z))))) (.n 0 (.n 8 .z (.n 8 .z (.n 8 .z (.n 8 .z (.n 2 (.n 6 .z (.n 1 .z (.n 1 .z .z)))
  .z))))) (.n 0 (.n 8 .z (.n 8 .z (.n 8 .z (.n 8 .z (.n 7 (.n 2 .z (.n 1 .z (.n 1 .z .z)))
  .z))))) (.n 0 (.n 8 .z (.n 8 .z (.n 8 .z (.n 8 .z (.n 6 (.n 2 .z (.n 5 .z (.n 2 .z .z)))
  .z))))) (.n 1 (.n 7 .z (.n 7 .z (.n 7 .z (.n 7 .z (.n 6 (.n 2 .z (.n 5 .z (.n 2 .z .z)))
  .z))))) .z))))))) (.n 0 (.n 7 (.n 6 (.n 5 .z (.n 3 .z (.n 3 .z .z))) (.n 5 (.n 6 .z (.n 2 .z
  (.n 2 .z .z))) (.n 3 (.n 6 .z (.n 2 .z (.n 2 .z .z))) (.n 2 (.n 5 .z (.n 3 .z (.n 3 .z .z)))
  (.n 2 (.n 5 .z (.n 3 .z (.n 3 .z .z))) .z))))) (.n 6 (.n 3 .z (.n 5 (.n 7 .z (.n 1 .z (.n 1 .z
  .z))) (.n 3 .z (.n 3 .z (.n 3 .z .z))))) (.n 5 (.n 7 (.n 6 .z (.n 2 .z (.n 2 .z .z))) (.n 6 (.n
  7 .z (.n 1 .z (.n 1 .z .z))) (.n 2 (.n 7 .z (.n 1 .z (.n 1 .z .z))) (.n 1 (.n 6 .z (.n 2 .z (.n
  2 .z .z))) (.n 1 (.n 6 .z (.n 2 .z (.n 2 .z .z))) .z))))) (.n 3 (.n 6 .z (.n 6 .z (.n 2 (.n 7
  .z (.n 1 .z (.n 1 .z .z))) (.n 6 .z (.n 6 .z .z))))) (.n 2 (.n 7 (.n 5 .z (.n 3 .z (.n 3 .z
  .z))) (.n 1 .z (.n 1 .z (.n 1 .z (.n 1 .z .z))))) (.n 1 (.n 6 (.n 5 .z (.n 3 .z (.n 3 .z .z)))
  (.n 2 .z (.n 2 .z (.n 2 .z (.n 2 .z .z))))) (.n 2 (.n 7 (.n 5 .z (.n 3 .z (.n 3 .z .z))) (.n 1
  .z (.n 1 .z (.n 1 .z (.n 1 .z .z))))) .z))))))) (.n 4 (.n 1 (.n 7 .z (.n 7 .z (.n 7 .z (.n 6
  (.n 8 .z (.n 2 .z (.n 2 .z .z))) (.n 7 .z .z))))) (.n 0 (.n 8 .z (.n 8 .z (.n 8 .z (.n 8 .z (.n
  2 (.n 6 .z (.n 7 .z (.n 6 .z .z))) .z))))) (.n 8 (.n 1 (.n 6 .z (.n 3 .z (.n 3 .z .z))) (.n 0
  .z (.n 0 .z (.n 0 .z (.n 0 .z .z))))) (.n 0 (.n 8 .z (.n 8 .z (.n 8 .z (.n 8 .z (.n 2 (.n 6 .z
  (.n 1 .z (.n 1 .z .z))) .z))))) (.n 1 (.n 7 .z (.n 7 .z (.n 7 .z (.n 8 (.n 3 .z (.n 0 .z (.n 0
  .z .z))) (.n 7 .z .z))))) (.n 2 (.n 6 .z (.n 6 .z (.n 6 .z (.n 8 (.n 3 .z (.n 0 .z (.n 0 .z
  .z))) (.n 6 .z .z))))) (.n 2 (.n 6 .z (.n 6 .z (.n 6 .z (.n 7 (.n 1 .z (.n 0 .z (.n 0 .z .z)))
  (.n 6 .z .z))))) .z))))))) (.n 4 (.n 3 (.n 5 .z (.n 5 .z (.n 1 (.n 7 .z (.n 8 .z (.n 7 .z .z)))
  (.n 5 .z (.n 5 .z .z))))) (.n 0 (.n 8 .z (.n 8 .z (.n 8 .z (.n 8 .z (.n 7 (.n 5 .z (.n 2 .z (.n
  2 .z .z))) .z))))) (.n 1 (.n 7 .z (.n 7 .z (.n 7 .z (.n 8 (.n 3 .z (.n 0 .z (.n 0 .z .z))) (.n
  7 .z .z))))) (.n 0 (.n 8 .z (.n 8 .z (.n 8 .z (.n 8 .z (.n 7 (.n 2 .z (.n 1 .z (.n 1 .z .z)))
  .z))))) (.n 1 (.n 7 .z (.n 7 .z (.n 7 .z (.n 8 (.n 3 .z (.n 0 .z (.n 0 .z .z))) (.n 7 .z
  .z))))) (.n 8 (.n 3 (.n 2 .z (.n 1 .z (.n 1 .z .z))) (.n 0 .z (.n 0 .z (.n 0 .z (.n 0 .z
  .z))))) (.n 7 (.n 1 .z (.n 0 (.n 5 .z (.n 2 .z (.n 2 .z .z))) (.n 1 .z (.n 1 .z (.n 1 .z
  .z))))) .z))))))) (.n 4 (.n 3 (.n 5 .z (.n 5 .z (.n 2 (.n 6 .z (.n 8 .z (.n 6 .z .z))) (.n 5 .z
  (.n 5 .z .z))))) (.n 0 (.n 8 .z (.n 8 .z (.n 8 .z (.n 8 .z (.n 6 (.n 3 .z (.n 2 .z (.n 2 .z
  .z))) .z))))) (.n 3 (.n 5 .z (.n 5 .z (.n 8 (.n 1 .z (.n 0 .z (.n 0 .z .z))) (.n 5 .z (.n 5 .z
  .z))))) (.n 0 (.n 8 .z (.n 8 .z (.n 8 .z (.n 8 .z (.n 6 (.n 2 .z (.n 5 .z (.n 2 .z .z)))
  .z))))) (.n 2 (.n 6 .z (.n 6 .z (.n 6 .z (.n 8 (.n 3 .z (.n 0 .z (.n 0 .z .z))) (.n 6 .z
  .z))))) (.n 8 (.n 3 (.n 2 .z (.n 1 .z (.n 1 .z .z))) (.n 0 .z (.n 0 .z (.n 0 .z (.n 0 .z
  .z))))) (.n 6 (.n 2 .z (.n 2 .z (.n 5 (.n 1 .z (.n 0 .z (.n 0 .z .z))) (.n 2 .z (.n 2 .z
  .z))))) .z))))))) (.n 4 (.n 1 (.n 7 .z (.n 7 .z (.n 7 .z (.n 7 .z (.n 6 (.n 5 .z (.n 2 .z (.n 2
  .z .z))) .z))))) (.n 2 (.n 6 .z (.n 6 .z (.n 6 .z (.n 7 (.n 3 .z (.n 0 .z (.n 0 .z .z))) (.n 6
  .z .z))))) (.n 5 (.n 3 .z (.n 3 .z (.n 0 (.n 6 .z (.n 7 .z (.n 6 .z .z))) (.n 3 .z (.n 3 .z
  .z))))) (.n 1 (.n 7 .z (.n 7 .z (.n 7 .z (.n 7 .z (.n 6 (.n 2 .z (.n 5 .z (.n 2 .z .z)))
  .z))))) (.n 2 (.n 6 .z (.n 6 .z (.n 6 .z (.n 7 (.n 1 .z (.n 0 .z (.n 0 .z .z))) (.n 6 .z
  .z))))) (.n 7 (.n 1 .z (.n 0 (.n 5 .z (.n 2 .z (.n 2 .z .z))) (.n 1 .z (.n 1 .z (.n 1 .z
  .z))))) (.n 6 (.n 2 .z (.n 2 .z (.n 5 (.n 1 .z (.n 0 .z (.n 0 .z .z))) (.n 2 .z (.n 2 .z
  .z))))) .z))))))) .z)))))))))

/-- The state in which a single-player session at hard difficulty starts. -/
def hardStart : Game :=
  { initialGame with difficulty := Difficulty.hard }

/-- The invariant of a single-player session at hard difficulty, between clicks. -/
def HardInv (g : Game) : Prop :=
  g.gameMode = Mode.single ∧ g.difficulty = Difficulty.hard ∧ g.gameState.length = 9 ∧
  g.statusText ≠ Status.wins Cell.X ∧
  (g.gameActive = true →
    g.currentPlayer = Cell.X ∧ getWinner g.gameState = none ∧ ¬ XWins g.gameState false) ∧
  (g.gameActive = false →
    getWinner g.gameState = some (Winner.mark Cell.O) ∨ getWinner g.gameState = some Winner.draw)

/-- The events the page delivers to the script: a click on a cell (with the
random draw the computer uses if its turn is scheduled), the restart button, and
the two selectors. -/
inductive Event
  | click (index : Nat) (r : ℚ)
  | restart
  | changeMode (mode : Mode)
  | changeDifficulty (d : Difficulty)

/-- The handler that runs for one event; the timeout callback scheduled by a click
runs before the next event. The handlers of the selectors are those that `init()`
registers. -/
def step (fuel : Nat) (g : Game) : Event → Option Game
  | Event.click index r =>
    match handleCellClick g index with
    | (g1, true) => computerTurn fuel g1 r
    | (g1, false) => some g1
  | Event.restart => some (restartGame g)
  | Event.changeMode mode => some (restartGame { g with gameMode := mode })
  | Event.changeDifficulty d => some { g with difficulty := d }

/-- A session: the events handled one after the other. -/
def run (fuel : Nat) : List Event → Game → Option Game
  | [], g => some g
  | e :: rest, g =>
    match step fuel g e with
    | none => none
    | some g1 => run fuel rest g1

/-- The random draw of a click lies in `[0, 1)`, as a value of `Math.random()` does. -/
def validDraw : Event → Prop
  | Event.click _ r => 0 ≤ r ∧ r < 1
  | _ => True

/-- Any two fully matched lines of the board hold the same value. -/
def SameWinner (state : Board) : Prop :=
  ∀ l1 ∈ winConditions, ∀ l2 ∈ winConditions, ∀ p q, p ≠ Cell.E → q ≠ Cell.E →
    lineFull state l1 p → lineFull state l2 q → p = q

/-- The board part of the session invariant: nine cells, a single winner at most,
and no matched line and an empty cell left while the game is active. -/
def BoardInv (g : Game) : Prop :=
  g.gameState.length = 9 ∧ SameWinner g.gameState ∧
  (g.gameActive = true → getWinner g.gameState = none)

/-- The turn part of the session invariant: `X` has as many marks as `O` or one
more, and while the game is active the active player is the one the counts call. -/
def TurnInv (g : Game) : Prop :=
  (g.gameState.count Cell.X = g.gameState.count Cell.O ∨
    g.gameState.count Cell.X = g.gameState.count Cell.O + 1) ∧
  (g.gameActive = true →
    (g.currentPlayer = Cell.X ∧ g.gameState.count Cell.X = g.gameState.count Cell.O) ∨
    (g.currentPlayer = Cell.O ∧ g.gameState.count Cell.X = g.gameState.count Cell.O + 1))

/-- Between two events of a single-player session the active player is `X`. -/
def Settled (g : Game) : Prop :=
  g.gameMode = Mode.single → g.gameActive = true → g.currentPlayer = Cell.X

/-- The player `O` can force a win from `state`; the flag is `isMaximizing` (`true`
when `O` is to move, `false` when `X` is to move). -/
inductive OWins : Board → Bool → Prop
  | won (state : Board) (m : Bool) :
      getWinner state = some (Winner.mark Cell.O) → OWins state m
  | oMove (state : Board) (i : Nat) :
      getWinner state = none → state[i]? = some Cell.E →
      OWins (state.set i Cell.O) false → OWins state true
  | xMove (state : Board) :
      getWinner state = none →
      (∀ i, state[i]? = some Cell.E → OWins (state.set i Cell.X) true) → OWins state false

/-- The score of a finished board at the given depth. -/
def terminalScore (w : Winner) (depth : Int) : Int :=
  match w with
  | Winner.mark Cell.O => 10 - depth
  | Winner.mark Cell.X => depth - 10
  | _ => 0

/-- Plain minimax, as the specification words it: a finished board scores `+1` when
`O` has won, `-1` when `X` has won and `0` for a draw, whatever the depth; `O`
takes the largest score of its moves and `X` the smallest. The flag is `true`
when `O` is to move. -/
def plainMinimax : Nat → Board → Bool → Int
  | 0, _, _ => 0
  | fuel + 1, state, oToMove =>
    match getWinner state with
    | some (Winner.mark Cell.O) => 1
    | some (Winner.mark Cell.X) => -1
    | some _ => 0
    | none =>
      if oToMove then
        (List.range 9).foldl (fun acc i =>
          if state[i]? = some Cell.E then
            max acc (plainMinimax fuel (state.set i Cell.O) false)
          else acc) (-1)
      else
        (List.range 9).foldl (fun acc i =>
          if state[i]? = some Cell.E then
            min acc (plainMinimax fuel (state.set i Cell.X) true)
          else acc) 1

/-- The check of `checkMoves` with the two players exchanged: the table `c` answers,
for `X`, every move of `O` among the cells `is` of the board `b` without `O`
ever completing a line. -/
def checkMovesO : Nat → Cert → Board → List Nat → Bool
  | 0, _, _, _ => false
  | _ + 1, _, _, [] => true
  | fuel + 1, c, b, i :: is =>
    if b[i]? = some Cell.E then
      forceBoard (b.set i Cell.O) (fun b1 =>
        match getWinner b1 with
        | some (Winner.mark Cell.O) => false
        | some _ => checkMovesO fuel c b is
        | none =>
          match c with
          | Cert.z => false
          | Cert.n j sub rest =>
            if b1[j]? = some Cell.E then
              forceBoard (b1.set j Cell.X) (fun b2 =>
                match getWinner b2 with
                | some (Winner.mark Cell.O) => false
                | some _ => checkMovesO fuel rest b is
                | none => checkMovesO fuel sub b2 (List.range 9) && checkMovesO fuel rest b is)
            else false)
    else checkMovesO fuel c b is

/-- A table of replies for `O` that holds the draw once `O` has taken cell 0 of the
empty board and `X` is to move. -/
def cornerTable : Cert :=
  (.n 3 (.n 6 .z (.n 6 .z (.n 6 .z (.n 4 (.n 5 .z (.n 8 .z (.n 5 .z (.n 5 .z .z)))) (.n 6 .z (.n
  6 .z .z)))))) (.n 3 (.n 6 .z (.n 6 .z (.n 6 .z (.n 4 (.n 5 .z (.n 8 .z (.n 5 .z (.n 5 .z .z))))
  (.n 6 .z (.n 6 .z .z)))))) (.n 1 (.n 4 (.n 7 .z (.n 7 .z (.n 8 .z (.n 7 .z .z)))) (.n 2 .z (.n
  2 .z (.n 2 .z (.n 2 .z (.n 2 .z .z)))))) (.n 1 (.n 6 (.n 5 (.n 8 .z (.n 7 .z .z)) (.n 3 .z (.n
  3 .z (.n 3 .z .z)))) (.n 2 .z (.n 2 .z (.n 2 .z (.n 2 .z (.n 2 .z .z)))))) (.n 2 (.n 4 (.n 6 .z
  (.n 8 .z (.n 6 .z (.n 6 .z .z)))) (.n 1 .z (.n 1 .z (.n 1 .z (.n 1 .z (.n 1 .z .z)))))) (.n 1
  (.n 4 (.n 7 .z (.n 7 .z (.n 8 .z (.n 7 .z .z)))) (.n 2 .z (.n 2 .z (.n 2 .z (.n 2 .z (.n 2 .z
  .z)))))) (.n 2 (.n 4 (.n 6 .z (.n 6 .z (.n 8 .z (.n 6 .z .z)))) (.n 1 .z (.n 1 .z (.n 1 .z (.n
  1 .z (.n 1 .z .z)))))) (.n 2 (.n 6 (.n 4 .z (.n 3 .z (.n 3 .z (.n 3 .z .z)))) (.n 1 .z (.n 1 .z
  (.n 1 .z (.n 1 .z (.n 1 .z .z)))))) .z))))))))

/-! ## Evaluation of a board -/

theorem getWinnerFrom_step_hit (state : Board) (l : Nat × Nat × Nat) (rest : List (Nat × Nat × Nat))
    (p : Cell) (hp : p ≠ Cell.E) (h : lineFull state l p) :
    getWinnerFrom state (l :: rest) = some (Winner.mark p) := by
  obtain ⟨a, b, c⟩ := l
  obtain ⟨h1, h2, h3⟩ := h
  simp only at h1 h2 h3
  simp [getWinnerFrom, h1, h2, h3, hp]

theorem getWinnerFrom_step_miss (state : Board) (l : Nat × Nat × Nat)
    (rest : List (Nat × Nat × Nat)) (h : ¬ lineMatched state l) :
    getWinnerFrom state (l :: rest) = getWinnerFrom state rest := by
  obtain ⟨a, b, c⟩ := l
  rw [getWinnerFrom]
  cases hv : state[a]? with
  | none => rfl
  | some v =>
    simp only
    split
    · rename_i hc
      exact absurd ⟨v, hc.1, hv, hc.2.1, hc.2.2⟩ h
    · rfl

theorem getWinnerFrom_none_matched (state : Board) (ls : List (Nat × Nat × Nat))
    (h : ∀ l ∈ ls, ¬ lineMatched state l) :
    getWinnerFrom state ls = if Cell.E ∈ state then none else some Winner.draw := by
  induction ls with
  | nil => rfl
  | cons l rest ih =>
    rw [getWinnerFrom_step_miss state l rest (h l (List.mem_cons_self _ _))]
    exact ih (fun l' hl' => h l' (List.mem_cons_of_mem _ hl'))

theorem getWinnerFrom_first (state : Board) (pre : List (Nat × Nat × Nat))
    (l : Nat × Nat × Nat) (post : List (Nat × Nat × Nat)) (p : Cell) (hp : p ≠ Cell.E)
    (hl : lineFull state l p) (hpre : ∀ l' ∈ pre, ¬ lineMatched state l') :
    getWinnerFrom state (pre ++ l :: post) = some (Winner.mark p) := by
  induction pre with
  | nil => exact getWinnerFrom_step_hit state l post p hp hl
  | cons l0 pre ih =>
    rw [List.cons_append, getWinnerFrom_step_miss state l0 _ (hpre l0 (List.mem_cons_self _ _))]
    exact ih (fun l' hl' => hpre l' (List.mem_cons_of_mem _ hl'))

theorem getWinnerFrom_mark (state : Board) (ls : List (Nat × Nat × Nat)) (p : Cell)
    (h : getWinnerFrom state ls = some (Winner.mark p)) :
    p ≠ Cell.E ∧ ∃ pre l post, ls = pre ++ l :: post ∧ lineFull state l p ∧
      ∀ l' ∈ pre, ¬ lineMatched state l' := by
  induction ls with
  | nil =>
    unfold getWinnerFrom at h
    split at h <;> simp at h
  | cons l rest ih =>
    by_cases hm : lineMatched state l
    · obtain ⟨q, hq, hfull⟩ := hm
      rw [getWinnerFrom_step_hit state l rest q hq hfull] at h
      have hqp : q = p := by simpa using h
      subst hqp
      exact ⟨hq, [], l, rest, rfl, hfull, by simp⟩
    · rw [getWinnerFrom_step_miss state l rest hm] at h
      obtain ⟨hp, pre, l1, post, hls, hfull, hpre⟩ := ih h
      refine ⟨hp, l :: pre, l1, post, by simp [hls], hfull, ?_⟩
      intro l' hl'
      rcases List.mem_cons.mp hl' with h0 | h0
      · exact h0 ▸ hm
      · exact hpre l' h0

/-- Claim C1. `getWinner` returns a player `p` (`X` or `O`) exactly when some win
line is fully matched; the value returned is the one held by the first fully
matched line in the declared order of `winConditions`; and a fully matched line
excludes the results `"draw"` and `null`, whether or not the board is full. -/
theorem getWinner_win_iff (state : Board) :
    ((∃ p, (p = Cell.X ∨ p = Cell.O) ∧ getWinner state = some (Winner.mark p)) ↔
        ∃ l ∈ winConditions, lineMatched state l) ∧
    (∀ p, getWinner state = some (Winner.mark p) ↔
        p ≠ Cell.E ∧ ∃ pre l post, winConditions = pre ++ l :: post ∧ lineFull state l p ∧
          ∀ l' ∈ pre, ¬ lineMatched state l') ∧
    ((∃ l ∈ winConditions, lineMatched state l) →
        getWinner state ≠ some Winner.draw ∧ getWinner state ≠ none) := by
  have key : ∀ p, getWinner state = some (Winner.mark p) ↔
      p ≠ Cell.E ∧ ∃ pre l post, winConditions = pre ++ l :: post ∧ lineFull state l p ∧
        ∀ l' ∈ pre, ¬ lineMatched state l' := by
    intro p
    constructor
    · exact getWinnerFrom_mark state winConditions p
    · rintro ⟨hp, pre, l, post, hw, hfull, hpre⟩
      unfold getWinner
      rw [hw]
      exact getWinnerFrom_first state pre l post p hp hfull hpre
  have some_line : (∃ l ∈ winConditions, lineMatched state l) →
      ∃ p, p ≠ Cell.E ∧ getWinner state = some (Winner.mark p) := by
    rintro ⟨l, hl, hm⟩
    by_contra hcon
    have hnone : ∀ l' ∈ winConditions, ¬ lineMatched state l' := by
      intro l' hl' hm'
      obtain ⟨pre, post, hsplit, hfirst⟩ :
          ∃ pre post, winConditions = pre ++ post ∧ post ≠ [] ∧
            (∀ x ∈ pre, ¬ lineMatched state x) ∧ ∀ x, post.head? = some x → lineMatched state x := by
        classical
        refine ⟨winConditions.takeWhile (fun x => decide (¬ lineMatched state x)),
          winConditions.dropWhile (fun x => decide (¬ lineMatched state x)),
          (List.takeWhile_append_dropWhile _ _).symm, ?_, ?_, ?_⟩
        · intro hnil
          have hall := List.dropWhile_eq_nil_iff.mp hnil l' hl'
          simp at hall
          exact hall hm'
        · intro x hx
          simpa using List.mem_takeWhile_imp hx
        · intro x hx
          have := List.head?_dropWhile_not (fun x => decide (¬ lineMatched state x)) winConditions
          rw [hx] at this
          simpa using this
      obtain ⟨hne, hpre, hhead⟩ := hfirst
      cases hpost : post with
      | nil => exact hne hpost
      | cons x post1 =>
        obtain ⟨q, hq, hfull⟩ := hhead x (by simp [hpost])
        exact hcon ⟨q, hq, (key q).2 ⟨hq, pre, x, post1, by rw [hsplit, hpost], hfull, hpre⟩⟩
    exact hnone l hl hm
  refine ⟨?_, key, ?_⟩
  · constructor
    · rintro ⟨p, _, hp⟩
      obtain ⟨_, pre, l, post, hw, hfull, _⟩ := (key p).1 hp
      exact ⟨l, by simp [hw], p, ((key p).1 hp).1, hfull⟩
    · intro h
      obtain ⟨p, hp, hw⟩ := some_line h
      refine ⟨p, ?_, hw⟩
      cases p
      · exact absurd rfl hp
      · exact Or.inl rfl
      · exact Or.inr rfl
  · intro h
    obtain ⟨p, _, hw⟩ := some_line h
    rw [hw]
    simp

/-- Claim C2. On a board where no win line is fully matched, `getWinner` returns
`"draw"` exactly when no cell is empty and `null` exactly when some cell is empty. -/
theorem getWinner_no_line (state : Board)
    (h : ∀ l ∈ winConditions, ¬ lineMatched state l) :
    (getWinner state = some Winner.draw ↔ Cell.E ∉ state) ∧
    (getWinner state = none ↔ Cell.E ∈ state) := by
  unfold getWinner
  rw [getWinnerFrom_none_matched state winConditions h]
  by_cases he : Cell.E ∈ state <;> simp [he]

/-- The hypothesis of `getWinner_no_line` holds on the full board
`[X,O,X,X,O,O,O,X,X]`, which therefore evaluates to a draw. -/
theorem getWinner_no_line_witness :
    (∀ l ∈ winConditions, ¬ lineMatched
        [Cell.X, Cell.O, Cell.X, Cell.X, Cell.O, Cell.O, Cell.O, Cell.X, Cell.X] l) ∧
    getWinner [Cell.X, Cell.O, Cell.X, Cell.X, Cell.O, Cell.O, Cell.O, Cell.X, Cell.X]
      = some Winner.draw :=
  have h : ∀ l ∈ winConditions, ¬ lineMatched
      [Cell.X, Cell.O, Cell.X, Cell.X, Cell.O, Cell.O, Cell.O, Cell.X, Cell.X] l := by
    intro l hl hm
    obtain ⟨p, _, h1, h2, h3⟩ := hm
    simp only [winConditions, List.mem_cons, List.mem_singleton, List.not_mem_nil, or_false] at hl
    rcases hl with rfl | rfl | rfl | rfl | rfl | rfl | rfl | rfl <;> cases p <;> simp at h1 h2 h3
  ⟨h, (getWinner_no_line _ h).1.2 (by decide)⟩

/-! ## The medium strategy -/

theorem scanTest_iff (who : Cell) (hw : who ≠ Cell.E) (x y z : Option Cell) :
    (([x, y, z].filter (fun v => decide (v = some who))).length = 2 ∧ some Cell.E ∈ [x, y, z]) ↔
      (x = some Cell.E ∧ y = some who ∧ z = some who) ∨
      (x = some who ∧ y = some Cell.E ∧ z = some who) ∨
      (x = some who ∧ y = some who ∧ z = some Cell.E) := by
  cases who
  · exact absurd rfl hw
  all_goals
    rcases x with _ | _ | _ | _ <;> rcases y with _ | _ | _ | _ <;>
      rcases z with _ | _ | _ | _ <;> decide

theorem mediumScan_step_miss (state : Board) (who : Cell) (hw : who ≠ Cell.E)
    (l : Nat × Nat × Nat) (rest : List (Nat × Nat × Nat))
    (h : ∀ e, ¬ twoAndEmpty state who l e) :
    mediumScan state who (l :: rest) = mediumScan state who rest := by
  obtain ⟨a, b, c⟩ := l
  rw [mediumScan]
  rw [if_neg]
  intro hc
  rcases (scanTest_iff who hw _ _ _).1 hc with ⟨h1, h2, h3⟩ | ⟨h1, h2, h3⟩ | ⟨h1, h2, h3⟩
  · exact h a (Or.inl ⟨h1, h2, h3, rfl⟩)
  · exact h b (Or.inr (Or.inl ⟨h1, h2, h3, rfl⟩))
  · exact h c (Or.inr (Or.inr ⟨h1, h2, h3, rfl⟩))

theorem mediumScan_step_hit (state : Board) (who : Cell) (hw : who ≠ Cell.E)
    (l : Nat × Nat × Nat) (rest : List (Nat × Nat × Nat)) (e : Nat)
    (h : twoAndEmpty state who l e) :
    mediumScan state who (l :: rest) = some (some e) := by
  obtain ⟨a, b, c⟩ := l
  rw [mediumScan]
  have hne : (who == Cell.E) = false := by simpa using hw
  rcases h with ⟨h1, h2, h3, he⟩ | ⟨h1, h2, h3, he⟩ | ⟨h1, h2, h3, he⟩
  all_goals
    simp only at h1 h2 h3 he
    rw [if_pos ((scanTest_iff who hw _ _ _).2 (by simp [h1, h2, h3]))]
    subst he
    simp [h1, h2, h3, List.indexOf_cons, hne]

theorem mediumScan_none (state : Board) (who : Cell) (hw : who ≠ Cell.E)
    (ls : List (Nat × Nat × Nat)) (h : ∀ l ∈ ls, ∀ e, ¬ twoAndEmpty state who l e) :
    mediumScan state who ls = none := by
  induction ls with
  | nil => rfl
  | cons l rest ih =>
    rw [mediumScan_step_miss state who hw l rest (h l (List.mem_cons_self _ _))]
    exact ih (fun l' hl' => h l' (List.mem_cons_of_mem _ hl'))

theorem mediumScan_first (state : Board) (who : Cell) (hw : who ≠ Cell.E)
    (pre : List (Nat × Nat × Nat)) (l : Nat × Nat × Nat) (post : List (Nat × Nat × Nat))
    (e : Nat) (hl : twoAndEmpty state who l e)
    (hpre : ∀ l' ∈ pre, ∀ e', ¬ twoAndEmpty state who l' e') :
    mediumScan state who (pre ++ l :: post) = some (some e) := by
  induction pre with
  | nil => exact mediumScan_step_hit state who hw l post e hl
  | cons l0 pre ih =>
    rw [List.cons_append, mediumScan_step_miss state who hw l0 _ (hpre l0 (List.mem_cons_self _ _))]
    exact ih (fun l' hl' => hpre l' (List.mem_cons_of_mem _ hl'))

/-- Claim C5. When some win line holds two `O` and an empty cell, `mediumMove`
returns the empty cell `e` of the first such line in declared order, whatever the
random draw and whether or not a line with two `X` and an empty cell exists. -/
theorem mediumMove_takes_win (state : Board) (r : ℚ)
    (pre : List (Nat × Nat × Nat)) (l : Nat × Nat × Nat) (post : List (Nat × Nat × Nat))
    (e : Nat) (hsplit : winConditions = pre ++ l :: post)
    (hl : twoAndEmpty state Cell.O l e)
    (hpre : ∀ l' ∈ pre, ∀ e', ¬ twoAndEmpty state Cell.O l' e') :
    mediumMove state r = some e ∧ state[e]? = some Cell.E := by
  constructor
  · unfold mediumMove
    rw [hsplit, mediumScan_first state Cell.O (by decide) pre l post e hl hpre]
  · rcases hl with ⟨h1, _, _, he⟩ | ⟨_, h1, _, he⟩ | ⟨_, _, h1, he⟩ <;> rw [he] <;> exact h1

/-- The board `[O,O,"",X,X,"","","",""]`: the first line `(0,1,2)` holds two `O` and
the empty cell 2, a line with two `X` exists as well, and `mediumMove` returns 2. -/
theorem mediumMove_takes_win_witness :
    twoAndEmpty [Cell.O, Cell.O, Cell.E, Cell.X, Cell.X, Cell.E, Cell.E, Cell.E, Cell.E]
      Cell.O (0, 1, 2) 2 ∧
    twoAndEmpty [Cell.O, Cell.O, Cell.E, Cell.X, Cell.X, Cell.E, Cell.E, Cell.E, Cell.E]
      Cell.X (3, 4, 5) 5 ∧
    ∀ r : ℚ, mediumMove
      [Cell.O, Cell.O, Cell.E, Cell.X, Cell.X, Cell.E, Cell.E, Cell.E, Cell.E] r = some 2 :=
  ⟨by simp [twoAndEmpty], by simp [twoAndEmpty], fun r =>
    (mediumMove_takes_win _ r [] (0, 1, 2)
      [(3, 4, 5), (6, 7, 8), (0, 3, 6), (1, 4, 7), (2, 5, 8), (0, 4, 8), (2, 4, 6)] 2 rfl
      (by simp [twoAndEmpty]) (by simp)).1⟩

/-- Claim C6. When no win line holds two `O` and an empty cell but some line holds
two `X` and an empty cell, `mediumMove` returns the empty cell `e` of the first such
line in declared order, whatever the random draw. -/
theorem mediumMove_blocks (state : Board) (r : ℚ)
    (pre : List (Nat × Nat × Nat)) (l : Nat × Nat × Nat) (post : List (Nat × Nat × Nat))
    (e : Nat) (hsplit : winConditions = pre ++ l :: post)
    (hnoWin : ∀ l' ∈ winConditions, ∀ e', ¬ twoAndEmpty state Cell.O l' e')
    (hl : twoAndEmpty state Cell.X l e)
    (hpre : ∀ l' ∈ pre, ∀ e', ¬ twoAndEmpty state Cell.X l' e') :
    mediumMove state r = some e ∧ state[e]? = some Cell.E := by
  constructor
  · unfold mediumMove
    rw [mediumScan_none state Cell.O (by decide) winConditions hnoWin, hsplit,
      mediumScan_first state Cell.X (by decide) pre l post e hl hpre]
  · rcases hl with ⟨h1, _, _, he⟩ | ⟨_, h1, _, he⟩ | ⟨_, _, h1, he⟩ <;> rw [he] <;> exact h1

/-- The board `["",O,"",X,X,"","","",""]`: no line holds two `O` and an empty cell,
the line `(3,4,5)` is the first with two `X` and an empty cell, and `mediumMove`
returns 5. -/
theorem mediumMove_blocks_witness :
    (∀ l' ∈ winConditions, ∀ e', ¬ twoAndEmpty
      [Cell.E, Cell.O, Cell.E, Cell.X, Cell.X, Cell.E, Cell.E, Cell.E, Cell.E] Cell.O l' e') ∧
    ∀ r : ℚ, mediumMove
      [Cell.E, Cell.O, Cell.E, Cell.X, Cell.X, Cell.E, Cell.E, Cell.E, Cell.E] r = some 5 :=
  have h : ∀ l' ∈ winConditions, ∀ e', ¬ twoAndEmpty
      [Cell.E, Cell.O, Cell.E, Cell.X, Cell.X, Cell.E, Cell.E, Cell.E, Cell.E] Cell.O l' e' := by
    intro l hl e
    simp only [winConditions, List.mem_cons, List.mem_singleton, List.not_mem_nil, or_false] at hl
    rcases hl with rfl | rfl | rfl | rfl | rfl | rfl | rfl | rfl <;> simp [twoAndEmpty]
  ⟨h, fun r =>
    (mediumMove_blocks _ r [(0, 1, 2)] (3, 4, 5)
      [(6, 7, 8), (0, 3, 6), (1, 4, 7), (2, 5, 8), (0, 4, 8), (2, 4, 6)] 5 rfl h
      (by simp [twoAndEmpty])
      (by
        intro l hl e
        simp only [List.mem_singleton] at hl
        subst hl
        simp [twoAndEmpty])).1⟩

/-! ## The controller -/

/-- Claim C7. A click is a no-op when its index is outside `0..8`, when the
target cell is not empty, or when the game is finished: the whole state (board,
active player, game-active flag and the rest) is unchanged and no computer turn
is scheduled. -/
theorem handleCellClick_rejected (g : Game) (index : Nat) (hlen : g.gameState.length = 9)
    (h : 9 ≤ index ∨ (∃ c, c ≠ Cell.E ∧ g.gameState[index]? = some c) ∨ g.gameActive = false) :
    handleCellClick g index = (g, false) := by
  unfold handleCellClick
  rw [if_pos]
  rcases h with h | ⟨c, hc, hget⟩ | h
  · left
    rw [List.getElem?_eq_none (by omega)]
    simp
  · left
    rw [hget]
    intro heq
    exact hc (Option.some.inj heq)
  · exact Or.inr h

/-- Three rejected clicks: index 9 on the initial board, an occupied cell, and a
click after the game has finished. -/
theorem handleCellClick_rejected_witness :
    handleCellClick initialGame 9 = (initialGame, false) ∧
    handleCellClick (makeMove initialGame 4 Cell.X) 4 = (makeMove initialGame 4 Cell.X, false) ∧
    handleCellClick { initialGame with gameActive := false } 0
      = ({ initialGame with gameActive := false }, false) :=
  ⟨handleCellClick_rejected initialGame 9 rfl (Or.inl (Nat.le_refl 9)),
   handleCellClick_rejected (makeMove initialGame 4 Cell.X) 4 rfl
     (Or.inr (Or.inl ⟨Cell.X, by decide, rfl⟩)),
   handleCellClick_rejected { initialGame with gameActive := false } 0 rfl (Or.inr (Or.inr rfl))⟩

/-- Claim C10. From every state `restartGame` yields the initial board of nine
empty cells, active player `X` and an active game, and keeps mode and difficulty. -/
theorem restartGame_resets (g : Game) :
    (restartGame g).gameState = initialGame.gameState ∧
    (restartGame g).gameState = List.replicate 9 Cell.E ∧
    (restartGame g).currentPlayer = Cell.X ∧
    (restartGame g).gameActive = true ∧
    (restartGame g).gameMode = g.gameMode ∧
    (restartGame g).difficulty = g.difficulty :=
  ⟨rfl, rfl, rfl, rfl, rfl, rfl⟩

/-! ## The search: frame and closed form -/

theorem set_restore (state : Board) (i : Nat) (mark : Cell) (h : state[i]? = some Cell.E) :
    (state.set i mark).set i Cell.E = state := by
  rw [List.set_set]
  apply List.ext_getElem?
  intro k
  rw [List.getElem?_set]
  split
  · rename_i hik
    subst hik
    have hlt : i < state.length := by
      by_contra hge
      rw [List.getElem?_eq_none (by omega)] at h
      exact Option.noConfusion h
    simp [hlt, h]
  · rfl

theorem countEmpty_set (state : Board) (i : Nat) (mark : Cell) (hm : mark ≠ Cell.E)
    (h : state[i]? = some Cell.E) :
    countEmpty (state.set i mark) + 1 = countEmpty state := by
  unfold countEmpty
  induction state generalizing i with
  | nil => simp at h
  | cons c rest ih =>
    cases i with
    | zero =>
      simp only [List.getElem?_cons_zero, Option.some.injEq] at h
      subst h
      simp [List.set, List.count_cons, hm]
    | succ k =>
      simp only [List.getElem?_cons_succ] at h
      have := ih k h
      simp only [List.set, List.count_cons]
      omega

theorem length_set_board (state : Board) (i : Nat) (mark : Cell) :
    (state.set i mark).length = state.length :=
  List.length_set _ _ _

theorem minimaxLoop_frame (recur : Board → Option (Score × Board)) (mark : Cell)
    (pick : Score → Score → Score) (hrec : ∀ s r, recur s = some r → r.2 = s) :
    ∀ (is : List Nat) (state : Board) (best : Score) (r : Score × Board),
      (∀ i ∈ is, i < 9) →
      minimaxLoop recur mark pick is state best = some r → r.2 = state := by
  intro is
  induction is with
  | nil =>
    intro state best r _ h
    simp only [minimaxLoop, Option.some.injEq] at h
    rw [← h]
  | cons i rest ih =>
    intro state best r hlt h
    have hrest : ∀ k ∈ rest, k < 9 := fun k hk => hlt k (List.mem_cons_of_mem _ hk)
    rw [minimaxLoop] at h
    split at h
    · rename_i hE
      cases hr : recur (state.set i mark) with
      | none => rw [hr] at h; exact Option.noConfusion h
      | some p =>
        obtain ⟨score, state1⟩ := p
        rw [hr] at h
        simp only at h
        have h1 : state1 = state.set i mark := hrec _ _ hr
        rw [h1, set_restore state i mark hE] at h
        exact ih state _ r hrest h
    · exact ih state best r hrest h

theorem minimax_frame :
    ∀ (fuel : Nat) (state : Board) (depth : Int) (isMaximizing : Bool) (r : Score × Board),
      minimax fuel state depth isMaximizing = some r → r.2 = state := by
  intro fuel
  induction fuel with
  | zero =>
    intro state depth m r h
    simp [minimax] at h
  | succ n ih =>
    intro state depth m r h
    rw [minimax] at h
    split at h
    · simp only [Option.some.injEq] at h; rw [← h]
    · simp only [Option.some.injEq] at h; rw [← h]
    · simp only [Option.some.injEq] at h; rw [← h]
    · split at h
      · exact minimaxLoop_frame _ _ _ (fun s r hr => ih s _ _ r hr) _ _ _ _
          (fun i hi => List.mem_range.mp hi) h
      · exact minimaxLoop_frame _ _ _ (fun s r hr => ih s _ _ r hr) _ _ _ _
          (fun i hi => List.mem_range.mp hi) h

theorem bestMoveLoop_frame (fuel : Nat) :
    ∀ (is : List Nat) (state : Board) (bestScore : Score) (move : Option Nat)
      (r : Option Nat × Board),
      bestMoveLoop fuel is state bestScore move = some r → r.2 = state := by
  intro is
  induction is with
  | nil =>
    intro state bestScore move r h
    simp only [bestMoveLoop, Option.some.injEq] at h
    rw [← h]
  | cons i rest ih =>
    intro state bestScore move r h
    rw [bestMoveLoop] at h
    split at h
    · rename_i hE
      cases hr : minimax fuel (state.set i Cell.O) 0 false with
      | none => rw [hr] at h; exact Option.noConfusion h
      | some p =>
        obtain ⟨score, state1⟩ := p
        rw [hr] at h
        simp only at h
        have h1 : state1 = state.set i Cell.O := minimax_frame _ _ _ _ _ hr
        rw [h1, set_restore state i Cell.O hE] at h
        split at h
        · exact ih state _ _ r h
        · exact ih state _ _ r h
    · exact ih state bestScore move r h

theorem minimaxLoop_eq (recur : Board → Option (Score × Board)) (mark : Cell)
    (pick : Score → Score → Score) (f : Nat → Score) :
    ∀ (is : List Nat) (state : Board) (best : Score),
      (∀ i ∈ is, state[i]? = some Cell.E →
        recur (state.set i mark) = some (f i, state.set i mark)) →
      minimaxLoop recur mark pick is state best =
        some (is.foldl (fun acc i => if state[i]? = some Cell.E then pick acc (f i) else acc)
          best, state) := by
  intro is
  induction is with
  | nil => intro state best _; rfl
  | cons i rest ih =>
    intro state best h
    have hrest : ∀ k ∈ rest, state[k]? = some Cell.E →
        recur (state.set k mark) = some (f k, state.set k mark) :=
      fun k hk => h k (List.mem_cons_of_mem _ hk)
    rw [minimaxLoop, List.foldl_cons]
    by_cases hE : state[i]? = some Cell.E
    · rw [if_pos hE, if_pos hE, h i (List.mem_cons_self _ _) hE]
      simp only
      rw [set_restore state i mark hE]
      exact ih state _ hrest
    · rw [if_neg hE, if_neg hE]
      exact ih state best hrest

theorem minimax_eq :
    ∀ (fuel : Nat) (state : Board) (depth : Int) (isMaximizing : Bool),
      countEmpty state < fuel →
      minimax fuel state depth isMaximizing
        = some (searchScore fuel state depth isMaximizing, state) := by
  intro fuel
  induction fuel with
  | zero => intro state depth m h; omega
  | succ n ih =>
    intro state depth m h
    rw [minimax, searchScore]
    split
    · rfl
    · rfl
    · rfl
    · split
      · apply minimaxLoop_eq _ _ _ (fun i => searchScore n (state.set i Cell.O) (depth + 1) false)
        intro i _ hE
        have := countEmpty_set state i Cell.O (by decide) hE
        exact ih _ _ _ (by omega)
      · apply minimaxLoop_eq _ _ _ (fun i => searchScore n (state.set i Cell.X) (depth + 1) true)
        intro i _ hE
        have := countEmpty_set state i Cell.X (by decide) hE
        exact ih _ _ _ (by omega)

theorem bestMoveLoop_eq (fuel : Nat) (f : Nat → Score) :
    ∀ (is : List Nat) (state : Board) (bestScore : Score) (move : Option Nat),
      (∀ i ∈ is, state[i]? = some Cell.E →
        minimax fuel (state.set i Cell.O) 0 false = some (f i, state.set i Cell.O)) →
      bestMoveLoop fuel is state bestScore move =
        some ((is.foldl (pickBest state f) (bestScore, move)).2, state) := by
  intro is
  induction is with
  | nil => intro state bestScore move _; rfl
  | cons i rest ih =>
    intro state bestScore move h
    have hrest : ∀ k ∈ rest, state[k]? = some Cell.E →
        minimax fuel (state.set k Cell.O) 0 false = some (f k, state.set k Cell.O) :=
      fun k hk => h k (List.mem_cons_of_mem _ hk)
    rw [bestMoveLoop, List.foldl_cons, pickBest]
    by_cases hE : state[i]? = some Cell.E
    · rw [if_pos hE, if_pos hE, h i (List.mem_cons_self _ _) hE]
      simp only
      rw [set_restore state i Cell.O hE]
      by_cases hgt : Score.gt (f i) bestScore = true
      · rw [if_pos hgt, if_pos hgt]
        exact ih state _ _ hrest
      · rw [if_neg hgt, if_neg hgt]
        exact ih state _ _ hrest
    · rw [if_neg hE, if_neg hE]
      exact ih state _ _ hrest

theorem foldMax_range (P : Nat → Prop) [DecidablePred P] (f : Nat → Score) (g : Nat → Int)
    (hf : ∀ i, P i → f i = Score.fin (g i)) (n : Nat) :
    ((∀ i < n, ¬ P i) ∧
      (List.range n).foldl (fun acc i => if P i then Score.max acc (f i) else acc) Score.negInf
        = Score.negInf) ∨
    (∃ j < n, P j ∧
      (List.range n).foldl (fun acc i => if P i then Score.max acc (f i) else acc) Score.negInf
        = Score.fin (g j) ∧ ∀ i < n, P i → g i ≤ g j) := by
  induction n with
  | zero => left; exact ⟨fun i hi => absurd hi (Nat.not_lt_zero i), rfl⟩
  | succ n ih =>
    rw [List.range_succ, List.foldl_append, List.foldl_cons, List.foldl_nil]
    by_cases hP : P n
    · rw [if_pos hP, hf n hP]
      rcases ih with ⟨hno, hval⟩ | ⟨j, hj, hPj, hval, hmax⟩
      · right
        refine ⟨n, Nat.lt_succ_self n, hP, by rw [hval]; rfl, ?_⟩
        intro i hi hPi
        rcases Nat.lt_succ_iff_lt_or_eq.mp hi with h1 | h1
        · exact absurd hPi (hno i h1)
        · rw [h1]
      · right
        rw [hval]
        by_cases hle : g j ≤ g n
        · refine ⟨n, Nat.lt_succ_self n, hP, by simp [Score.max, hle], ?_⟩
          intro i hi hPi
          rcases Nat.lt_succ_iff_lt_or_eq.mp hi with h1 | h1
          · exact le_trans (hmax i h1 hPi) hle
          · rw [h1]
        · refine ⟨j, Nat.lt_succ_of_lt hj, hPj, by simp [Score.max, hle], ?_⟩
          intro i hi hPi
          rcases Nat.lt_succ_iff_lt_or_eq.mp hi with h1 | h1
          · exact hmax i h1 hPi
          · rw [h1]; omega
    · rw [if_neg hP]
      rcases ih with ⟨hno, hval⟩ | ⟨j, hj, hPj, hval, hmax⟩
      · left
        refine ⟨?_, hval⟩
        intro i hi
        rcases Nat.lt_succ_iff_lt_or_eq.mp hi with h1 | h1
        · exact hno i h1
        · rw [h1]; exact hP
      · right
        refine ⟨j, Nat.lt_succ_of_lt hj, hPj, hval, ?_⟩
        intro i hi hPi
        rcases Nat.lt_succ_iff_lt_or_eq.mp hi with h1 | h1
        · exact hmax i h1 hPi
        · rw [h1] at hPi; exact absurd hPi hP

theorem foldMin_range (P : Nat → Prop) [DecidablePred P] (f : Nat → Score) (g : Nat → Int)
    (hf : ∀ i, P i → f i = Score.fin (g i)) (n : Nat) :
    ((∀ i < n, ¬ P i) ∧
      (List.range n).foldl (fun acc i => if P i then Score.min acc (f i) else acc) Score.posInf
        = Score.posInf) ∨
    (∃ j < n, P j ∧
      (List.range n).foldl (fun acc i => if P i then Score.min acc (f i) else acc) Score.posInf
        = Score.fin (g j) ∧ ∀ i < n, P i → g j ≤ g i) := by
  induction n with
  | zero => left; exact ⟨fun i hi => absurd hi (Nat.not_lt_zero i), rfl⟩
  | succ n ih =>
    rw [List.range_succ, List.foldl_append, List.foldl_cons, List.foldl_nil]
    by_cases hP : P n
    · rw [if_pos hP, hf n hP]
      rcases ih with ⟨hno, hval⟩ | ⟨j, hj, hPj, hval, hmin⟩
      · right
        refine ⟨n, Nat.lt_succ_self n, hP, by rw [hval]; rfl, ?_⟩
        intro i hi hPi
        rcases Nat.lt_succ_iff_lt_or_eq.mp hi with h1 | h1
        · exact absurd hPi (hno i h1)
        · rw [h1]
      · right
        rw [hval]
        by_cases hle : g j ≤ g n
        · refine ⟨j, Nat.lt_succ_of_lt hj, hPj, by simp [Score.min, hle], ?_⟩
          intro i hi hPi
          rcases Nat.lt_succ_iff_lt_or_eq.mp hi with h1 | h1
          · exact hmin i h1 hPi
          · rw [h1]; exact hle
        · refine ⟨n, Nat.lt_succ_self n, hP, by simp [Score.min, hle], ?_⟩
          intro i hi hPi
          rcases Nat.lt_succ_iff_lt_or_eq.mp hi with h1 | h1
          · have := hmin i h1 hPi
            omega
          · rw [h1]
    · rw [if_neg hP]
      rcases ih with ⟨hno, hval⟩ | ⟨j, hj, hPj, hval, hmin⟩
      · left
        refine ⟨?_, hval⟩
        intro i hi
        rcases Nat.lt_succ_iff_lt_or_eq.mp hi with h1 | h1
        · exact hno i h1
        · rw [h1]; exact hP
      · right
        refine ⟨j, Nat.lt_succ_of_lt hj, hPj, hval, ?_⟩
        intro i hi hPi
        rcases Nat.lt_succ_iff_lt_or_eq.mp hi with h1 | h1
        · exact hmin i h1 hPi
        · rw [h1] at hPi; exact absurd hPi hP

theorem foldBest_range (state : Board) (f : Nat → Score) (g : Nat → Int)
    (hf : ∀ i, state[i]? = some Cell.E → f i = Score.fin (g i)) (n : Nat) :
    ((∀ i < n, state[i]? ≠ some Cell.E) ∧
      (List.range n).foldl (pickBest state f) (Score.negInf, none) = (Score.negInf, none)) ∨
    (∃ j < n, state[j]? = some Cell.E ∧
      (List.range n).foldl (pickBest state f) (Score.negInf, none) = (Score.fin (g j), some j) ∧
      (∀ i < n, state[i]? = some Cell.E → g i ≤ g j) ∧
      ∀ i < j, state[i]? = some Cell.E → g i < g j) := by
  induction n with
  | zero => left; exact ⟨fun i hi => absurd hi (Nat.not_lt_zero i), rfl⟩
  | succ n ih =>
    rw [List.range_succ, List.foldl_append, List.foldl_cons, List.foldl_nil]
    by_cases hP : state[n]? = some Cell.E
    · rcases ih with ⟨hno, hval⟩ | ⟨j, hj, hPj, hval, hmax, hfirst⟩
      · right
        refine ⟨n, Nat.lt_succ_self n, hP, ?_, ?_, ?_⟩
        · rw [hval, pickBest, if_pos hP, hf n hP]
          simp [Score.gt]
        · intro i hi hPi
          rcases Nat.lt_succ_iff_lt_or_eq.mp hi with h1 | h1
          · exact absurd hPi (hno i h1)
          · rw [h1]
        · intro i hi hPi
          exact absurd hPi (hno i hi)
      · right
        rw [hval, pickBest, if_pos hP, hf n hP]
        by_cases hlt : g j < g n
        · refine ⟨n, Nat.lt_succ_self n, hP, by simp [Score.gt, hlt], ?_, ?_⟩
          · intro i hi hPi
            rcases Nat.lt_succ_iff_lt_or_eq.mp hi with h1 | h1
            · have := hmax i h1 hPi
              omega
            · rw [h1]
          · intro i hi hPi
            have := hmax i hi hPi
            omega
        · refine ⟨j, Nat.lt_succ_of_lt hj, hPj, by simp [Score.gt, hlt], ?_, hfirst⟩
          intro i hi hPi
          rcases Nat.lt_succ_iff_lt_or_eq.mp hi with h1 | h1
          · exact hmax i h1 hPi
          · rw [h1]; omega
    · rw [pickBest, if_neg hP]
      rcases ih with ⟨hno, hval⟩ | ⟨j, hj, hPj, hval, hmax, hfirst⟩
      · left
        refine ⟨?_, hval⟩
        intro i hi
        rcases Nat.lt_succ_iff_lt_or_eq.mp hi with h1 | h1
        · exact hno i h1
        · rw [h1]; exact hP
      · right
        refine ⟨j, Nat.lt_succ_of_lt hj, hPj, hval, ?_, hfirst⟩
        intro i hi hPi
        rcases Nat.lt_succ_iff_lt_or_eq.mp hi with h1 | h1
        · exact hmax i h1 hPi
        · rw [h1] at hPi; exact absurd hPi hP

/-! ## The value of a position -/

theorem XWins_of_result (state : Board) (m : Bool) (w : Winner) (hw : getWinner state = some w) :
    XWins state m ↔ w = Winner.mark Cell.X := by
  constructor
  · intro h
    cases h with
    | won _ _ h1 => rw [hw] at h1; exact Option.some.inj h1
    | xMove _ _ h1 _ _ => rw [hw] at h1; exact Option.noConfusion h1
    | oMove _ h1 _ => rw [hw] at h1; exact Option.noConfusion h1
  · intro h
    exact XWins.won _ _ (by rw [hw, h])

theorem XWins_xTurn (state : Board) (hw : getWinner state = none) :
    XWins state false ↔ ∃ i, state[i]? = some Cell.E ∧ XWins (state.set i Cell.X) true := by
  constructor
  · intro h
    cases h with
    | won _ _ h1 => rw [hw] at h1; exact Option.noConfusion h1
    | xMove _ i _ h2 h3 => exact ⟨i, h2, h3⟩
  · rintro ⟨i, h2, h3⟩
    exact XWins.xMove _ i hw h2 h3

theorem XWins_oTurn (state : Board) (hw : getWinner state = none) :
    XWins state true ↔ ∀ i, state[i]? = some Cell.E → XWins (state.set i Cell.O) false := by
  constructor
  · intro h
    cases h with
    | won _ _ h1 => rw [hw] at h1; exact Option.noConfusion h1
    | oMove _ _ h2 => exact h2
  · intro h
    exact XWins.oMove _ hw h

theorem getWinnerFrom_none_mem (state : Board) (ls : List (Nat × Nat × Nat))
    (h : getWinnerFrom state ls = none) : Cell.E ∈ state := by
  induction ls with
  | nil =>
    rw [getWinnerFrom] at h
    by_contra hE
    rw [if_neg hE] at h
    exact Option.noConfusion h
  | cons l rest ih =>
    obtain ⟨a, b, c⟩ := l
    rw [getWinnerFrom] at h
    split at h
    · split at h
      · exact Option.noConfusion h
      · exact ih h
    · exact ih h

theorem exists_empty_of_inProgress (state : Board) (h : getWinner state = none) :
    ∃ i, i < state.length ∧ state[i]? = some Cell.E := by
  have hmem := getWinnerFrom_none_mem state winConditions h
  obtain ⟨i, hi, hget⟩ := List.getElem_of_mem hmem
  exact ⟨i, hi, by rw [List.getElem?_eq_getElem hi, hget]⟩

theorem lt_length_of_get (state : Board) (i : Nat) (c : Cell) (h : state[i]? = some c) :
    i < state.length := by
  by_contra hge
  rw [List.getElem?_eq_none (by omega)] at h
  exact Option.noConfusion h

theorem score_sign :
    ∀ (fuel : Nat) (state : Board) (depth : Int) (m : Bool),
      state.length = 9 → countEmpty state < fuel → depth + countEmpty state < 10 →
      ∃ z, searchScore fuel state depth m = Score.fin z ∧ (z < 0 ↔ XWins state m) := by
  intro fuel
  induction fuel with
  | zero => intro state depth m _ h; omega
  | succ n ih =>
    intro state depth m hlen hfuel hdepth
    rw [searchScore]
    split
    · rename_i hw
      refine ⟨10 - depth, rfl, ?_⟩
      rw [XWins_of_result state m _ hw]
      constructor
      · intro h; omega
      · intro h; cases h
    · rename_i hw
      refine ⟨depth - 10, rfl, ?_⟩
      rw [XWins_of_result state m _ hw]
      constructor
      · intro _; rfl
      · intro _; omega
    · rename_i w hO hX hw
      refine ⟨0, rfl, ?_⟩
      rw [XWins_of_result state m _ hw]
      constructor
      · intro h; omega
      · intro h; exact absurd h hX
    · rename_i hw
      obtain ⟨i0, hi0, hE0⟩ := exists_empty_of_inProgress state hw
      rw [hlen] at hi0
      have child : ∀ (mark : Cell) (m1 : Bool), mark ≠ Cell.E → ∀ i, state[i]? = some Cell.E →
          searchScore n (state.set i mark) (depth + 1) m1
            = Score.fin (searchScore n (state.set i mark) (depth + 1) m1).toInt ∧
          ((searchScore n (state.set i mark) (depth + 1) m1).toInt < 0
            ↔ XWins (state.set i mark) m1) := by
        intro mark m1 hmark i hE
        have hc := countEmpty_set state i mark hmark hE
        obtain ⟨z, hz, hsign⟩ := ih (state.set i mark) (depth + 1) m1
          (by rw [length_set_board]; exact hlen) (by omega) (by omega)
        rw [hz]
        exact ⟨rfl, hsign⟩
      have inRange : ∀ i, state[i]? = some Cell.E → i < 9 := by
        intro i hE
        have := lt_length_of_get state i _ hE
        omega
      cases m
      case true =>
        rw [if_pos rfl]
        rcases foldMax_range (fun i => state[i]? = some Cell.E)
          (fun i => searchScore n (state.set i Cell.O) (depth + 1) false)
          (fun i => (searchScore n (state.set i Cell.O) (depth + 1) false).toInt)
          (fun i hE => (child Cell.O false (by decide) i hE).1) 9 with
          ⟨hno, _⟩ | ⟨j, _, hPj, hval, hmax⟩
        · exact absurd hE0 (hno i0 hi0)
        · refine ⟨_, hval, ?_⟩
          rw [XWins_oTurn state hw]
          constructor
          · intro hneg i hE
            have := hmax i (inRange i hE) hE
            exact (child Cell.O false (by decide) i hE).2.1 (by omega)
          · intro hall
            exact (child Cell.O false (by decide) j hPj).2.2 (hall j hPj)
      case false =>
        rw [if_neg Bool.false_ne_true]
        rcases foldMin_range (fun i => state[i]? = some Cell.E)
          (fun i => searchScore n (state.set i Cell.X) (depth + 1) true)
          (fun i => (searchScore n (state.set i Cell.X) (depth + 1) true).toInt)
          (fun i hE => (child Cell.X true (by decide) i hE).1) 9 with
          ⟨hno, _⟩ | ⟨j, _, hPj, hval, hmin⟩
        · exact absurd hE0 (hno i0 hi0)
        · refine ⟨_, hval, ?_⟩
          rw [XWins_xTurn state hw]
          constructor
          · intro hneg
            exact ⟨j, hPj, (child Cell.X true (by decide) j hPj).2.1 hneg⟩
          · rintro ⟨i, hE, hx⟩
            have h1 := (child Cell.X true (by decide) i hE).2.2 hx
            have := hmin i (inRange i hE) hE
            omega

/-! ## The hard strategy -/

theorem countEmpty_le_length (state : Board) : countEmpty state ≤ state.length :=
  List.count_le_length _ _

theorem minimax_child (fuel : Nat) (state : Board) (hlen : state.length = 9)
    (hfuel : countEmpty state ≤ fuel) (i : Nat) (hE : state[i]? = some Cell.E) :
    minimax fuel (state.set i Cell.O) 0 false
        = some (Score.fin (searchScore fuel (state.set i Cell.O) 0 false).toInt,
            state.set i Cell.O) ∧
    ((searchScore fuel (state.set i Cell.O) 0 false).toInt < 0
        ↔ XWins (state.set i Cell.O) false) := by
  have hc := countEmpty_set state i Cell.O (by decide) hE
  have hl := countEmpty_le_length state
  obtain ⟨z, hz, hsign⟩ := score_sign fuel (state.set i Cell.O) 0 false
    (by rw [length_set_board]; exact hlen) (by omega) (by omega)
  rw [minimax_eq fuel _ 0 false (by omega), hz]
  exact ⟨rfl, hsign⟩

theorem bestMove_spec (fuel : Nat) (state : Board) (hlen : state.length = 9)
    (hfuel : countEmpty state ≤ fuel) :
    ((∀ i : Nat, state[i]? ≠ some Cell.E) ∧ bestMove fuel state = some (none, state)) ∨
    (∃ j, state[j]? = some Cell.E ∧ bestMove fuel state = some (some j, state) ∧
      ∀ i, state[i]? = some Cell.E →
        ((searchScore fuel (state.set i Cell.O) 0 false).toInt
            ≤ (searchScore fuel (state.set j Cell.O) 0 false).toInt) ∧
        (i < j → (searchScore fuel (state.set i Cell.O) 0 false).toInt
            < (searchScore fuel (state.set j Cell.O) 0 false).toInt)) := by
  have hloop := bestMoveLoop_eq fuel
    (fun i => Score.fin (searchScore fuel (state.set i Cell.O) 0 false).toInt)
    (List.range 9) state Score.negInf none
    (fun i _ hE => (minimax_child fuel state hlen hfuel i hE).1)
  have inRange : ∀ i : Nat, state[i]? = some Cell.E → i < 9 := by
    intro i hE
    have := lt_length_of_get state i _ hE
    omega
  unfold bestMove
  rw [hloop]
  rcases foldBest_range state
      (fun i => Score.fin (searchScore fuel (state.set i Cell.O) 0 false).toInt)
      (fun i => (searchScore fuel (state.set i Cell.O) 0 false).toInt)
      (fun _ _ => rfl) 9 with ⟨hno, hval⟩ | ⟨j, _, hPj, hval, hmax, hfirst⟩
  · left
    refine ⟨?_, by rw [hval]⟩
    intro i hE
    exact hno i (inRange i hE) hE
  · right
    refine ⟨j, hPj, by rw [hval], ?_⟩
    intro i hE
    exact ⟨hmax i (inRange i hE) hE, fun hij => hfirst i hij hE⟩

/-- Claim C8. The search leaves the board untouched: whenever `minimax` returns,
the array it leaves is the array it was given, and it does return once the call
depth available exceeds the number of empty cells; the same holds for `bestMove`. -/
theorem search_restores_board (state : Board) (depth : Int) (isMaximizing : Bool) :
    (∀ fuel r, minimax fuel state depth isMaximizing = some r → r.2 = state) ∧
    (∀ fuel, countEmpty state < fuel →
      ∃ score, minimax fuel state depth isMaximizing = some (score, state)) ∧
    (∀ fuel r, bestMove fuel state = some r → r.2 = state) ∧
    (∀ fuel, countEmpty state ≤ fuel → ∃ move, bestMove fuel state = some (move, state)) := by
  refine ⟨fun fuel r h => minimax_frame fuel state depth isMaximizing r h,
    fun fuel h => ⟨_, minimax_eq fuel state depth isMaximizing h⟩,
    fun fuel r h => bestMoveLoop_frame fuel _ _ _ _ r h, ?_⟩
  intro fuel hfuel
  refine ⟨_, bestMoveLoop_eq fuel (fun i => searchScore fuel (state.set i Cell.O) 0 false)
    (List.range 9) state Score.negInf none ?_⟩
  intro i _ hE
  have hc := countEmpty_set state i Cell.O (by decide) hE
  exact minimax_eq fuel _ 0 false (by omega)

/-- On the board `[X,O,"",X,O,"","","",""]` with `X` to move, both `minimax` and
`bestMove` return and leave the board as it was. -/
theorem search_restores_board_witness :
    (∃ score, minimax 6
        [Cell.X, Cell.O, Cell.E, Cell.X, Cell.O, Cell.E, Cell.E, Cell.E, Cell.E] 2 false
      = some (score, [Cell.X, Cell.O, Cell.E, Cell.X, Cell.O, Cell.E, Cell.E, Cell.E, Cell.E])) ∧
    (∃ move, bestMove 5
        [Cell.X, Cell.O, Cell.E, Cell.X, Cell.O, Cell.E, Cell.E, Cell.E, Cell.E]
      = some (move, [Cell.X, Cell.O, Cell.E, Cell.X, Cell.O, Cell.E, Cell.E, Cell.E, Cell.E])) :=
  ⟨(search_restores_board _ 2 false).2.1 6 (by decide),
   (search_restores_board _ 2 false).2.2.2 5 (by decide)⟩

/-- Claim C4. On a nine-cell board with an empty cell, `bestMove` returns the
lowest empty index whose score `minimax(board with O there, 0, false)` is maximal:
every empty cell scores at most the returned one, and every empty cell with a
smaller index scores strictly less. All these scores are finite. -/
theorem bestMove_first_max (fuel : Nat) (state : Board) (hlen : state.length = 9)
    (hfuel : countEmpty state ≤ fuel) (hE : Cell.E ∈ state) :
    ∃ j v, bestMove fuel state = some (some j, state) ∧ state[j]? = some Cell.E ∧
      minimax fuel (state.set j Cell.O) 0 false = some (Score.fin v, state.set j Cell.O) ∧
      ∀ i, state[i]? = some Cell.E →
        ∃ w, minimax fuel (state.set i Cell.O) 0 false = some (Score.fin w, state.set i Cell.O) ∧
          w ≤ v ∧ (i < j → w < v) := by
  rcases bestMove_spec fuel state hlen hfuel with ⟨hno, _⟩ | ⟨j, hPj, hbest, hall⟩
  · obtain ⟨i, hi⟩ := List.mem_iff_getElem?.mp hE
    exact absurd hi (hno i)
  · refine ⟨j, _, hbest, hPj, (minimax_child fuel state hlen hfuel j hPj).1, ?_⟩
    intro i hi
    exact ⟨_, (minimax_child fuel state hlen hfuel i hi).1, (hall i hi).1, (hall i hi).2⟩

/-- The statement of `bestMove_first_max` on the board `[X,O,X,"",O,"",O,X,""]`. -/
theorem bestMove_first_max_witness :
    ∃ j v, bestMove 3 [Cell.X, Cell.O, Cell.X, Cell.E, Cell.O, Cell.E, Cell.O, Cell.X, Cell.E]
        = some (some j, [Cell.X, Cell.O, Cell.X, Cell.E, Cell.O, Cell.E, Cell.O, Cell.X, Cell.E]) ∧
      [Cell.X, Cell.O, Cell.X, Cell.E, Cell.O, Cell.E, Cell.O, Cell.X, Cell.E][j]? = some Cell.E ∧
      minimax 3
        ([Cell.X, Cell.O, Cell.X, Cell.E, Cell.O, Cell.E, Cell.O, Cell.X, Cell.E].set j Cell.O)
        0 false
        = some (Score.fin v,
            [Cell.X, Cell.O, Cell.X, Cell.E, Cell.O, Cell.E, Cell.O, Cell.X, Cell.E].set j Cell.O) ∧
      ∀ i, [Cell.X, Cell.O, Cell.X, Cell.E, Cell.O, Cell.E, Cell.O, Cell.X, Cell.E][i]?
          = some Cell.E →
        ∃ w, minimax 3
          ([Cell.X, Cell.O, Cell.X, Cell.E, Cell.O, Cell.E, Cell.O, Cell.X, Cell.E].set i Cell.O)
          0 false
          = some (Score.fin w,
            [Cell.X, Cell.O, Cell.X, Cell.E, Cell.O, Cell.E, Cell.O, Cell.X, Cell.E].set i Cell.O) ∧
          w ≤ v ∧ (i < j → w < v) :=
  bestMove_first_max 3 _ rfl (by decide) (by decide)

/-! ## The move selectors -/

theorem floorPick_spec (l : List Nat) (r : ℚ) (hr0 : 0 ≤ r) (hr1 : r < 1) :
    (l ≠ [] → ∃ i ∈ l,
      (match Rat.floor (r * l.length) with
        | Int.ofNat k => l[k]?
        | Int.negSucc _ => none) = some i) ∧
    (l = [] →
      (match Rat.floor (r * l.length) with
        | Int.ofNat k => l[k]?
        | Int.negSucc _ => none) = none) := by
  constructor
  · intro hne
    have hpos : 0 < l.length := List.length_pos.mpr hne
    have hposq : (0 : ℚ) < (l.length : ℚ) := by exact_mod_cast hpos
    have hfl : Rat.floor (r * l.length) = ⌊r * (l.length : ℚ)⌋ := rfl
    have h0 : 0 ≤ ⌊r * (l.length : ℚ)⌋ := Int.floor_nonneg.mpr (mul_nonneg hr0 hposq.le)
    have h1 : ⌊r * (l.length : ℚ)⌋ < (l.length : ℤ) := by
      rw [Int.floor_lt]
      have : r * (l.length : ℚ) < 1 * (l.length : ℚ) := mul_lt_mul_of_pos_right hr1 hposq
      simpa using this
    obtain ⟨k, hk⟩ := Int.eq_ofNat_of_zero_le h0
    rw [hk] at h1
    have hkl : k < l.length := by exact_mod_cast h1
    rw [hfl, hk]
    exact ⟨l[k], List.getElem_mem _, by simp [List.getElem?_eq_getElem hkl]⟩
  · intro hnil
    subst hnil
    have hfl : Rat.floor (r * (([] : List Nat).length : ℚ)) = 0 := by
      have : r * (([] : List Nat).length : ℚ) = ((0 : ℤ) : ℚ) := by simp
      rw [this]
      exact (Int.floor_intCast (0 : ℤ) : ⌊((0 : ℤ) : ℚ)⌋ = 0)
    rw [hfl]
    rfl

theorem mem_emptyIndices (state : Board) (i : Nat) :
    i ∈ (state.enum.map (fun p => if p.2 = Cell.E then some p.1 else none)).filterMap id
      ↔ state[i]? = some Cell.E := by
  rw [List.mem_filterMap]
  constructor
  · rintro ⟨o, ho, hid⟩
    rw [List.mem_map] at ho
    obtain ⟨p, hp, hpo⟩ := ho
    have hget := List.mem_enum_iff_getElem?.mp hp
    by_cases hc : p.2 = Cell.E
    · rw [if_pos hc] at hpo
      rw [← hpo] at hid
      simp only [id, Option.some.injEq] at hid
      rw [← hid, hget, hc]
    · rw [if_neg hc] at hpo
      rw [← hpo] at hid
      exact Option.noConfusion hid
  · intro h
    refine ⟨some i, ?_, rfl⟩
    rw [List.mem_map]
    exact ⟨(i, Cell.E), List.mem_enum_iff_getElem?.mpr h, by simp⟩

theorem randomMove_spec (state : Board) (r : ℚ) (hr0 : 0 ≤ r) (hr1 : r < 1) :
    (Cell.E ∈ state → ∃ i, randomMove state r = some i ∧ state[i]? = some Cell.E) ∧
    (Cell.E ∉ state → randomMove state r = none) := by
  have hspec := floorPick_spec
    ((state.enum.map (fun p => if p.2 = Cell.E then some p.1 else none)).filterMap id) r hr0 hr1
  constructor
  · intro hE
    obtain ⟨i0, hi0⟩ := List.mem_iff_getElem?.mp hE
    have hmem := (mem_emptyIndices state i0).mpr hi0
    obtain ⟨i, hi, hpick⟩ := hspec.1 (List.ne_nil_of_mem hmem)
    exact ⟨i, hpick, (mem_emptyIndices state i).mp hi⟩
  · intro hE
    apply hspec.2
    apply List.eq_nil_iff_forall_not_mem.mpr
    intro i hi
    exact hE (List.getElem?_mem ((mem_emptyIndices state i).mp hi))

theorem twoAndEmpty_empty (state : Board) (who : Cell) (l : Nat × Nat × Nat) (e : Nat)
    (h : twoAndEmpty state who l e) : state[e]? = some Cell.E := by
  rcases h with ⟨h1, _, _, he⟩ | ⟨_, h1, _, he⟩ | ⟨_, _, h1, he⟩ <;> rw [he] <;> exact h1

theorem mediumScan_some (state : Board) (who : Cell) (hw : who ≠ Cell.E)
    (ls : List (Nat × Nat × Nat)) (v : Option Nat) (h : mediumScan state who ls = some v) :
    ∃ e, v = some e ∧ state[e]? = some Cell.E := by
  induction ls with
  | nil => rw [mediumScan] at h; exact Option.noConfusion h
  | cons l rest ih =>
    by_cases hl : ∃ e, twoAndEmpty state who l e
    · obtain ⟨e, he⟩ := hl
      rw [mediumScan_step_hit state who hw l rest e he] at h
      exact ⟨e, (Option.some.inj h).symm, twoAndEmpty_empty state who l e he⟩
    · rw [mediumScan_step_miss state who hw l rest (fun e he => hl ⟨e, he⟩)] at h
      exact ih h

theorem mediumMove_spec (state : Board) (r : ℚ) (hr0 : 0 ≤ r) (hr1 : r < 1) :
    (Cell.E ∈ state → ∃ i, mediumMove state r = some i ∧ state[i]? = some Cell.E) ∧
    (Cell.E ∉ state → mediumMove state r = none) := by
  constructor
  · intro hE
    unfold mediumMove
    cases h1 : mediumScan state Cell.O winConditions with
    | some v =>
      obtain ⟨e, hv, he⟩ := mediumScan_some state Cell.O (by decide) _ v h1
      exact ⟨e, hv, he⟩
    | none =>
      cases h2 : mediumScan state Cell.X winConditions with
      | some v =>
        obtain ⟨e, hv, he⟩ := mediumScan_some state Cell.X (by decide) _ v h2
        exact ⟨e, hv, he⟩
      | none => exact (randomMove_spec state r hr0 hr1).1 hE
  · intro hE
    have hno : ∀ who, ∀ l ∈ winConditions, ∀ e, ¬ twoAndEmpty state who l e :=
      fun who l _ e he => hE (List.getElem?_mem (twoAndEmpty_empty state who l e he))
    unfold mediumMove
    rw [mediumScan_none state Cell.O (by decide) _ (hno Cell.O),
      mediumScan_none state Cell.X (by decide) _ (hno Cell.X)]
    exact (randomMove_spec state r hr0 hr1).2 hE

/-- Claim C9. On a nine-cell board, for every random draw in `[0,1)`, each of
`randomMove`, `mediumMove` and `bestMove` returns the index (in `0..8`) of a cell
that is empty on that board when the board has an empty cell, and returns
`undefined` when it has none; so `undefined` is returned exactly on full boards. -/
theorem selectors_pick_empty (state : Board) (hlen : state.length = 9) (r : ℚ)
    (hr0 : 0 ≤ r) (hr1 : r < 1) (fuel : Nat) (hfuel : countEmpty state ≤ fuel) :
    (Cell.E ∈ state →
      (∃ i, randomMove state r = some i ∧ i < 9 ∧ state[i]? = some Cell.E) ∧
      (∃ i, mediumMove state r = some i ∧ i < 9 ∧ state[i]? = some Cell.E) ∧
      (∃ i, bestMove fuel state = some (some i, state) ∧ i < 9 ∧ state[i]? = some Cell.E)) ∧
    (Cell.E ∉ state →
      randomMove state r = none ∧ mediumMove state r = none ∧
      bestMove fuel state = some (none, state)) := by
  have inRange : ∀ i : Nat, state[i]? = some Cell.E → i < 9 := by
    intro i hE
    have := lt_length_of_get state i _ hE
    omega
  constructor
  · intro hE
    obtain ⟨i1, h1, e1⟩ := (randomMove_spec state r hr0 hr1).1 hE
    obtain ⟨i2, h2, e2⟩ := (mediumMove_spec state r hr0 hr1).1 hE
    refine ⟨⟨i1, h1, inRange i1 e1, e1⟩, ⟨i2, h2, inRange i2 e2, e2⟩, ?_⟩
    rcases bestMove_spec fuel state hlen hfuel with ⟨hno, _⟩ | ⟨j, e3, h3, _⟩
    · exact absurd e1 (hno i1)
    · exact ⟨j, h3, inRange j e3, e3⟩
  · intro hE
    refine ⟨(randomMove_spec state r hr0 hr1).2 hE, (mediumMove_spec state r hr0 hr1).2 hE, ?_⟩
    rcases bestMove_spec fuel state hlen hfuel with ⟨_, hb⟩ | ⟨j, hPj, _, _⟩
    · exact hb
    · exact absurd (List.getElem?_mem hPj) hE

/-- The statement of `selectors_pick_empty` on the board `[X,O,X,"",O,"",O,X,""]`
with the random draw `1/2`. -/
theorem selectors_pick_empty_witness :
    (0 : ℚ) ≤ 1 / 2 ∧ (1 / 2 : ℚ) < 1 ∧
    (∃ i, randomMove [Cell.X, Cell.O, Cell.X, Cell.E, Cell.O, Cell.E, Cell.O, Cell.X, Cell.E]
        (1 / 2) = some i ∧ i < 9 ∧
      [Cell.X, Cell.O, Cell.X, Cell.E, Cell.O, Cell.E, Cell.O, Cell.X, Cell.E][i]?
        = some Cell.E) ∧
    (∃ i, mediumMove [Cell.X, Cell.O, Cell.X, Cell.E, Cell.O, Cell.E, Cell.O, Cell.X, Cell.E]
        (1 / 2) = some i ∧ i < 9 ∧
      [Cell.X, Cell.O, Cell.X, Cell.E, Cell.O, Cell.E, Cell.O, Cell.X, Cell.E][i]?
        = some Cell.E) ∧
    (∃ i, bestMove 3 [Cell.X, Cell.O, Cell.X, Cell.E, Cell.O, Cell.E, Cell.O, Cell.X, Cell.E]
        = some (some i,
            [Cell.X, Cell.O, Cell.X, Cell.E, Cell.O, Cell.E, Cell.O, Cell.X, Cell.E]) ∧ i < 9 ∧
      [Cell.X, Cell.O, Cell.X, Cell.E, Cell.O, Cell.E, Cell.O, Cell.X, Cell.E][i]?
        = some Cell.E) :=
  ⟨by norm_num, by norm_num,
    (selectors_pick_empty
      [Cell.X, Cell.O, Cell.X, Cell.E, Cell.O, Cell.E, Cell.O, Cell.X, Cell.E] rfl (1 / 2)
      (by norm_num) (by norm_num) 3 (by decide)).1 (by decide)⟩

/-! ## A drawing strategy for `O` -/

theorem forceBoard_eq {α : Type} (b : Board) (k : Board → α) : forceBoard b k = k b := by
  induction b generalizing k with
  | nil => rfl
  | cons c cs ih =>
    rw [forceBoard]
    cases c <;> simp only [forceCell] <;> rw [ih]

theorem not_XWins_xTurn (b : Board) (hlen : b.length = 9)
    (h : ∀ i ∈ List.range 9, b[i]? = some Cell.E → ¬ XWins (b.set i Cell.X) true)
    (hw : getWinner b ≠ some (Winner.mark Cell.X)) : ¬ XWins b false := by
  intro hx
  cases hg : getWinner b with
  | some w =>
    have := (XWins_of_result b false w hg).1 hx
    rw [hg, this] at hw
    exact hw rfl
  | none =>
    obtain ⟨i, hE, hxi⟩ := (XWins_xTurn b hg).1 hx
    have hi : i < 9 := by
      have := lt_length_of_get b i _ hE
      omega
    exact h i (List.mem_range.mpr hi) hE hxi

theorem checkMoves_sound :
    ∀ (fuel : Nat) (c : Cert) (b : Board) (is : List Nat), b.length = 9 →
      checkMoves fuel c b is = true →
      ∀ i ∈ is, b[i]? = some Cell.E → ¬ XWins (b.set i Cell.X) true := by
  intro fuel
  induction fuel with
  | zero =>
    intro c b is _ h
    simp [checkMoves] at h
  | succ n ih =>
    intro c b is hlen h
    cases is with
    | nil => intro i hi; cases hi
    | cons i0 rest =>
      rw [checkMoves] at h
      have goal : (b[i0]? = some Cell.E → ¬ XWins (b.set i0 Cell.X) true) ∧
          ∃ c1, checkMoves n c1 b rest = true := by
        by_cases hE : b[i0]? = some Cell.E
        · rw [if_pos hE, forceBoard_eq] at h
          have hlen1 : (b.set i0 Cell.X).length = 9 := by rw [length_set_board]; exact hlen
          split at h
          · exact absurd h Bool.false_ne_true
          · rename_i w hX hw
            refine ⟨fun _ hx => hX ?_, c, h⟩
            rw [(XWins_of_result _ true w hw).1 hx]
          · rename_i hw
            split at h
            · exact absurd h Bool.false_ne_true
            · rename_i j sub rest1
              split at h
              · rename_i hEj
                rw [forceBoard_eq] at h
                have hlen2 : ((b.set i0 Cell.X).set j Cell.O).length = 9 := by
                  rw [length_set_board]; exact hlen1
                have key : ¬ XWins ((b.set i0 Cell.X).set j Cell.O) false →
                    ¬ XWins (b.set i0 Cell.X) true := by
                  intro hsafe hx
                  exact hsafe ((XWins_oTurn _ hw).1 hx j hEj)
                split at h
                · exact absurd h Bool.false_ne_true
                · rename_i w hX hw2
                  refine ⟨fun _ => key (fun hx => hX ?_), rest1, h⟩
                  rw [(XWins_of_result _ false w hw2).1 hx]
                · rename_i hw2
                  rw [Bool.and_eq_true] at h
                  refine ⟨fun _ => key ?_, rest1, h.2⟩
                  apply not_XWins_xTurn _ hlen2 (ih sub _ _ hlen2 h.1)
                  rw [hw2]
                  exact fun hc => Option.noConfusion hc
              · exact absurd h Bool.false_ne_true
        · rw [if_neg hE] at h
          exact ⟨fun hc => absurd hc hE, c, h⟩
      obtain ⟨hhead, c1, hc1⟩ := goal
      intro i hi hE
      rcases List.mem_cons.mp hi with h0 | h0
      · rw [h0]
        rw [h0] at hE
        exact hhead hE
      · exact ih c1 b rest hlen hc1 i h0 hE

set_option maxRecDepth 1000000 in
set_option maxHeartbeats 0 in
theorem drawTable_ok : checkMoves 64 drawTable initialGame.gameState (List.range 9) = true := by
  decide

theorem initial_safe : ¬ XWins initialGame.gameState false :=
  not_XWins_xTurn _ rfl (checkMoves_sound 64 drawTable _ _ rfl drawTable_ok) (by decide)

theorem checkResultFrom_eq (g : Game) (ls : List (Nat × Nat × Nat)) :
    checkResultFrom g ls =
      match getWinnerFrom g.gameState ls with
      | none => g
      | some (Winner.mark v) => { g with statusText := Status.wins v, gameActive := false }
      | some Winner.draw => { g with statusText := Status.draw, gameActive := false } := by
  induction ls with
  | nil =>
    rw [checkResultFrom, getWinnerFrom]
    by_cases hE : Cell.E ∈ g.gameState
    · rw [if_pos hE, if_pos hE]
    · rw [if_neg hE, if_neg hE]
  | cons l rest ih =>
    obtain ⟨a, b, c⟩ := l
    rw [checkResultFrom, getWinnerFrom]
    cases hv : g.gameState[a]? with
    | none => exact ih
    | some v =>
      simp only
      split
      · rfl
      · exact ih

/-! ## The hard strategy never loses -/

theorem checkResult_eq (g : Game) :
    checkResult g =
      match getWinner g.gameState with
      | none => g
      | some (Winner.mark v) => { g with statusText := Status.wins v, gameActive := false }
      | some Winner.draw => { g with statusText := Status.draw, gameActive := false } :=
  checkResultFrom_eq g winConditions

theorem finished_not_X (b : Board) (w : Winner) (hw : getWinner b = some w)
    (hX : w ≠ Winner.mark Cell.X) : w = Winner.mark Cell.O ∨ w = Winner.draw := by
  cases w with
  | draw => exact Or.inr rfl
  | mark v =>
    have hv := (getWinnerFrom_mark b winConditions v hw).1
    cases v
    · exact absurd rfl hv
    · exact absurd rfl hX
    · exact Or.inl rfl

theorem hard_click (fuel : Nat) (hfuel : 8 ≤ fuel) (g : Game) (hinv : HardInv g)
    (index : Nat) (r : ℚ) :
    getWinner (handleCellClick g index).1.gameState ≠ some (Winner.mark Cell.X) ∧
    (handleCellClick g index).1.statusText ≠ Status.wins Cell.X ∧
    ∃ g1, play fuel [(index, r)] g = some g1 ∧ HardInv g1 := by
  have hinv0 := hinv
  obtain ⟨hmode, hdiff, hlen, hstat, hact, hfin⟩ := hinv
  have hgX : getWinner g.gameState ≠ some (Winner.mark Cell.X) := by
    cases ha : g.gameActive with
    | true => rw [(hact ha).2.1]; exact fun hc => Option.noConfusion hc
    | false => rcases hfin ha with h | h <;> rw [h] <;> decide
  by_cases hrej : g.gameState[index]? ≠ some Cell.E ∨ g.gameActive = false
  · have hclick : handleCellClick g index = (g, false) := by
      unfold handleCellClick
      rw [if_pos hrej]
    rw [play, hclick]
    exact ⟨hgX, hstat, g, rfl, hinv0⟩
  · have hE : g.gameState[index]? = some Cell.E := by
      by_contra hc
      exact hrej (Or.inl hc)
    have hactive : g.gameActive = true := by
      cases ha : g.gameActive with
      | true => rfl
      | false => exact absurd (Or.inr ha) hrej
    obtain ⟨hcur, hprog, hsafe⟩ := hact hactive
    clear hact hfin hrej hinv0 hgX
    obtain ⟨cp, ga, gs, gm, gd, st⟩ := g
    simp only at hmode hdiff hlen hstat hE hactive hcur hprog hsafe
    subst hmode hdiff hactive hcur
    have hlen1 : (gs.set index Cell.X).length = 9 := by
      rw [length_set_board]; exact hlen
    have hsafe1 : ¬ XWins (gs.set index Cell.X) true :=
      fun hx => hsafe ((XWins_xTurn _ hprog).2 ⟨index, hE, hx⟩)
    cases hw1 : getWinner (gs.set index Cell.X) with
    | some w =>
      have hwX : w ≠ Winner.mark Cell.X :=
        fun hc => hsafe1 ((XWins_of_result _ true w hw1).2 hc)
      rcases finished_not_X _ w hw1 hwX with h | h <;> subst h
      · have hclick : handleCellClick
              { currentPlayer := Cell.X, gameActive := true, gameState := gs,
                gameMode := Mode.single, difficulty := Difficulty.hard, statusText := st } index
            = ({ currentPlayer := Cell.X, gameActive := false, gameState := gs.set index Cell.X,
                 gameMode := Mode.single, difficulty := Difficulty.hard,
                 statusText := Status.wins Cell.O }, false) := by
          unfold handleCellClick
          simp [hE, checkResult_eq, makeMove, hw1]
        rw [play, hclick]
        refine ⟨by simp only; rw [hw1]; decide, by simp, _, rfl, rfl, rfl, hlen1, by simp, ?_, ?_⟩
        · intro hc
          simp at hc
        · intro _
          exact Or.inl hw1
      · have hclick : handleCellClick
              { currentPlayer := Cell.X, gameActive := true, gameState := gs,
                gameMode := Mode.single, difficulty := Difficulty.hard, statusText := st } index
            = ({ currentPlayer := Cell.X, gameActive := false, gameState := gs.set index Cell.X,
                 gameMode := Mode.single, difficulty := Difficulty.hard,
                 statusText := Status.draw }, false) := by
          unfold handleCellClick
          simp [hE, checkResult_eq, makeMove, hw1]
        rw [play, hclick]
        refine ⟨by simp only; rw [hw1]; decide, by simp, _, rfl, rfl, rfl, hlen1, by simp, ?_, ?_⟩
        · intro hc
          simp at hc
        · intro _
          exact Or.inr hw1
    | none =>
      obtain ⟨j0, hj0, hsafe0⟩ : ∃ j0, (gs.set index Cell.X)[j0]? = some Cell.E ∧
          ¬ XWins ((gs.set index Cell.X).set j0 Cell.O) false := by
        by_contra hcon
        apply hsafe1
        apply (XWins_oTurn _ hw1).2
        intro i hi
        by_contra hx
        exact hcon ⟨i, hi, hx⟩
      have hcount : countEmpty (gs.set index Cell.X) ≤ fuel := by
        have h1 := countEmpty_set gs index Cell.X (by decide) hE
        have h2 := countEmpty_le_length gs
        omega
      obtain ⟨j, hj, hbest, hsafe2⟩ : ∃ j, (gs.set index Cell.X)[j]? = some Cell.E ∧
          bestMove fuel (gs.set index Cell.X) = some (some j, gs.set index Cell.X) ∧
          ¬ XWins ((gs.set index Cell.X).set j Cell.O) false := by
        rcases bestMove_spec fuel _ hlen1 hcount with ⟨hno, _⟩ | ⟨j, hj, hbest, hmax⟩
        · exact absurd hj0 (hno j0)
        · refine ⟨j, hj, hbest, ?_⟩
          intro hx
          have h1 := (minimax_child fuel _ hlen1 hcount j hj).2.2 hx
          have h2 := (hmax j0 hj0).1
          exact hsafe0 ((minimax_child fuel _ hlen1 hcount j0 hj0).2.1 (by omega))
      have hlen2 : ((gs.set index Cell.X).set j Cell.O).length = 9 := by
        rw [length_set_board]; exact hlen1
      have hw2X : getWinner ((gs.set index Cell.X).set j Cell.O)
          ≠ some (Winner.mark Cell.X) :=
        fun hc => hsafe2 (XWins.won _ _ hc)
      have hclick : handleCellClick
            { currentPlayer := Cell.X, gameActive := true, gameState := gs,
              gameMode := Mode.single, difficulty := Difficulty.hard, statusText := st } index
          = ({ currentPlayer := Cell.O, gameActive := true, gameState := gs.set index Cell.X,
               gameMode := Mode.single, difficulty := Difficulty.hard,
               statusText := Status.turn Cell.O }, true) := by
        unfold handleCellClick
        simp [hE, checkResult_eq, makeMove, hw1]
      rw [play, hclick]
      refine ⟨by simp only; rw [hw1]; exact fun hc => Option.noConfusion hc, by simp, ?_⟩
      simp only [computerTurn, computerMove, hbest, makeMove, checkResult_eq]
      cases hw2 : getWinner ((gs.set index Cell.X).set j Cell.O) with
      | none =>
        refine ⟨_, rfl, rfl, rfl, hlen2, by simp, ?_, ?_⟩
        · intro _
          exact ⟨rfl, hw2, hsafe2⟩
        · intro hc
          simp at hc
      | some w =>
        rcases finished_not_X _ w hw2 (fun hc => hw2X (by rw [hw2, hc])) with h | h <;> subst h
        · refine ⟨_, rfl, rfl, rfl, hlen2, by simp, ?_, ?_⟩
          · intro hc
            simp at hc
          · intro _
            exact Or.inl hw2
        · refine ⟨_, rfl, rfl, rfl, hlen2, by simp, ?_, ?_⟩
          · intro hc
            simp at hc
          · intro _
            exact Or.inr hw2

theorem play_cons (fuel : Nat) (c : Nat × ℚ) (rest : List (Nat × ℚ)) (g : Game) :
    play fuel (c :: rest) g = (play fuel [c] g).bind (play fuel rest) := by
  obtain ⟨index, r⟩ := c
  rw [play, play]
  cases handleCellClick g index with
  | mk g1 flag =>
    cases flag with
    | false => rfl
    | true =>
      simp only
      cases computerTurn fuel g1 r with
      | none => rfl
      | some g2 => rfl

theorem hard_session (fuel : Nat) (hfuel : 8 ≤ fuel) :
    ∀ (clicks : List (Nat × ℚ)) (g : Game), HardInv g →
      ∃ g1, play fuel clicks g = some g1 ∧ HardInv g1 := by
  intro clicks
  induction clicks with
  | nil => intro g hg; exact ⟨g, rfl, hg⟩
  | cons c rest ih =>
    intro g hg
    obtain ⟨g1, h1, hinv1⟩ := (hard_click fuel hfuel g hg c.1 c.2).2.2
    obtain ⟨g2, h2, hinv2⟩ := ih g1 hinv1
    refine ⟨g2, ?_, hinv2⟩
    rw [play_cons, h1]
    exact h2

theorem hardStart_inv : HardInv hardStart :=
  ⟨rfl, rfl, rfl, by decide, fun _ => ⟨rfl, by decide, initial_safe⟩,
    fun h => absurd h (by decide)⟩

/-- Claim C3. In a single-player session at hard difficulty started from the empty
board, whatever cells the human clicks, every computer turn returns, and the
session never reaches a board on which `X` is the winner, neither after a
computer turn nor right after a click: a finished game is a win for `O` or a
draw, and an unfinished one is in progress. -/
theorem hard_never_loses (fuel : Nat) (hfuel : 8 ≤ fuel) (clicks : List (Nat × ℚ)) :
    ∃ g, play fuel clicks hardStart = some g ∧
      getWinner g.gameState ≠ some (Winner.mark Cell.X) ∧
      g.statusText ≠ Status.wins Cell.X ∧
      (g.gameActive = false →
        getWinner g.gameState = some (Winner.mark Cell.O) ∨
        getWinner g.gameState = some Winner.draw) ∧
      (g.gameActive = true → getWinner g.gameState = none) ∧
      ∀ index, getWinner (handleCellClick g index).1.gameState ≠ some (Winner.mark Cell.X) ∧
        (handleCellClick g index).1.statusText ≠ Status.wins Cell.X := by
  obtain ⟨g, hplay, hinv⟩ := hard_session fuel hfuel clicks hardStart hardStart_inv
  have hinv0 := hinv
  obtain ⟨_, _, _, hstat, hact, hfin⟩ := hinv
  refine ⟨g, hplay, ?_, hstat, hfin, fun h => (hact h).2.1, ?_⟩
  · cases ha : g.gameActive with
    | true => rw [(hact ha).2.1]; exact fun hc => Option.noConfusion hc
    | false => rcases hfin ha with h | h <;> rw [h] <;> decide
  · intro index
    have h := hard_click fuel hfuel g hinv0 index 0
    exact ⟨h.1, h.2.1⟩

/-- The statement of `hard_never_loses` for the clicks on cells 4, 0 and 6 with
call depth 8. -/
theorem hard_never_loses_witness :
    8 ≤ 8 ∧ ∃ g, play 8 [(4, 0), (0, 0), (6, 0)] hardStart = some g ∧
      getWinner g.gameState ≠ some (Winner.mark Cell.X) ∧
      (g.gameActive = false →
        getWinner g.gameState = some (Winner.mark Cell.O) ∨
        getWinner g.gameState = some Winner.draw) :=
  ⟨Nat.le_refl 8,
    match hard_never_loses 8 (Nat.le_refl 8) [(4, 0), (0, 0), (6, 0)] with
    | ⟨g, h1, h2, _, h3, _⟩ => ⟨g, h1, h2, h3⟩⟩

/-! ## Agreement of the two evaluators -/

/-- Claim C18. `checkResult` and `getWinner` agree on every board: when
`getWinner` returns `null` the state is unchanged; when it returns a player `p`
the win of `p` is announced and the game ends; when it returns `"draw"` the draw
is announced and the game ends. So the game is ended exactly when `getWinner` is
not `null`, and a text is written exactly in the matching case. -/
theorem checkResult_agrees (g : Game) :
    (getWinner g.gameState = none → checkResult g = g) ∧
    (∀ p, getWinner g.gameState = some (Winner.mark p) →
      checkResult g = { g with statusText := Status.wins p, gameActive := false }) ∧
    (getWinner g.gameState = some Winner.draw →
      checkResult g = { g with statusText := Status.draw, gameActive := false }) ∧
    ((checkResult g).gameActive = false ↔
      getWinner g.gameState ≠ none ∨ g.gameActive = false) ∧
    (∀ p, (checkResult g).statusText = Status.wins p ↔
      getWinner g.gameState = some (Winner.mark p) ∨
      (getWinner g.gameState = none ∧ g.statusText = Status.wins p)) ∧
    ((checkResult g).statusText = Status.draw ↔
      getWinner g.gameState = some Winner.draw ∨
      (getWinner g.gameState = none ∧ g.statusText = Status.draw)) ∧
    (checkResult g).gameState = g.gameState ∧
    (checkResult g).currentPlayer = g.currentPlayer := by
  rw [checkResult_eq]
  cases hw : getWinner g.gameState with
  | none => simp
  | some w =>
    cases w with
    | mark v => simp
    | draw => simp

/-! ## Termination of the search -/

theorem foldl_congr_mem {α β : Type} (f g : β → α → β) (l : List α)
    (h : ∀ acc, ∀ x ∈ l, f acc x = g acc x) (init : β) :
    l.foldl f init = l.foldl g init := by
  induction l generalizing init with
  | nil => rfl
  | cons x rest ih =>
    rw [List.foldl_cons, List.foldl_cons, h init x (List.mem_cons_self _ _)]
    exact ih (fun acc y hy => h acc y (List.mem_cons_of_mem _ hy)) _

theorem searchScore_fuel :
    ∀ (fuel1 fuel2 : Nat) (state : Board) (depth : Int) (m : Bool),
      countEmpty state < fuel1 → countEmpty state < fuel2 →
      searchScore fuel1 state depth m = searchScore fuel2 state depth m := by
  intro fuel1
  induction fuel1 with
  | zero => intro fuel2 state depth m h; omega
  | succ n ih =>
    intro fuel2 state depth m h1 h2
    cases fuel2 with
    | zero => omega
    | succ n2 =>
      rw [searchScore, searchScore]
      split
      · rfl
      · rfl
      · rfl
      · split
        · apply foldl_congr_mem
          intro acc i _
          by_cases hE : state[i]? = some Cell.E
          · have hc := countEmpty_set state i Cell.O (by decide) hE
            rw [if_pos hE, if_pos hE, ih n2 _ _ _ (by omega) (by omega)]
          · rw [if_neg hE, if_neg hE]
        · apply foldl_congr_mem
          intro acc i _
          by_cases hE : state[i]? = some Cell.E
          · have hc := countEmpty_set state i Cell.X (by decide) hE
            rw [if_pos hE, if_pos hE, ih n2 _ _ _ (by omega) (by omega)]
          · rw [if_neg hE, if_neg hE]

/-- Claim C20. `minimax` terminates on every board, for every depth and either
value of `isMaximizing`: each trial placement leaves exactly one empty cell fewer,
so a call depth of the number of empty cells plus one (for the outer call) is
enough, and more depth does not change the result; on a nine-cell board that is at
most ten. `bestMove` therefore returns as well. -/
theorem minimax_terminates (state : Board) (depth : Int) (isMaximizing : Bool) :
    (∀ (i : Nat) (mark : Cell), state[i]? = some Cell.E → mark ≠ Cell.E →
      countEmpty (state.set i mark) + 1 = countEmpty state) ∧
    (∀ fuel, countEmpty state < fuel →
      ∃ r, minimax fuel state depth isMaximizing = some r ∧
        minimax (countEmpty state + 1) state depth isMaximizing = some r) ∧
    (state.length = 9 →
      countEmpty state ≤ 9 ∧ ∃ r, minimax 10 state depth isMaximizing = some r) ∧
    (∀ fuel, countEmpty state ≤ fuel → ∃ r, bestMove fuel state = some r) ∧
    (state.length = 9 → ∃ r, bestMove 9 state = some r) := by
  have hbest : ∀ fuel, countEmpty state ≤ fuel → ∃ r, bestMove fuel state = some r := by
    intro fuel hfuel
    refine ⟨_, bestMoveLoop_eq fuel (fun i => searchScore fuel (state.set i Cell.O) 0 false)
      (List.range 9) state Score.negInf none ?_⟩
    intro i _ hE
    have hc := countEmpty_set state i Cell.O (by decide) hE
    exact minimax_eq fuel _ 0 false (by omega)
  refine ⟨fun i mark hE hm => countEmpty_set state i mark hm hE, ?_, ?_, hbest, ?_⟩
  · intro fuel hfuel
    refine ⟨_, minimax_eq fuel state depth isMaximizing hfuel, ?_⟩
    rw [minimax_eq _ state depth isMaximizing (Nat.lt_succ_self _),
      searchScore_fuel fuel (countEmpty state + 1) state depth isMaximizing hfuel
        (Nat.lt_succ_self _)]
  · intro hlen
    have hle : countEmpty state ≤ 9 := hlen ▸ countEmpty_le_length state
    exact ⟨hle, _, minimax_eq 10 state depth isMaximizing (by omega)⟩
  · intro hlen
    exact hbest 9 (hlen ▸ countEmpty_le_length state)

/-- The statement of `minimax_terminates` on the empty board: `minimax` returns
with call depth 10 and `bestMove` with call depth 9. -/
theorem minimax_terminates_witness :
    (∃ r, minimax 10 initialGame.gameState 0 true = some r) ∧
    (∃ r, bestMove 9 initialGame.gameState = some r) :=
  ⟨((minimax_terminates initialGame.gameState 0 true).2.2.1 rfl).2,
   (minimax_terminates initialGame.gameState 0 true).2.2.2.2 rfl⟩

/-! ## Moves on a board -/

theorem count_set_empty (state : Board) (i : Nat) (mark c : Cell) (hc : c ≠ Cell.E)
    (h : state[i]? = some Cell.E) :
    (state.set i mark).count c = state.count c + (if mark = c then 1 else 0) := by
  induction state generalizing i with
  | nil => simp at h
  | cons x rest ih =>
    cases i with
    | zero =>
      simp only [List.getElem?_cons_zero, Option.some.injEq] at h
      subst h
      have hne : ¬ (Cell.E = c) := fun hcon => hc hcon.symm
      by_cases hm : mark = c
      · simp [List.set, List.count_cons, hm, hne]
      · simp [List.set, List.count_cons, hm, hne]
    | succ k =>
      simp only [List.getElem?_cons_succ] at h
      have := ih k h
      simp only [List.set, List.count_cons]
      omega

theorem get_set_board (state : Board) (i k : Nat) (mark : Cell) (p : Cell)
    (h : (state.set i mark)[k]? = some p) : (k = i ∧ p = mark) ∨ (k ≠ i ∧ state[k]? = some p) := by
  rw [List.getElem?_set] at h
  by_cases hik : i = k
  · rw [if_pos hik] at h
    left
    refine ⟨hik.symm, ?_⟩
    split at h
    · exact (Option.some.inj h).symm
    · exact Option.noConfusion h
  · rw [if_neg hik] at h
    exact Or.inr ⟨fun hc => hik hc.symm, h⟩

theorem lineFull_set (state : Board) (i : Nat) (mark : Cell) (l : Nat × Nat × Nat) (p : Cell)
    (hp : p ≠ Cell.E) (hno : ¬ lineMatched state l) (h : lineFull (state.set i mark) l p) :
    p = mark := by
  obtain ⟨h1, h2, h3⟩ := h
  rcases get_set_board state i _ mark p h1 with ⟨_, hm⟩ | ⟨_, g1⟩
  · exact hm
  · rcases get_set_board state i _ mark p h2 with ⟨_, hm⟩ | ⟨_, g2⟩
    · exact hm
    · rcases get_set_board state i _ mark p h3 with ⟨_, hm⟩ | ⟨_, g3⟩
      · exact hm
      · exact absurd ⟨p, hp, g1, g2, g3⟩ hno

theorem getWinnerFrom_of_matched (state : Board) (ls : List (Nat × Nat × Nat))
    (h : ∃ l ∈ ls, lineMatched state l) :
    ∃ p, p ≠ Cell.E ∧ getWinnerFrom state ls = some (Winner.mark p) := by
  induction ls with
  | nil =>
    obtain ⟨l, hl, _⟩ := h
    cases hl
  | cons l0 rest ih =>
    by_cases hm : lineMatched state l0
    · obtain ⟨p, hp, hfull⟩ := hm
      exact ⟨p, hp, getWinnerFrom_step_hit state l0 rest p hp hfull⟩
    · rw [getWinnerFrom_step_miss state l0 rest hm]
      obtain ⟨l, hl, hml⟩ := h
      rcases List.mem_cons.mp hl with h0 | h0
      · exact absurd (h0 ▸ hml) hm
      · exact ih ⟨l, h0, hml⟩

theorem no_line_of_inProgress (state : Board) (h : getWinner state = none) :
    ∀ l ∈ winConditions, ¬ lineMatched state l := by
  intro l hl hm
  obtain ⟨p, _, hw⟩ := getWinnerFrom_of_matched state winConditions ⟨l, hl, hm⟩
  unfold getWinner at h
  rw [h] at hw
  exact Option.noConfusion hw

theorem sameWinner_set (state : Board) (i : Nat) (mark : Cell)
    (hprog : getWinner state = none) : SameWinner (state.set i mark) := by
  intro l1 hl1 l2 hl2 p q hp hq h1 h2
  rw [lineFull_set state i mark l1 p hp (no_line_of_inProgress state hprog l1 hl1) h1,
    lineFull_set state i mark l2 q hq (no_line_of_inProgress state hprog l2 hl2) h2]

theorem sameWinner_of_inProgress (state : Board) (hprog : getWinner state = none) :
    SameWinner state := by
  intro l1 hl1 _ _ p _ hp _ h1 _
  exact absurd ⟨p, hp, h1⟩ (no_line_of_inProgress state hprog l1 hl1)

/-! ## The handlers, field by field -/

theorem handleCellClick_reject (g : Game) (index : Nat)
    (h : g.gameState[index]? ≠ some Cell.E ∨ g.gameActive = false ∨
      (g.gameMode = Mode.single ∧ g.currentPlayer ≠ Cell.X)) :
    handleCellClick g index = (g, false) := by
  unfold handleCellClick
  by_cases h1 : g.gameState[index]? ≠ some Cell.E ∨ g.gameActive = false
  · rw [if_pos h1]
  · rw [if_neg h1]
    rcases h with h | h | ⟨hm, hc⟩
    · exact absurd (Or.inl h) h1
    · exact absurd (Or.inr h) h1
    · rw [hm]
      simp only
      rw [if_pos hc]

theorem checkResult_fields (g : Game) :
    (checkResult g).gameState = g.gameState ∧
    (checkResult g).currentPlayer = g.currentPlayer ∧
    (checkResult g).gameMode = g.gameMode ∧
    (checkResult g).difficulty = g.difficulty ∧
    (getWinner g.gameState = none → (checkResult g).gameActive = g.gameActive) ∧
    (getWinner g.gameState ≠ none → (checkResult g).gameActive = false) := by
  rw [checkResult_eq]
  cases hw : getWinner g.gameState with
  | none => simp
  | some w =>
    cases w with
    | mark v => simp
    | draw => simp

theorem handleCellClick_accept (g : Game) (index : Nat)
    (hE : g.gameState[index]? = some Cell.E) (hact : g.gameActive = true)
    (hturn : g.gameMode = Mode.single → g.currentPlayer = Cell.X) :
    (handleCellClick g index).1.gameState = g.gameState.set index g.currentPlayer ∧
    (handleCellClick g index).1.gameMode = g.gameMode ∧
    (handleCellClick g index).1.difficulty = g.difficulty ∧
    (getWinner (g.gameState.set index g.currentPlayer) = none →
      (handleCellClick g index).1.gameActive = true ∧
      (handleCellClick g index).1.currentPlayer
        = (if g.currentPlayer = Cell.X then Cell.O else Cell.X) ∧
      (handleCellClick g index).2 = decide (g.gameMode = Mode.single)) ∧
    (getWinner (g.gameState.set index g.currentPlayer) ≠ none →
      (handleCellClick g index).1.gameActive = false ∧
      (handleCellClick g index).1.currentPlayer = g.currentPlayer ∧
      (handleCellClick g index).2 = false) := by
  obtain ⟨cp, ga, gs, gm, gd, st⟩ := g
  simp only at hE hact hturn
  subst hact
  cases gm with
  | single =>
    have hcp := hturn rfl
    subst hcp
    cases hw : getWinner (gs.set index Cell.X) with
    | none => simp [handleCellClick, hE, checkResult_eq, makeMove, hw]
    | some w =>
      cases w with
      | mark v => simp [handleCellClick, hE, checkResult_eq, makeMove, hw]
      | draw => simp [handleCellClick, hE, checkResult_eq, makeMove, hw]
  | two =>
    cases hw : getWinner (gs.set index cp) with
    | none => simp [handleCellClick, hE, checkResult_eq, makeMove, hw]
    | some w =>
      cases w with
      | mark v => simp [handleCellClick, hE, checkResult_eq, makeMove, hw]
      | draw => simp [handleCellClick, hE, checkResult_eq, makeMove, hw]

theorem bestMoveLoop_move (fuel : Nat) :
    ∀ (is : List Nat) (state : Board) (bestScore : Score) (move : Option Nat)
      (r : Option Nat × Board),
      bestMoveLoop fuel is state bestScore move = some r →
      r.1 = move ∨ ∃ j, r.1 = some j ∧ state[j]? = some Cell.E := by
  intro is
  induction is with
  | nil =>
    intro state bestScore move r h
    simp only [bestMoveLoop, Option.some.injEq] at h
    rw [← h]
    exact Or.inl rfl
  | cons i rest ih =>
    intro state bestScore move r h
    rw [bestMoveLoop] at h
    split at h
    · rename_i hE
      cases hr : minimax fuel (state.set i Cell.O) 0 false with
      | none => rw [hr] at h; exact Option.noConfusion h
      | some p =>
        obtain ⟨score, state1⟩ := p
        rw [hr] at h
        simp only at h
        have h1 : state1 = state.set i Cell.O := minimax_frame _ _ _ _ _ hr
        rw [h1, set_restore state i Cell.O hE] at h
        split at h
        · rcases ih state _ _ r h with h2 | h2
          · exact Or.inr ⟨i, h2, hE⟩
          · exact Or.inr h2
        · exact ih state _ _ r h
    · exact ih state bestScore move r h

theorem randomMove_some (state : Board) (r : ℚ) (i : Nat) (h : randomMove state r = some i) :
    state[i]? = some Cell.E := by
  unfold randomMove at h
  simp only at h
  split at h
  · exact (mem_emptyIndices state i).mp (List.getElem?_mem h)
  · exact Option.noConfusion h

theorem mediumMove_some (state : Board) (r : ℚ) (i : Nat) (h : mediumMove state r = some i) :
    state[i]? = some Cell.E := by
  unfold mediumMove at h
  cases h1 : mediumScan state Cell.O winConditions with
  | some v =>
    rw [h1] at h
    simp only at h
    obtain ⟨e, hv, he⟩ := mediumScan_some state Cell.O (by decide) _ v h1
    rw [hv] at h
    rw [← Option.some.inj h]
    exact he
  | none =>
    rw [h1] at h
    simp only at h
    cases h2 : mediumScan state Cell.X winConditions with
    | some v =>
      rw [h2] at h
      simp only at h
      obtain ⟨e, hv, he⟩ := mediumScan_some state Cell.X (by decide) _ v h2
      rw [hv] at h
      rw [← Option.some.inj h]
      exact he
    | none =>
      rw [h2] at h
      exact randomMove_some state r i h

theorem computerMove_cases (fuel : Nat) (g : Game) (r : ℚ) (g1 : Game)
    (h : computerMove fuel g r = some g1) :
    g1 = g ∨ ∃ j, g.gameState[j]? = some Cell.E ∧ g1 = makeMove g j Cell.O := by
  obtain ⟨cp, ga, gs, gm, gd, st⟩ := g
  cases gd with
  | easy =>
    simp only [computerMove] at h
    cases hm : randomMove gs r with
    | none =>
      rw [hm] at h
      simp only [Option.some.injEq] at h
      exact Or.inl h.symm
    | some j =>
      rw [hm] at h
      simp only [Option.some.injEq] at h
      exact Or.inr ⟨j, randomMove_some gs r j hm, h.symm⟩
  | medium =>
    simp only [computerMove] at h
    cases hm : mediumMove gs r with
    | none =>
      rw [hm] at h
      simp only [Option.some.injEq] at h
      exact Or.inl h.symm
    | some j =>
      rw [hm] at h
      simp only [Option.some.injEq] at h
      exact Or.inr ⟨j, mediumMove_some gs r j hm, h.symm⟩
  | hard =>
    simp only [computerMove] at h
    cases hb : bestMove fuel gs with
    | none => rw [hb] at h; exact Option.noConfusion h
    | some p =>
      obtain ⟨mv, state⟩ := p
      have hst : state = gs := bestMoveLoop_frame fuel _ _ _ _ _ hb
      subst hst
      rw [hb] at h
      cases mv with
      | none =>
        simp only [Option.some.injEq] at h
        exact Or.inl h.symm
      | some j =>
        simp only [Option.some.injEq] at h
        rcases bestMoveLoop_move fuel _ _ _ _ _ hb with h2 | ⟨j2, h2, hE⟩
        · exact Option.noConfusion h2
        · simp only [Option.some.injEq] at h2
          subst h2
          exact Or.inr ⟨j, hE, h.symm⟩

theorem computerMove_total (fuel : Nat) (g : Game) (r : ℚ)
    (hfuel : countEmpty g.gameState ≤ fuel) : ∃ g1, computerMove fuel g r = some g1 := by
  obtain ⟨cp, ga, gs, gm, gd, st⟩ := g
  cases gd with
  | easy =>
    simp only [computerMove]
    cases randomMove gs r <;> exact ⟨_, rfl⟩
  | medium =>
    simp only [computerMove]
    cases mediumMove gs r <;> exact ⟨_, rfl⟩
  | hard =>
    simp only [computerMove]
    have hb := bestMoveLoop_eq fuel (fun i => searchScore fuel (gs.set i Cell.O) 0 false)
      (List.range 9) gs Score.negInf none (by
        intro i _ hE
        have hc := countEmpty_set gs i Cell.O (by decide) hE
        exact minimax_eq fuel _ 0 false (by simp only at hfuel; omega))
    unfold bestMove
    rw [hb]
    split
    · rename_i hc; exact Option.noConfusion hc
    · exact ⟨_, rfl⟩
    · exact ⟨_, rfl⟩

theorem computerMove_moves (fuel : Nat) (g : Game) (r : ℚ) (hlen : g.gameState.length = 9)
    (hfuel : countEmpty g.gameState ≤ fuel) (hr0 : 0 ≤ r) (hr1 : r < 1)
    (hE : Cell.E ∈ g.gameState) :
    ∃ j, g.gameState[j]? = some Cell.E ∧ computerMove fuel g r = some (makeMove g j Cell.O) := by
  obtain ⟨cp, ga, gs, gm, gd, st⟩ := g
  simp only at hlen hfuel hE
  cases gd with
  | easy =>
    obtain ⟨j, hj, hEj⟩ := (randomMove_spec gs r hr0 hr1).1 hE
    exact ⟨j, hEj, by simp [computerMove, hj]⟩
  | medium =>
    obtain ⟨j, hj, hEj⟩ := (mediumMove_spec gs r hr0 hr1).1 hE
    exact ⟨j, hEj, by simp [computerMove, hj]⟩
  | hard =>
    rcases bestMove_spec fuel gs hlen hfuel with ⟨hno, _⟩ | ⟨j, hEj, hb, _⟩
    · obtain ⟨i, hi⟩ := List.mem_iff_getElem?.mp hE
      exact absurd hi (hno i)
    · exact ⟨j, hEj, by simp [computerMove, hb]⟩

theorem computerTurn_fields (fuel : Nat) (g : Game) (r : ℚ) (g2 : Game)
    (h : computerTurn fuel g r = some g2) :
    ∃ g1, computerMove fuel g r = some g1 ∧
      g2.gameState = g1.gameState ∧ g2.gameMode = g1.gameMode ∧
      g2.difficulty = g1.difficulty ∧
      (getWinner g1.gameState = none →
        g2.gameActive = g1.gameActive ∧ (g1.gameActive = true → g2.currentPlayer = Cell.X)) ∧
      (getWinner g1.gameState ≠ none → g2.gameActive = false) := by
  unfold computerTurn at h
  cases hm : computerMove fuel g r with
  | none => rw [hm] at h; exact Option.noConfusion h
  | some g1 =>
    rw [hm] at h
    simp only at h
    obtain ⟨f1, _, f3, f4, f5, f6⟩ := checkResult_fields g1
    refine ⟨g1, rfl, ?_⟩
    by_cases ha : (checkResult g1).gameActive = true
    · rw [if_pos ha] at h
      simp only [Option.some.injEq] at h
      subst h
      refine ⟨f1, f3, f4, ?_, ?_⟩
      · intro hw
        exact ⟨by rw [← f5 hw], fun _ => rfl⟩
      · intro hw
        rw [f6 hw] at ha
        exact absurd ha Bool.false_ne_true
    · rw [if_neg ha] at h
      simp only [Option.some.injEq] at h
      subst h
      refine ⟨f1, f3, f4, ?_, f6⟩
      intro hw
      refine ⟨f5 hw, ?_⟩
      intro h1
      rw [f5 hw] at ha
      exact absurd h1 ha

theorem click_inv (g : Game) (hB : BoardInv g) (index : Nat) :
    BoardInv (handleCellClick g index).1 ∧
    (TurnInv g → TurnInv (handleCellClick g index).1) := by
  by_cases hacc : g.gameState[index]? = some Cell.E ∧ g.gameActive = true ∧
      (g.gameMode = Mode.single → g.currentPlayer = Cell.X)
  · obtain ⟨hE, hact, hturn⟩ := hacc
    obtain ⟨hlen, _, hprog⟩ := hB
    obtain ⟨f1, _, _, f4, f5⟩ := handleCellClick_accept g index hE hact hturn
    constructor
    · refine ⟨by rw [f1, length_set_board]; exact hlen, ?_, ?_⟩
      · rw [f1]
        exact sameWinner_set _ _ _ (hprog hact)
      · intro ha
        rw [f1]
        by_contra hw
        rw [(f5 hw).1] at ha
        exact absurd ha Bool.false_ne_true
    · intro hT
      obtain ⟨_, hcur⟩ := hT
      have hcX := count_set_empty g.gameState index g.currentPlayer Cell.X (by decide) hE
      have hcO := count_set_empty g.gameState index g.currentPlayer Cell.O (by decide) hE
      rcases hcur hact with ⟨hc, hn⟩ | ⟨hc, hn⟩
      · rw [hc] at hcX hcO f1 f4
        simp only [if_true, if_false, (by decide : ¬ (Cell.X = Cell.O))] at hcX hcO
        refine ⟨by rw [f1]; omega, ?_⟩
        intro ha
        by_cases hw : getWinner (g.gameState.set index Cell.X) = none
        · right
          rw [f1]
          exact ⟨by rw [(f4 hw).2.1]; rfl, by omega⟩
        · rw [hc] at f5
          rw [(f5 hw).1] at ha
          exact absurd ha Bool.false_ne_true
      · rw [hc] at hcX hcO f1 f4
        simp only [if_true, if_false, (by decide : ¬ (Cell.O = Cell.X))] at hcX hcO
        refine ⟨by rw [f1]; omega, ?_⟩
        intro ha
        by_cases hw : getWinner (g.gameState.set index Cell.O) = none
        · left
          rw [f1]
          exact ⟨by rw [(f4 hw).2.1]; rfl, by omega⟩
        · rw [hc] at f5
          rw [(f5 hw).1] at ha
          exact absurd ha Bool.false_ne_true
  · have hrej : handleCellClick g index = (g, false) := by
      apply handleCellClick_reject
      by_contra hcon
      apply hacc
      refine ⟨?_, ?_, ?_⟩
      · by_contra h1
        exact hcon (Or.inl h1)
      · cases ha : g.gameActive with
        | true => rfl
        | false => exact absurd (Or.inr (Or.inl ha)) hcon
      · intro hm
        by_contra h1
        exact hcon (Or.inr (Or.inr ⟨hm, h1⟩))
    rw [hrej]
    exact ⟨hB, fun h => h⟩

theorem click_scheduled (g : Game) (hB : BoardInv g) (hS : Settled g) (index : Nat) :
    ((handleCellClick g index).2 = false → Settled (handleCellClick g index).1) ∧
    ((handleCellClick g index).2 = true →
      (handleCellClick g index).1.gameActive = true ∧
      getWinner (handleCellClick g index).1.gameState = none ∧
      countEmpty (handleCellClick g index).1.gameState ≤ 8 ∧
      (TurnInv g → (handleCellClick g index).1.currentPlayer = Cell.O)) := by
  by_cases hacc : g.gameState[index]? = some Cell.E ∧ g.gameActive = true ∧
      (g.gameMode = Mode.single → g.currentPlayer = Cell.X)
  · obtain ⟨hE, hact, hturn⟩ := hacc
    obtain ⟨hlen, _, _⟩ := hB
    obtain ⟨f1, f2, _, f4, f5⟩ := handleCellClick_accept g index hE hact hturn
    by_cases hw : getWinner (g.gameState.set index g.currentPlayer) = none
    · obtain ⟨a1, a2, a3⟩ := f4 hw
      constructor
      · intro hflag hm _
        rw [f2] at hm
        rw [a3, hm] at hflag
        exact absurd hflag (by decide)
      · intro hflag
        refine ⟨a1, by rw [f1]; exact hw, ?_, ?_⟩
        · rw [f1]
          have h1 := countEmpty_le_length g.gameState
          have hcell : g.currentPlayer ≠ Cell.E := by
            intro hc
            rw [hc] at hw
            obtain ⟨i, hi, hEi⟩ := exists_empty_of_inProgress _ hw
            rw [a3] at hflag
            have hm : g.gameMode = Mode.single := by simpa using hflag
            rw [hturn hm] at hc
            exact absurd hc (by decide)
          have h2 := countEmpty_set g.gameState index g.currentPlayer hcell hE
          omega
        · intro _
          rw [a3] at hflag
          have hm : g.gameMode = Mode.single := by simpa using hflag
          rw [a2, hturn hm]
          rfl
    · obtain ⟨a1, _, a3⟩ := f5 hw
      constructor
      · intro _ _ ha
        rw [a1] at ha
        exact absurd ha Bool.false_ne_true
      · intro hflag
        rw [a3] at hflag
        exact absurd hflag Bool.false_ne_true
  · have hrej : handleCellClick g index = (g, false) := by
      apply handleCellClick_reject
      by_contra hcon
      apply hacc
      refine ⟨?_, ?_, ?_⟩
      · by_contra h1
        exact hcon (Or.inl h1)
      · cases ha : g.gameActive with
        | true => rfl
        | false => exact absurd (Or.inr (Or.inl ha)) hcon
      · intro hm
        by_contra h1
        exact hcon (Or.inr (Or.inr ⟨hm, h1⟩))
    rw [hrej]
    exact ⟨fun _ => hS, fun h => absurd h Bool.false_ne_true⟩

/-! ## The session invariant -/

theorem computerTurn_inv (fuel : Nat) (g1 : Game) (r : ℚ) (hB : BoardInv g1)
    (hact : g1.gameActive = true) (hcount : countEmpty g1.gameState ≤ fuel) :
    ∃ g2, computerTurn fuel g1 r = some g2 ∧ BoardInv g2 ∧
      (g2.gameActive = true → g2.currentPlayer = Cell.X) ∧
      (0 ≤ r → r < 1 → TurnInv g1 → g1.currentPlayer = Cell.O → TurnInv g2) := by
  obtain ⟨hlen, _, hprog0⟩ := hB
  have hprog := hprog0 hact
  obtain ⟨gm, hm⟩ := computerMove_total fuel g1 r hcount
  have hex : ∃ g2, computerTurn fuel g1 r = some g2 := by
    unfold computerTurn
    rw [hm]
    simp only
    split <;> exact ⟨_, rfl⟩
  obtain ⟨g2, h2⟩ := hex
  obtain ⟨gm1, hm1, f1, _, _, f4, f5⟩ := computerTurn_fields fuel g1 r g2 h2
  rw [hm] at hm1
  have hgm : gm1 = gm := (Option.some.inj hm1).symm
  subst hgm
  have hcases := computerMove_cases fuel g1 r gm1 hm
  have hactm : gm1.gameActive = true := by
    rcases hcases with h | ⟨j, _, h⟩ <;> rw [h]
    · exact hact
    · exact hact
  have hlenm : gm1.gameState.length = 9 := by
    rcases hcases with h | ⟨j, _, h⟩ <;> rw [h]
    · exact hlen
    · simp only [makeMove]
      rw [length_set_board]
      exact hlen
  have hsame : SameWinner gm1.gameState := by
    rcases hcases with h | ⟨j, _, h⟩ <;> rw [h]
    · exact sameWinner_of_inProgress _ hprog
    · exact sameWinner_set _ _ _ hprog
  have hnone : g2.gameActive = true → getWinner gm1.gameState = none := by
    intro ha
    by_contra hw
    rw [f5 hw] at ha
    exact absurd ha Bool.false_ne_true
  refine ⟨g2, h2, ⟨by rw [f1]; exact hlenm, by rw [f1]; exact hsame,
    fun ha => by rw [f1]; exact hnone ha⟩, fun ha => (f4 (hnone ha)).2 hactm, ?_⟩
  intro hr0 hr1 hT hcur
  obtain ⟨i0, _, hE0⟩ := exists_empty_of_inProgress _ hprog
  obtain ⟨j, hEj, hmove⟩ := computerMove_moves fuel g1 r hlen hcount hr0 hr1
    (List.getElem?_mem hE0)
  rw [hm] at hmove
  have hgm : gm1 = makeMove g1 j Cell.O := Option.some.inj hmove
  have hcX := count_set_empty g1.gameState j Cell.O Cell.X (by decide) hEj
  have hcO := count_set_empty g1.gameState j Cell.O Cell.O (by decide) hEj
  simp only [if_true, if_false, (by decide : ¬ (Cell.O = Cell.X))] at hcX hcO
  have hcnt : g1.gameState.count Cell.X = g1.gameState.count Cell.O + 1 := by
    rcases hT.2 hact with ⟨hc, _⟩ | ⟨_, hn⟩
    · rw [hcur] at hc
      exact absurd hc (by decide)
    · exact hn
  have hb2 : g2.gameState = g1.gameState.set j Cell.O := by
    rw [f1, hgm]
    rfl
  refine ⟨Or.inl (by rw [hb2]; omega), ?_⟩
  intro ha
  exact Or.inl ⟨(f4 (hnone ha)).2 hactm, by rw [hb2]; omega⟩

theorem restart_inv (g : Game) :
    BoardInv (restartGame g) ∧ Settled (restartGame g) ∧ TurnInv (restartGame g) := by
  have hw : getWinner (restartGame g).gameState = none := by
    show getWinner [Cell.E, Cell.E, Cell.E, Cell.E, Cell.E, Cell.E, Cell.E, Cell.E, Cell.E] = none
    decide
  refine ⟨⟨rfl, sameWinner_of_inProgress _ hw, fun _ => hw⟩, fun _ _ => rfl, ?_, ?_⟩
  · left
    show List.count Cell.X [Cell.E, Cell.E, Cell.E, Cell.E, Cell.E, Cell.E, Cell.E, Cell.E, Cell.E]
      = List.count Cell.O [Cell.E, Cell.E, Cell.E, Cell.E, Cell.E, Cell.E, Cell.E, Cell.E, Cell.E]
    decide
  · intro _
    left
    refine ⟨rfl, ?_⟩
    show List.count Cell.X [Cell.E, Cell.E, Cell.E, Cell.E, Cell.E, Cell.E, Cell.E, Cell.E, Cell.E]
      = List.count Cell.O [Cell.E, Cell.E, Cell.E, Cell.E, Cell.E, Cell.E, Cell.E, Cell.E, Cell.E]
    decide

theorem step_inv (fuel : Nat) (hfuel : 8 ≤ fuel) (g : Game) (hB : BoardInv g) (hS : Settled g)
    (e : Event) :
    ∃ g1, step fuel g e = some g1 ∧ BoardInv g1 ∧ Settled g1 ∧
      (validDraw e → TurnInv g → TurnInv g1) := by
  cases e with
  | click index r =>
    obtain ⟨hB1, hT1⟩ := click_inv g hB index
    obtain ⟨hno, hyes⟩ := click_scheduled g hB hS index
    rw [step]
    cases hh : handleCellClick g index with
    | mk g1 flag =>
      rw [hh] at hB1 hT1 hno hyes
      simp only at hB1 hT1 hno hyes
      cases flag with
      | false => exact ⟨g1, rfl, hB1, hno rfl, fun _ hT => hT1 hT⟩
      | true =>
        obtain ⟨hact, _, hcount, hcur⟩ := hyes rfl
        obtain ⟨g2, h2, hB2, hX2, hT2⟩ :=
          computerTurn_inv fuel g1 r hB1 hact (by omega)
        refine ⟨g2, h2, hB2, fun _ ha => hX2 ha, ?_⟩
        intro hv hT
        exact hT2 hv.1 hv.2 (hT1 hT) (hcur hT)
  | restart =>
    obtain ⟨h1, h2, h3⟩ := restart_inv g
    exact ⟨_, rfl, h1, h2, fun _ _ => h3⟩
  | changeMode mode =>
    obtain ⟨h1, h2, h3⟩ := restart_inv { g with gameMode := mode }
    exact ⟨_, rfl, h1, h2, fun _ _ => h3⟩
  | changeDifficulty d =>
    exact ⟨_, rfl, hB, hS, fun _ hT => hT⟩

theorem run_inv (fuel : Nat) (hfuel : 8 ≤ fuel) :
    ∀ (events : List Event) (g : Game), BoardInv g → Settled g →
      ∃ g1, run fuel events g = some g1 ∧ BoardInv g1 ∧ Settled g1 ∧
        ((∀ e ∈ events, validDraw e) → TurnInv g → TurnInv g1) := by
  intro events
  induction events with
  | nil => intro g hB hS; exact ⟨g, rfl, hB, hS, fun _ h => h⟩
  | cons e rest ih =>
    intro g hB hS
    obtain ⟨g1, h1, hB1, hS1, hT1⟩ := step_inv fuel hfuel g hB hS e
    obtain ⟨g2, h2, hB2, hS2, hT2⟩ := ih g1 hB1 hS1
    refine ⟨g2, ?_, hB2, hS2, ?_⟩
    · rw [run, h1]
      exact h2
    · intro hv hT
      exact hT2 (fun e1 he1 => hv e1 (List.mem_cons_of_mem _ he1))
        (hT1 (hv e (List.mem_cons_self _ _)) hT)

theorem initial_inv : BoardInv initialGame ∧ Settled initialGame ∧ TurnInv initialGame := by
  have hw : getWinner initialGame.gameState = none := by decide
  refine ⟨⟨rfl, sameWinner_of_inProgress _ hw, fun _ => hw⟩, fun _ _ => rfl, ?_, ?_⟩
  · left; decide
  · intro _; left; exact ⟨rfl, by decide⟩

theorem handleCellClick_dichotomy (g : Game) (index : Nat) :
    handleCellClick g index = (g, false) ∨
    (g.gameState[index]? = some Cell.E ∧ g.gameActive = true ∧
      (g.gameMode = Mode.single → g.currentPlayer = Cell.X)) := by
  by_cases hacc : g.gameState[index]? = some Cell.E ∧ g.gameActive = true ∧
      (g.gameMode = Mode.single → g.currentPlayer = Cell.X)
  · exact Or.inr hacc
  · left
    apply handleCellClick_reject
    by_contra hcon
    apply hacc
    refine ⟨?_, ?_, ?_⟩
    · by_contra h1
      exact hcon (Or.inl h1)
    · cases ha : g.gameActive with
      | true => rfl
      | false => exact absurd (Or.inr (Or.inl ha)) hcon
    · intro hm
      by_contra h1
      exact hcon (Or.inr (Or.inr ⟨hm, h1⟩))

theorem get_set_other (state : Board) (j k : Nat) (mark c : Cell) (hc : c ≠ Cell.E)
    (hj : state[j]? = some Cell.E) (hk : state[k]? = some c) :
    (state.set j mark)[k]? = some c := by
  have hne : j ≠ k := by
    intro h
    rw [h, hk] at hj
    exact hc (Option.some.inj hj)
  rw [List.getElem?_set, if_neg hne]
  exact hk

theorem not_both_of_sameWinner (state : Board) (h : SameWinner state) :
    ∀ l1 ∈ winConditions, ∀ l2 ∈ winConditions,
      ¬ (lineFull state l1 Cell.X ∧ lineFull state l2 Cell.O) := by
  intro l1 h1 l2 h2 hboth
  exact absurd (h l1 h1 l2 h2 Cell.X Cell.O (by decide) (by decide) hboth.1 hboth.2) (by decide)

/-- Claim C11. In every session from the initial state (clicks in either mode,
computer turns at any difficulty and with any random draw, restarts and selector
changes), on the board between two events and on the board right after a click,
no win line is fully `X` while another is fully `O`: any two fully matched lines
hold the same value. -/
theorem single_winner_reachable (fuel : Nat) (hfuel : 8 ≤ fuel) (events : List Event) :
    ∃ g, run fuel events initialGame = some g ∧
      SameWinner g.gameState ∧
      (∀ l1 ∈ winConditions, ∀ l2 ∈ winConditions,
        ¬ (lineFull g.gameState l1 Cell.X ∧ lineFull g.gameState l2 Cell.O)) ∧
      ∀ index, SameWinner (handleCellClick g index).1.gameState ∧
        ∀ l1 ∈ winConditions, ∀ l2 ∈ winConditions,
          ¬ (lineFull (handleCellClick g index).1.gameState l1 Cell.X ∧
            lineFull (handleCellClick g index).1.gameState l2 Cell.O) := by
  obtain ⟨g, hrun, hB, _, _⟩ :=
    run_inv fuel hfuel events initialGame initial_inv.1 initial_inv.2.1
  refine ⟨g, hrun, hB.2.1, not_both_of_sameWinner _ hB.2.1, ?_⟩
  intro index
  have h1 := (click_inv g hB index).1.2.1
  exact ⟨h1, not_both_of_sameWinner _ h1⟩

/-- The statement of `single_winner_reachable` for a two-player session of three
clicks followed by a switch to hard single-player mode and two clicks. -/
theorem single_winner_reachable_witness :
    8 ≤ 8 ∧
    ∃ g, run 8 [Event.changeMode Mode.two, Event.click 0 0, Event.click 4 0, Event.click 1 0,
        Event.changeDifficulty Difficulty.hard, Event.changeMode Mode.single,
        Event.click 4 (1 / 2), Event.click 0 (1 / 2)] initialGame = some g ∧
      SameWinner g.gameState :=
  ⟨Nat.le_refl 8,
    match single_winner_reachable 8 (Nat.le_refl 8)
      [Event.changeMode Mode.two, Event.click 0 0, Event.click 4 0, Event.click 1 0,
        Event.changeDifficulty Difficulty.hard, Event.changeMode Mode.single,
        Event.click 4 (1 / 2), Event.click 0 (1 / 2)] with
    | ⟨g, h1, h2, _⟩ => ⟨g, h1, h2⟩⟩

/-- Claim C13. In every session, whenever a click schedules the computer's turn
the board still has an empty cell, and `computerMove` (at the current difficulty,
with a random draw in `[0,1)`) selects a move: it returns with exactly one cell,
empty before, now holding `O`, and every other cell unchanged. -/
theorem computer_always_has_move (fuel : Nat) (hfuel : 8 ≤ fuel) (events : List Event)
    (index : Nat) (r : ℚ) (hr0 : 0 ≤ r) (hr1 : r < 1) :
    ∃ g, run fuel events initialGame = some g ∧
      ((handleCellClick g index).2 = true →
        Cell.E ∈ (handleCellClick g index).1.gameState ∧
        ∃ j g2, j < 9 ∧ (handleCellClick g index).1.gameState[j]? = some Cell.E ∧
          computerMove fuel (handleCellClick g index).1 r = some g2 ∧
          g2.gameState = (handleCellClick g index).1.gameState.set j Cell.O ∧
          g2.gameState[j]? = some Cell.O ∧
          ∀ k, k ≠ j → g2.gameState[k]? = (handleCellClick g index).1.gameState[k]?) := by
  obtain ⟨g, hrun, hB, hS, _⟩ :=
    run_inv fuel hfuel events initialGame initial_inv.1 initial_inv.2.1
  refine ⟨g, hrun, ?_⟩
  intro hflag
  obtain ⟨_, hprog, hcount, _⟩ := (click_scheduled g hB hS index).2 hflag
  have hlen := (click_inv g hB index).1.1
  obtain ⟨i0, _, hE0⟩ := exists_empty_of_inProgress _ hprog
  have hmem := List.getElem?_mem hE0
  obtain ⟨j, hEj, hmove⟩ := computerMove_moves fuel (handleCellClick g index).1 r hlen
    (by omega) hr0 hr1 hmem
  have hj : j < 9 := by
    have := lt_length_of_get _ j _ hEj
    omega
  refine ⟨hmem, j, _, hj, hEj, hmove, rfl, ?_, ?_⟩
  · show ((handleCellClick g index).1.gameState.set j Cell.O)[j]? = some Cell.O
    rw [List.getElem?_set, if_pos rfl, if_pos (by omega)]
  · intro k hk
    show ((handleCellClick g index).1.gameState.set j Cell.O)[k]? = _
    rw [List.getElem?_set, if_neg (fun h => hk h.symm)]

/-- The statement of `computer_always_has_move` for a medium-difficulty session:
one click on the centre, then a click on cell 0. -/
theorem computer_always_has_move_witness :
    8 ≤ 8 ∧ (0 : ℚ) ≤ 1 / 2 ∧ (1 / 2 : ℚ) < 1 ∧
    ∃ g, run 8 [Event.changeDifficulty Difficulty.medium, Event.click 4 (1 / 2)] initialGame
        = some g ∧
      ((handleCellClick g 0).2 = true → Cell.E ∈ (handleCellClick g 0).1.gameState) :=
  ⟨Nat.le_refl 8, by norm_num, by norm_num,
    match computer_always_has_move 8 (Nat.le_refl 8)
      [Event.changeDifficulty Difficulty.medium, Event.click 4 (1 / 2)] 0 (1 / 2)
      (by norm_num) (by norm_num) with
    | ⟨g, h1, h2⟩ => ⟨g, h1, fun hf => (h2 hf).1⟩⟩

/-- Claim C14. A cell that holds `X` or `O` keeps its value through every step
other than a restart: a click in either mode, a computer move at any difficulty
(the hard search included), the whole computer turn, a click followed by the
computer's turn, and a change of difficulty. The computer's turn does return
when the call depth is at least the number of empty cells. -/
theorem marks_persist (g : Game) (k : Nat) (c : Cell) (hc : c ≠ Cell.E)
    (hk : g.gameState[k]? = some c) :
    (∀ index, (handleCellClick g index).1.gameState[k]? = some c) ∧
    (∀ fuel r g1, computerMove fuel g r = some g1 → g1.gameState[k]? = some c) ∧
    (∀ fuel r g1, computerTurn fuel g r = some g1 → g1.gameState[k]? = some c) ∧
    (∀ fuel index r g1, step fuel g (Event.click index r) = some g1 →
      g1.gameState[k]? = some c) ∧
    (∀ fuel d g1, step fuel g (Event.changeDifficulty d) = some g1 →
      g1.gameState[k]? = some c) ∧
    (∀ fuel r, countEmpty g.gameState ≤ fuel → ∃ g1, computerTurn fuel g r = some g1) := by
  have hmove : ∀ (g0 : Game), g0.gameState[k]? = some c →
      ∀ fuel r g1, computerMove fuel g0 r = some g1 → g1.gameState[k]? = some c := by
    intro g0 hk0 fuel r g1 h
    rcases computerMove_cases fuel g0 r g1 h with h1 | ⟨j, hj, h1⟩
    · rw [h1]; exact hk0
    · rw [h1]
      exact get_set_other _ j k Cell.O c hc hj hk0
  have hturn : ∀ (g0 : Game), g0.gameState[k]? = some c →
      ∀ fuel r g1, computerTurn fuel g0 r = some g1 → g1.gameState[k]? = some c := by
    intro g0 hk0 fuel r g1 h
    obtain ⟨gm, hm, f1, _⟩ := computerTurn_fields fuel g0 r g1 h
    rw [f1]
    exact hmove g0 hk0 fuel r gm hm
  have hclick : ∀ index, (handleCellClick g index).1.gameState[k]? = some c := by
    intro index
    rcases handleCellClick_dichotomy g index with h | ⟨hE, hact, hturn1⟩
    · rw [h]; exact hk
    · rw [(handleCellClick_accept g index hE hact hturn1).1]
      exact get_set_other _ index k _ c hc hE hk
  refine ⟨hclick, hmove g hk, hturn g hk, ?_, ?_, ?_⟩
  · intro fuel index r g1 h
    rw [step] at h
    have hc1 := hclick index
    cases hh : handleCellClick g index with
    | mk ga flag =>
      rw [hh] at h hc1
      cases flag with
      | false =>
        simp only [Option.some.injEq] at h
        rw [← h]
        exact hc1
      | true => exact hturn ga hc1 fuel r g1 h
  · intro fuel d g1 h
    simp only [step, Option.some.injEq] at h
    rw [← h]
    exact hk
  · intro fuel r hfuel
    obtain ⟨gm, hm⟩ := computerMove_total fuel g r hfuel
    unfold computerTurn
    rw [hm]
    simp only
    split <;> exact ⟨_, rfl⟩

/-- The statement of `marks_persist` for the `X` in the centre after one move. -/
theorem marks_persist_witness :
    (∀ index, (handleCellClick (makeMove initialGame 4 Cell.X) index).1.gameState[4]?
      = some Cell.X) ∧
    (∀ fuel r g1, computerMove fuel (makeMove initialGame 4 Cell.X) r = some g1 →
      g1.gameState[4]? = some Cell.X) :=
  ⟨(marks_persist (makeMove initialGame 4 Cell.X) 4 Cell.X (by decide) rfl).1,
   (marks_persist (makeMove initialGame 4 Cell.X) 4 Cell.X (by decide) rfl).2.1⟩

theorem turn_props_of_inv (g : Game) (h : TurnInv g) :
    (g.gameState.count Cell.X = g.gameState.count Cell.O ∨
      g.gameState.count Cell.X = g.gameState.count Cell.O + 1) ∧
    (g.gameActive = true →
      (g.currentPlayer = Cell.X ↔ g.gameState.count Cell.X = g.gameState.count Cell.O) ∧
      (g.currentPlayer = Cell.O ↔ g.gameState.count Cell.X = g.gameState.count Cell.O + 1)) := by
  refine ⟨h.1, ?_⟩
  intro ha
  rcases h.2 ha with ⟨hc, hn⟩ | ⟨hc, hn⟩
  · refine ⟨⟨fun _ => hn, fun _ => hc⟩, ⟨fun h1 => ?_, fun h1 => ?_⟩⟩
    · rw [hc] at h1
      exact absurd h1 (by decide)
    · omega
  · refine ⟨⟨fun h1 => ?_, fun h1 => ?_⟩, ⟨fun _ => hn, fun _ => hc⟩⟩
    · rw [hc] at h1
      exact absurd h1 (by decide)
    · omega

/-- Claim C17. In every session from the initial state whose random draws lie in
`[0,1)` (clicks in either mode, each followed by the computer's turn when it is
scheduled, restarts and selector changes), between two events and right after a
click: `X` has as many marks as `O` or exactly one more, and while the game is
active the active player is `X` exactly when the counts are equal and `O`
exactly when `X` has one more. A restart gives the move to `X`. -/
theorem turns_alternate (fuel : Nat) (hfuel : 8 ≤ fuel) (events : List Event)
    (hvalid : ∀ e ∈ events, validDraw e) :
    ∃ g, run fuel events initialGame = some g ∧
      ((g.gameState.count Cell.X = g.gameState.count Cell.O ∨
          g.gameState.count Cell.X = g.gameState.count Cell.O + 1) ∧
        (g.gameActive = true →
          (g.currentPlayer = Cell.X ↔ g.gameState.count Cell.X = g.gameState.count Cell.O) ∧
          (g.currentPlayer = Cell.O ↔
            g.gameState.count Cell.X = g.gameState.count Cell.O + 1))) ∧
      (∀ index,
        ((handleCellClick g index).1.gameState.count Cell.X
            = (handleCellClick g index).1.gameState.count Cell.O ∨
          (handleCellClick g index).1.gameState.count Cell.X
            = (handleCellClick g index).1.gameState.count Cell.O + 1) ∧
        ((handleCellClick g index).1.gameActive = true →
          ((handleCellClick g index).1.currentPlayer = Cell.X ↔
            (handleCellClick g index).1.gameState.count Cell.X
              = (handleCellClick g index).1.gameState.count Cell.O) ∧
          ((handleCellClick g index).1.currentPlayer = Cell.O ↔
            (handleCellClick g index).1.gameState.count Cell.X
              = (handleCellClick g index).1.gameState.count Cell.O + 1))) ∧
      (restartGame g).currentPlayer = Cell.X ∧
      (restartGame g).gameState.count Cell.X = 0 ∧
      (restartGame g).gameState.count Cell.O = 0 := by
  obtain ⟨g, hrun, hB, _, hT⟩ :=
    run_inv fuel hfuel events initialGame initial_inv.1 initial_inv.2.1
  have hTg := hT hvalid initial_inv.2.2
  exact ⟨g, hrun, turn_props_of_inv g hTg,
    fun index => turn_props_of_inv _ ((click_inv g hB index).2 hTg), rfl, rfl, rfl⟩

/-- The statement of `turns_alternate` for a two-player session of three clicks. -/
theorem turns_alternate_witness :
    8 ≤ 8 ∧
    (∀ e ∈ [Event.changeMode Mode.two, Event.click 0 0, Event.click 4 0, Event.click 1 0],
      validDraw e) ∧
    ∃ g, run 8 [Event.changeMode Mode.two, Event.click 0 0, Event.click 4 0, Event.click 1 0]
        initialGame = some g ∧
      (g.gameState.count Cell.X = g.gameState.count Cell.O ∨
        g.gameState.count Cell.X = g.gameState.count Cell.O + 1) :=
  have hv : ∀ e ∈ [Event.changeMode Mode.two, Event.click 0 0, Event.click 4 0,
      Event.click 1 0], validDraw e := by
    intro e he
    simp only [List.mem_cons, List.mem_singleton, List.not_mem_nil, or_false] at he
    rcases he with rfl | rfl | rfl | rfl <;> simp [validDraw]
  ⟨Nat.le_refl 8, hv,
    match turns_alternate 8 (Nat.le_refl 8)
      [Event.changeMode Mode.two, Event.click 0 0, Event.click 4 0, Event.click 1 0] hv with
    | ⟨g, h1, h2, _⟩ => ⟨g, h1, h2.1⟩⟩

/-! ## The score at a node of the search -/

theorem toInt_fin (z : Int) : (Score.fin z).toInt = z := rfl

theorem searchScore_terminal (n : Nat) (state : Board) (depth : Int) (m : Bool) (w : Winner)
    (hw : getWinner state = some w) :
    searchScore (n + 1) state depth m = Score.fin (terminalScore w depth) := by
  rw [searchScore]
  split
  · rename_i h
    rw [hw] at h
    rw [Option.some.inj h]
    rfl
  · rename_i h
    rw [hw] at h
    rw [Option.some.inj h]
    rfl
  · rename_i w1 hO hX h
    rw [hw] at h
    have hww : w = w1 := Option.some.inj h
    subst hww
    cases w with
    | draw => rfl
    | mark c =>
      cases c
      · rfl
      · exact absurd rfl hX
      · exact absurd rfl hO
  · rename_i h
    rw [hw] at h
    exact Option.noConfusion h

theorem child_finite (n : Nat) (state : Board) (depth : Int) (hlen : state.length = 9)
    (hfuel : countEmpty state < n + 1) (hdepth : depth + countEmpty state < 10)
    (mark : Cell) (hmark : mark ≠ Cell.E) (m1 : Bool) (i : Nat)
    (hE : state[i]? = some Cell.E) :
    searchScore n (state.set i mark) (depth + 1) m1
      = Score.fin (searchScore n (state.set i mark) (depth + 1) m1).toInt := by
  have hc := countEmpty_set state i mark hmark hE
  obtain ⟨z, hz, _⟩ := score_sign n (state.set i mark) (depth + 1) m1
    (by rw [length_set_board]; exact hlen) (by omega) (by omega)
  rw [hz]
  rfl

theorem searchScore_max_node (n : Nat) (state : Board) (depth : Int) (hlen : state.length = 9)
    (hfuel : countEmpty state < n + 1) (hdepth : depth + countEmpty state < 10)
    (hw : getWinner state = none) :
    ∃ j, state[j]? = some Cell.E ∧
      searchScore (n + 1) state depth true
        = Score.fin (searchScore n (state.set j Cell.O) (depth + 1) false).toInt ∧
      ∀ i, state[i]? = some Cell.E →
        (searchScore n (state.set i Cell.O) (depth + 1) false).toInt
          ≤ (searchScore n (state.set j Cell.O) (depth + 1) false).toInt := by
  obtain ⟨i0, hi0, hE0⟩ := exists_empty_of_inProgress state hw
  rw [hlen] at hi0
  have inRange : ∀ i : Nat, state[i]? = some Cell.E → i < 9 := by
    intro i hE
    have := lt_length_of_get state i _ hE
    omega
  rw [searchScore]
  split
  · rename_i h; rw [hw] at h; exact Option.noConfusion h
  · rename_i h; rw [hw] at h; exact Option.noConfusion h
  · rename_i h; rw [hw] at h; exact Option.noConfusion h
  · rw [if_pos rfl]
    rcases foldMax_range (fun i => state[i]? = some Cell.E)
      (fun i => searchScore n (state.set i Cell.O) (depth + 1) false)
      (fun i => (searchScore n (state.set i Cell.O) (depth + 1) false).toInt)
      (fun i hE => child_finite n state depth hlen hfuel hdepth Cell.O (by decide) false i hE)
      9 with ⟨hno, _⟩ | ⟨j, _, hPj, hval, hmax⟩
    · exact absurd hE0 (hno i0 hi0)
    · exact ⟨j, hPj, hval, fun i hE => hmax i (inRange i hE) hE⟩

theorem searchScore_min_node (n : Nat) (state : Board) (depth : Int) (hlen : state.length = 9)
    (hfuel : countEmpty state < n + 1) (hdepth : depth + countEmpty state < 10)
    (hw : getWinner state = none) :
    ∃ j, state[j]? = some Cell.E ∧
      searchScore (n + 1) state depth false
        = Score.fin (searchScore n (state.set j Cell.X) (depth + 1) true).toInt ∧
      ∀ i, state[i]? = some Cell.E →
        (searchScore n (state.set j Cell.X) (depth + 1) true).toInt
          ≤ (searchScore n (state.set i Cell.X) (depth + 1) true).toInt := by
  obtain ⟨i0, hi0, hE0⟩ := exists_empty_of_inProgress state hw
  rw [hlen] at hi0
  have inRange : ∀ i : Nat, state[i]? = some Cell.E → i < 9 := by
    intro i hE
    have := lt_length_of_get state i _ hE
    omega
  rw [searchScore]
  split
  · rename_i h; rw [hw] at h; exact Option.noConfusion h
  · rename_i h; rw [hw] at h; exact Option.noConfusion h
  · rename_i h; rw [hw] at h; exact Option.noConfusion h
  · rw [if_neg Bool.false_ne_true]
    rcases foldMin_range (fun i => state[i]? = some Cell.E)
      (fun i => searchScore n (state.set i Cell.X) (depth + 1) true)
      (fun i => (searchScore n (state.set i Cell.X) (depth + 1) true).toInt)
      (fun i hE => child_finite n state depth hlen hfuel hdepth Cell.X (by decide) true i hE)
      9 with ⟨hno, _⟩ | ⟨j, _, hPj, hval, hmin⟩
    · exact absurd hE0 (hno i0 hi0)
    · exact ⟨j, hPj, hval, fun i hE => hmin i (inRange i hE) hE⟩

theorem score_bounds :
    ∀ (fuel : Nat) (state : Board) (depth : Int) (m : Bool),
      state.length = 9 → countEmpty state < fuel → depth + countEmpty state < 10 →
      depth - 10 ≤ (searchScore fuel state depth m).toInt ∧
      (searchScore fuel state depth m).toInt ≤ 10 - depth := by
  intro fuel
  induction fuel with
  | zero => intro state depth m _ h; omega
  | succ n ih =>
    intro state depth m hlen hfuel hdepth
    cases hw : getWinner state with
    | some w =>
      rw [searchScore_terminal n state depth m w hw]
      rw [toInt_fin]
      unfold terminalScore
      split <;> constructor <;> omega
    | none =>
      have child : ∀ (mark : Cell) (m1 : Bool), mark ≠ Cell.E → ∀ i, state[i]? = some Cell.E →
          depth + 1 - 10 ≤ (searchScore n (state.set i mark) (depth + 1) m1).toInt ∧
          (searchScore n (state.set i mark) (depth + 1) m1).toInt ≤ 10 - (depth + 1) := by
        intro mark m1 hmark i hE
        have hc := countEmpty_set state i mark hmark hE
        exact ih (state.set i mark) (depth + 1) m1
          (by rw [length_set_board]; exact hlen) (by omega) (by omega)
      cases m with
      | true =>
        obtain ⟨j, hj, hval, _⟩ := searchScore_max_node n state depth hlen hfuel hdepth hw
        rw [hval]
        rw [toInt_fin]
        have := child Cell.O false (by decide) j hj
        constructor <;> omega
      | false =>
        obtain ⟨j, hj, hval, _⟩ := searchScore_min_node n state depth hlen hfuel hdepth hw
        rw [hval]
        rw [toInt_fin]
        have := child Cell.X true (by decide) j hj
        constructor <;> omega

theorem OWins_of_result (state : Board) (m : Bool) (w : Winner) (hw : getWinner state = some w) :
    OWins state m ↔ w = Winner.mark Cell.O := by
  constructor
  · intro h
    cases h with
    | won _ _ h1 => rw [hw] at h1; exact Option.some.inj h1
    | oMove _ _ h1 _ _ => rw [hw] at h1; exact Option.noConfusion h1
    | xMove _ h1 _ => rw [hw] at h1; exact Option.noConfusion h1
  · intro h
    exact OWins.won _ _ (by rw [hw, h])

theorem OWins_oTurn (state : Board) (hw : getWinner state = none) :
    OWins state true ↔ ∃ i, state[i]? = some Cell.E ∧ OWins (state.set i Cell.O) false := by
  constructor
  · intro h
    cases h with
    | won _ _ h1 => rw [hw] at h1; exact Option.noConfusion h1
    | oMove _ i _ h2 h3 => exact ⟨i, h2, h3⟩
  · rintro ⟨i, h2, h3⟩
    exact OWins.oMove _ i hw h2 h3

theorem OWins_xTurn (state : Board) (hw : getWinner state = none) :
    OWins state false ↔ ∀ i, state[i]? = some Cell.E → OWins (state.set i Cell.X) true := by
  constructor
  · intro h
    cases h with
    | won _ _ h1 => rw [hw] at h1; exact Option.noConfusion h1
    | xMove _ _ h2 => exact h2
  · intro h
    exact OWins.xMove _ hw h

theorem score_sign_O :
    ∀ (fuel : Nat) (state : Board) (depth : Int) (m : Bool),
      state.length = 9 → countEmpty state < fuel → depth + countEmpty state < 10 →
      (0 < (searchScore fuel state depth m).toInt ↔ OWins state m) := by
  intro fuel
  induction fuel with
  | zero => intro state depth m _ h; omega
  | succ n ih =>
    intro state depth m hlen hfuel hdepth
    cases hw : getWinner state with
    | some w =>
      rw [searchScore_terminal n state depth m w hw, OWins_of_result state m w hw]
      rw [toInt_fin]
      unfold terminalScore
      split
      · constructor
        · intro _; rfl
        · intro _; omega
      · constructor
        · intro h; omega
        · intro h; cases h
      · rename_i hO _
        constructor
        · intro h; omega
        · intro h; exact absurd h hO
    | none =>
      have child : ∀ (mark : Cell) (m1 : Bool), mark ≠ Cell.E → ∀ i, state[i]? = some Cell.E →
          (0 < (searchScore n (state.set i mark) (depth + 1) m1).toInt
            ↔ OWins (state.set i mark) m1) := by
        intro mark m1 hmark i hE
        have hc := countEmpty_set state i mark hmark hE
        exact ih (state.set i mark) (depth + 1) m1
          (by rw [length_set_board]; exact hlen) (by omega) (by omega)
      cases m with
      | true =>
        obtain ⟨j, hj, hval, hmax⟩ := searchScore_max_node n state depth hlen hfuel hdepth hw
        rw [hval, OWins_oTurn state hw]
        rw [toInt_fin]
        constructor
        · intro hpos
          exact ⟨j, hj, (child Cell.O false (by decide) j hj).1 hpos⟩
        · rintro ⟨i, hE, ho⟩
          have h1 := (child Cell.O false (by decide) i hE).2 ho
          have := hmax i hE
          omega
      | false =>
        obtain ⟨j, hj, hval, hmin⟩ := searchScore_min_node n state depth hlen hfuel hdepth hw
        rw [hval, OWins_xTurn state hw]
        rw [toInt_fin]
        constructor
        · intro hpos i hE
          have := hmin i hE
          exact (child Cell.X true (by decide) i hE).1 (by omega)
        · intro hall
          exact (child Cell.X true (by decide) j hj).2 (hall j hj)

/-! ## Immediate wins and threats -/

theorem getWinnerFrom_draw (state : Board) (ls : List (Nat × Nat × Nat))
    (h : getWinnerFrom state ls = some Winner.draw) : Cell.E ∉ state := by
  induction ls with
  | nil =>
    rw [getWinnerFrom] at h
    intro hE
    rw [if_pos hE] at h
    exact Option.noConfusion h
  | cons l rest ih =>
    obtain ⟨a, b, c⟩ := l
    rw [getWinnerFrom] at h
    split at h
    · split at h
      · simp at h
      · exact ih h
    · exact ih h

theorem inProgress_of_no_line (state : Board) (hno : ∀ l ∈ winConditions, ¬ lineMatched state l)
    (hE : Cell.E ∈ state) : getWinner state = none := by
  unfold getWinner
  rw [getWinnerFrom_none_matched state winConditions hno, if_pos hE]

theorem winner_mark_eq (state : Board) (hno : ∀ l ∈ winConditions, ¬ lineMatched state l)
    (i : Nat) (mark p : Cell) (h : getWinner (state.set i mark) = some (Winner.mark p)) :
    p = mark := by
  obtain ⟨hp, pre, l, post, hsplit, hfull, _⟩ := getWinnerFrom_mark _ winConditions p h
  exact lineFull_set state i mark l p hp (hno l (by rw [hsplit]; simp)) hfull

theorem winner_iff_line (state : Board) (hno : ∀ l ∈ winConditions, ¬ lineMatched state l)
    (i : Nat) (mark : Cell) (hm : mark ≠ Cell.E) :
    getWinner (state.set i mark) = some (Winner.mark mark) ↔
      ∃ l ∈ winConditions, lineFull (state.set i mark) l mark := by
  constructor
  · intro h
    obtain ⟨_, pre, l, post, hsplit, hfull, _⟩ := getWinnerFrom_mark _ winConditions mark h
    exact ⟨l, by rw [hsplit]; simp, hfull⟩
  · rintro ⟨l, hl, hfull⟩
    obtain ⟨p, _, hw⟩ := getWinnerFrom_of_matched (state.set i mark) winConditions
      ⟨l, hl, mark, hm, hfull⟩
    have hp := winner_mark_eq state hno i mark p hw
    rw [hp] at hw
    exact hw

theorem get_set_same (state : Board) (i : Nat) (mark c : Cell) (h : state[i]? = some c) :
    (state.set i mark)[i]? = some mark := by
  rw [List.getElem?_set, if_pos rfl, if_pos (lt_length_of_get state i c h)]

theorem get_set_ne (state : Board) (i k : Nat) (mark : Cell) (h : k ≠ i) :
    (state.set i mark)[k]? = state[k]? := by
  rw [List.getElem?_set, if_neg (fun hc => h hc.symm)]

theorem threat_persists (state : Board) (i c : Nat) (hi : state[i]? = some Cell.E)
    (hc : state[c]? = some Cell.E) (l : Nat × Nat × Nat)
    (h : lineFull (state.set c Cell.X) l Cell.X) :
    lineFull ((state.set i Cell.O).set c Cell.X) l Cell.X := by
  have cell : ∀ a : Nat, (state.set c Cell.X)[a]? = some Cell.X →
      ((state.set i Cell.O).set c Cell.X)[a]? = some Cell.X := by
    intro a ha
    by_cases hac : a = c
    · rw [hac]
      by_cases hic : c = i
      · rw [hic]
        exact get_set_same _ i Cell.X Cell.O (get_set_same state i Cell.O Cell.E hi)
      · exact get_set_same _ c Cell.X Cell.E (by rw [get_set_ne _ _ _ _ hic]; exact hc)
    · rw [get_set_ne _ _ _ _ hac] at ha
      rw [get_set_ne _ _ _ _ hac]
      have hai : a ≠ i := by
        intro hcon
        rw [hcon, hi] at ha
        exact absurd (Option.some.inj ha) (by decide)
      rw [get_set_ne _ _ _ _ hai]
      exact ha
  exact ⟨cell _ h.1, cell _ h.2.1, cell _ h.2.2⟩

theorem threat_was_there (state : Board) (c j : Nat) (hj : state[j]? = some Cell.E)
    (l : Nat × Nat × Nat) (h : lineFull ((state.set c Cell.O).set j Cell.X) l Cell.X) :
    lineFull (state.set j Cell.X) l Cell.X := by
  have cell : ∀ a : Nat, ((state.set c Cell.O).set j Cell.X)[a]? = some Cell.X →
      (state.set j Cell.X)[a]? = some Cell.X := by
    intro a ha
    by_cases haj : a = j
    · rw [haj]
      exact get_set_same state j Cell.X Cell.E hj
    · rw [get_set_ne _ _ _ _ haj] at ha
      rw [get_set_ne _ _ _ _ haj]
      rcases get_set_board state c a Cell.O Cell.X ha with ⟨_, hcon⟩ | ⟨_, h1⟩
      · exact absurd hcon (by decide)
      · exact h1
  exact ⟨cell _ h.1, cell _ h.2.1, cell _ h.2.2⟩

theorem immediate_score (fuel : Nat) (state : Board) (hlen : state.length = 9)
    (hfuel : countEmpty state ≤ fuel) (i : Nat) (hE : state[i]? = some Cell.E) :
    (getWinner (state.set i Cell.O) = some (Winner.mark Cell.O) →
      (searchScore fuel (state.set i Cell.O) 0 false).toInt = 10) ∧
    (getWinner (state.set i Cell.O) ≠ some (Winner.mark Cell.O) →
      (searchScore fuel (state.set i Cell.O) 0 false).toInt ≤ 9) := by
  have hc := countEmpty_set state i Cell.O (by decide) hE
  have hl := countEmpty_le_length state
  have hlen1 : (state.set i Cell.O).length = 9 := by rw [length_set_board]; exact hlen
  obtain ⟨n, hn⟩ : ∃ n, fuel = n + 1 := ⟨fuel - 1, by omega⟩
  subst hn
  constructor
  · intro hw
    rw [searchScore_terminal n _ 0 false _ hw, toInt_fin]
    rfl
  · intro hw
    cases hg : getWinner (state.set i Cell.O) with
    | some w =>
      rw [searchScore_terminal n _ 0 false _ hg, toInt_fin]
      unfold terminalScore
      split
      · rename_i hO
        rw [hg] at hw
        exact absurd rfl hw
      · omega
      · omega
    | none =>
      obtain ⟨j, hj, hval, _⟩ := searchScore_min_node n _ 0 hlen1 (by omega) (by omega) hg
      rw [hval, toInt_fin]
      have hcj := countEmpty_set _ j Cell.X (by decide) hj
      have := (score_bounds n ((state.set i Cell.O).set j Cell.X) (0 + 1) true
        (by rw [length_set_board]; exact hlen1) (by omega) (by omega)).2
      omega

/-- Claim C15. On a nine-cell board with no completed line on which some empty
cell would complete a line of three `O`, `bestMove` returns the lowest-indexed
such cell: the returned move wins at once, and no empty cell before it does. -/
theorem bestMove_takes_win (fuel : Nat) (state : Board) (hlen : state.length = 9)
    (hfuel : countEmpty state ≤ fuel)
    (hno : ∀ l ∈ winConditions, ¬ lineMatched state l)
    (hwin : ∃ i, state[i]? = some Cell.E ∧
      ∃ l ∈ winConditions, lineFull (state.set i Cell.O) l Cell.O) :
    ∃ j, bestMove fuel state = some (some j, state) ∧ state[j]? = some Cell.E ∧
      (∃ l ∈ winConditions, lineFull (state.set j Cell.O) l Cell.O) ∧
      getWinner (state.set j Cell.O) = some (Winner.mark Cell.O) ∧
      ∀ i, i < j → state[i]? = some Cell.E →
        ¬ ∃ l ∈ winConditions, lineFull (state.set i Cell.O) l Cell.O := by
  obtain ⟨i0, hE0, hline0⟩ := hwin
  have hw0 := (winner_iff_line state hno i0 Cell.O (by decide)).2 hline0
  have hs0 := (immediate_score fuel state hlen hfuel i0 hE0).1 hw0
  rcases bestMove_spec fuel state hlen hfuel with ⟨hnone, _⟩ | ⟨j, hEj, hbest, hmax⟩
  · exact absurd hE0 (hnone i0)
  · have hge := (hmax i0 hE0).1
    have hwj : getWinner (state.set j Cell.O) = some (Winner.mark Cell.O) := by
      by_contra hcon
      have := (immediate_score fuel state hlen hfuel j hEj).2 hcon
      omega
    refine ⟨j, hbest, hEj, (winner_iff_line state hno j Cell.O (by decide)).1 hwj, hwj, ?_⟩
    intro i hij hEi hline
    have hwi := (winner_iff_line state hno i Cell.O (by decide)).2 hline
    have h1 := (immediate_score fuel state hlen hfuel i hEi).1 hwi
    have h2 := (immediate_score fuel state hlen hfuel j hEj).1 hwj
    have h3 := (hmax i hEi).2 hij
    omega

/-- The statement of `bestMove_takes_win` on the board `[O,O,"",X,X,"","","",""]`,
where cell 2 completes the top row. -/
theorem bestMove_takes_win_witness :
    ∃ j, bestMove 5 [Cell.O, Cell.O, Cell.E, Cell.X, Cell.X, Cell.E, Cell.E, Cell.E, Cell.E]
        = some (some j,
            [Cell.O, Cell.O, Cell.E, Cell.X, Cell.X, Cell.E, Cell.E, Cell.E, Cell.E]) ∧
      getWinner
        ([Cell.O, Cell.O, Cell.E, Cell.X, Cell.X, Cell.E, Cell.E, Cell.E, Cell.E].set j Cell.O)
        = some (Winner.mark Cell.O) :=
  have hno : ∀ l ∈ winConditions, ¬ lineMatched
      [Cell.O, Cell.O, Cell.E, Cell.X, Cell.X, Cell.E, Cell.E, Cell.E, Cell.E] l := by
    intro l hl hm
    obtain ⟨p, hp, h1, h2, h3⟩ := hm
    simp only [winConditions, List.mem_cons, List.mem_singleton, List.not_mem_nil, or_false] at hl
    rcases hl with rfl | rfl | rfl | rfl | rfl | rfl | rfl | rfl <;> cases p <;>
      first | exact absurd rfl hp | simp at h1 h2 h3
  match bestMove_takes_win 5
    [Cell.O, Cell.O, Cell.E, Cell.X, Cell.X, Cell.E, Cell.E, Cell.E, Cell.E] rfl (by decide) hno
    ⟨2, rfl, (0, 1, 2), by simp [winConditions], by simp [lineFull]⟩ with
  | ⟨j, h1, _, _, h2, _⟩ => ⟨j, h1, h2⟩

theorem unblocked_score (fuel : Nat) (state : Board) (hlen : state.length = 9)
    (hfuel : countEmpty state ≤ fuel)
    (hno : ∀ l ∈ winConditions, ¬ lineMatched state l)
    (hnowin : ∀ i, state[i]? = some Cell.E →
      ¬ ∃ l ∈ winConditions, lineFull (state.set i Cell.O) l Cell.O)
    (c : Nat) (hc : state[c]? = some Cell.E)
    (hthreat : ∃ l ∈ winConditions, lineFull (state.set c Cell.X) l Cell.X)
    (i : Nat) (hi : state[i]? = some Cell.E) (hic : i ≠ c) :
    (searchScore fuel (state.set i Cell.O) 0 false).toInt ≤ -9 := by
  have hci := countEmpty_set state i Cell.O (by decide) hi
  have hl := countEmpty_le_length state
  have hlen1 : (state.set i Cell.O).length = 9 := by rw [length_set_board]; exact hlen
  have hc1 : (state.set i Cell.O)[c]? = some Cell.E := by
    rw [get_set_ne _ _ _ _ (fun h => hic h.symm)]
    exact hc
  have hcc := countEmpty_set _ c Cell.X (by decide) hc1
  have hw1 : getWinner (state.set i Cell.O) = none := by
    cases hg : getWinner (state.set i Cell.O) with
    | none => rfl
    | some w =>
      cases w with
      | mark p =>
        have hp := winner_mark_eq state hno i Cell.O p hg
        rw [hp] at hg
        exact absurd ((winner_iff_line state hno i Cell.O (by decide)).1 hg) (hnowin i hi)
      | draw => exact absurd (List.getElem?_mem hc1) (getWinnerFrom_draw _ winConditions hg)
  obtain ⟨n, hn⟩ : ∃ n, fuel = n + 1 + 1 := ⟨fuel - 2, by omega⟩
  subst hn
  obtain ⟨j, _, hval, hmin⟩ :=
    searchScore_min_node (n + 1) _ 0 hlen1 (by omega) (by omega) hw1
  obtain ⟨l, hl1, hfull⟩ := hthreat
  have hwx : getWinner ((state.set i Cell.O).set c Cell.X) = some (Winner.mark Cell.X) :=
    (winner_iff_line _ (no_line_of_inProgress _ hw1) c Cell.X (by decide)).2
      ⟨l, hl1, threat_persists state i c hi hc l hfull⟩
  have hcv := hmin c hc1
  rw [searchScore_terminal n _ (0 + 1) true _ hwx, toInt_fin] at hcv
  rw [hval, toInt_fin]
  have : terminalScore (Winner.mark Cell.X) (0 + 1) = -9 := rfl
  omega

theorem blocked_score (fuel : Nat) (state : Board) (hlen : state.length = 9)
    (hfuel : countEmpty state ≤ fuel)
    (hno : ∀ l ∈ winConditions, ¬ lineMatched state l)
    (hnowin : ∀ i, state[i]? = some Cell.E →
      ¬ ∃ l ∈ winConditions, lineFull (state.set i Cell.O) l Cell.O)
    (c : Nat) (hc : state[c]? = some Cell.E)
    (honly : ∀ i, state[i]? = some Cell.E →
      (∃ l ∈ winConditions, lineFull (state.set i Cell.X) l Cell.X) → i = c) :
    -8 ≤ (searchScore fuel (state.set c Cell.O) 0 false).toInt := by
  have hcc := countEmpty_set state c Cell.O (by decide) hc
  have hl := countEmpty_le_length state
  have hlen1 : (state.set c Cell.O).length = 9 := by rw [length_set_board]; exact hlen
  obtain ⟨n, hn⟩ : ∃ n, fuel = n + 1 := ⟨fuel - 1, by omega⟩
  subst hn
  cases hg : getWinner (state.set c Cell.O) with
  | some w =>
    rw [searchScore_terminal n _ 0 false _ hg, toInt_fin]
    cases w with
    | mark p =>
      have hp := winner_mark_eq state hno c Cell.O p hg
      rw [hp] at hg
      exact absurd ((winner_iff_line state hno c Cell.O (by decide)).1 hg) (hnowin c hc)
    | draw =>
      have : terminalScore Winner.draw 0 = 0 := rfl
      omega
  | none =>
    obtain ⟨j, hj, hval, _⟩ := searchScore_min_node n _ 0 hlen1 (by omega) (by omega) hg
    rw [hval, toInt_fin]
    have hjc : j ≠ c := by
      intro h
      rw [h, get_set_same state c Cell.O Cell.E hc] at hj
      exact absurd (Option.some.inj hj) (by decide)
    have hjE : state[j]? = some Cell.E := by
      rw [get_set_ne _ _ _ _ hjc] at hj
      exact hj
    have hcj := countEmpty_set _ j Cell.X (by decide) hj
    have hlen2 : ((state.set c Cell.O).set j Cell.X).length = 9 := by
      rw [length_set_board]; exact hlen1
    have hnotX : getWinner ((state.set c Cell.O).set j Cell.X) ≠ some (Winner.mark Cell.X) := by
      intro hx
      obtain ⟨l, hl1, hfull⟩ :=
        (winner_iff_line _ (no_line_of_inProgress _ hg) j Cell.X (by decide)).1 hx
      exact hjc (honly j hjE ⟨l, hl1, threat_was_there state c j hjE l hfull⟩)
    obtain ⟨n1, hn1⟩ : ∃ n1, n = n1 + 1 := ⟨n - 1, by omega⟩
    subst hn1
    cases hg2 : getWinner ((state.set c Cell.O).set j Cell.X) with
    | some w =>
      rw [searchScore_terminal n1 _ (0 + 1) true _ hg2, toInt_fin]
      unfold terminalScore
      split
      · omega
      · rw [hg2] at hnotX
        exact absurd rfl hnotX
      · omega
    | none =>
      obtain ⟨k, hk, hval2, _⟩ :=
        searchScore_max_node n1 _ (0 + 1) hlen2 (by omega) (by omega) hg2
      rw [hval2, toInt_fin]
      have hck := countEmpty_set _ k Cell.O (by decide) hk
      have := (score_bounds n1 (((state.set c Cell.O).set j Cell.X).set k Cell.O) (0 + 1 + 1)
        false (by rw [length_set_board]; exact hlen2) (by omega) (by omega)).1
      omega

/-- Claim C16. On a nine-cell board with no completed line, where `O` has no cell
that wins at once and exactly one empty cell `c` would complete a line of three
`X`, `bestMove` returns `c`. Nothing is assumed about the value of the position,
so this holds also when `O` loses whatever it plays. -/
theorem bestMove_blocks (fuel : Nat) (state : Board) (hlen : state.length = 9)
    (hfuel : countEmpty state ≤ fuel)
    (hno : ∀ l ∈ winConditions, ¬ lineMatched state l)
    (hnowin : ∀ i, state[i]? = some Cell.E →
      ¬ ∃ l ∈ winConditions, lineFull (state.set i Cell.O) l Cell.O)
    (c : Nat) (hc : state[c]? = some Cell.E)
    (hthreat : ∃ l ∈ winConditions, lineFull (state.set c Cell.X) l Cell.X)
    (honly : ∀ i, state[i]? = some Cell.E →
      (∃ l ∈ winConditions, lineFull (state.set i Cell.X) l Cell.X) → i = c) :
    bestMove fuel state = some (some c, state) := by
  rcases bestMove_spec fuel state hlen hfuel with ⟨hnone, _⟩ | ⟨j, hEj, hbest, hmax⟩
  · exact absurd hc (hnone c)
  · have hjc : j = c := by
      by_contra hne
      have h1 := unblocked_score fuel state hlen hfuel hno hnowin c hc hthreat j hEj hne
      have h2 := blocked_score fuel state hlen hfuel hno hnowin c hc honly
      have h3 := (hmax c hc).1
      omega
    rw [hjc] at hbest
    exact hbest

/-- The statement of `bestMove_blocks` on the board `["",O,"",X,X,"","","",""]`:
cell 5 is the only one that would complete a line of `X`, and `bestMove` returns it. -/
theorem bestMove_blocks_witness :
    bestMove 6 [Cell.E, Cell.O, Cell.E, Cell.X, Cell.X, Cell.E, Cell.E, Cell.E, Cell.E]
      = some (some 5,
          [Cell.E, Cell.O, Cell.E, Cell.X, Cell.X, Cell.E, Cell.E, Cell.E, Cell.E]) :=
  have hno : ∀ l ∈ winConditions, ¬ lineMatched
      [Cell.E, Cell.O, Cell.E, Cell.X, Cell.X, Cell.E, Cell.E, Cell.E, Cell.E] l := by
    intro l hl hm
    obtain ⟨p, hp, h1, h2, h3⟩ := hm
    simp only [winConditions, List.mem_cons, List.mem_singleton, List.not_mem_nil, or_false] at hl
    rcases hl with rfl | rfl | rfl | rfl | rfl | rfl | rfl | rfl <;> cases p <;>
      first | exact absurd rfl hp | simp at h1 h2 h3
  have hnowin : ∀ i : Nat,
      [Cell.E, Cell.O, Cell.E, Cell.X, Cell.X, Cell.E, Cell.E, Cell.E, Cell.E][i]? = some Cell.E →
      ¬ ∃ l ∈ winConditions, lineFull
        ([Cell.E, Cell.O, Cell.E, Cell.X, Cell.X, Cell.E, Cell.E, Cell.E, Cell.E].set i Cell.O)
        l Cell.O := by
    intro i hE
    have hi : i < 9 := lt_length_of_get _ i _ hE
    interval_cases i <;> first | exact absurd hE (by decide) | decide
  have honly : ∀ i : Nat,
      [Cell.E, Cell.O, Cell.E, Cell.X, Cell.X, Cell.E, Cell.E, Cell.E, Cell.E][i]? = some Cell.E →
      (∃ l ∈ winConditions, lineFull
        ([Cell.E, Cell.O, Cell.E, Cell.X, Cell.X, Cell.E, Cell.E, Cell.E, Cell.E].set i Cell.X)
        l Cell.X) → i = 5 := by
    intro i hE
    have hi : i < 9 := lt_length_of_get _ i _ hE
    interval_cases i <;> first | exact absurd hE (by decide) | decide
  bestMove_blocks 6 [Cell.E, Cell.O, Cell.E, Cell.X, Cell.X, Cell.E, Cell.E, Cell.E, Cell.E]
    rfl (by decide) hno hnowin 5 rfl ⟨(3, 4, 5), by simp [winConditions], by simp [lineFull]⟩
    honly

/-! ## Depth adjustment and plain minimax -/

theorem foldMaxInt_range (P : Nat → Prop) [DecidablePred P] (v : Nat → Int) (lo : Int)
    (n : Nat) :
    lo ≤ (List.range n).foldl (fun acc i => if P i then max acc (v i) else acc) lo ∧
    (∀ i < n, P i →
      v i ≤ (List.range n).foldl (fun acc i => if P i then max acc (v i) else acc) lo) ∧
    ((List.range n).foldl (fun acc i => if P i then max acc (v i) else acc) lo = lo ∨
      ∃ j < n, P j ∧
        (List.range n).foldl (fun acc i => if P i then max acc (v i) else acc) lo = v j) := by
  induction n with
  | zero => exact ⟨le_refl _, fun i hi => absurd hi (Nat.not_lt_zero i), Or.inl rfl⟩
  | succ n ih =>
    rw [List.range_succ, List.foldl_append, List.foldl_cons, List.foldl_nil]
    obtain ⟨h1, h2, h3⟩ := ih
    by_cases hP : P n
    · rw [if_pos hP]
      refine ⟨le_trans h1 (le_max_left _ _), ?_, ?_⟩
      · intro i hi hPi
        rcases Nat.lt_succ_iff_lt_or_eq.mp hi with h | h
        · exact le_trans (h2 i h hPi) (le_max_left _ _)
        · rw [h]; exact le_max_right _ _
      · rcases max_cases
          ((List.range n).foldl (fun acc i => if P i then max acc (v i) else acc) lo) (v n)
          with ⟨hm, _⟩ | ⟨hm, _⟩
        · rw [hm]
          rcases h3 with h | ⟨j, hj, hPj, h⟩
          · exact Or.inl h
          · exact Or.inr ⟨j, Nat.lt_succ_of_lt hj, hPj, h⟩
        · rw [hm]
          exact Or.inr ⟨n, Nat.lt_succ_self n, hP, rfl⟩
    · rw [if_neg hP]
      refine ⟨h1, ?_, ?_⟩
      · intro i hi hPi
        rcases Nat.lt_succ_iff_lt_or_eq.mp hi with h | h
        · exact h2 i h hPi
        · rw [h] at hPi; exact absurd hPi hP
      · rcases h3 with h | ⟨j, hj, hPj, h⟩
        · exact Or.inl h
        · exact Or.inr ⟨j, Nat.lt_succ_of_lt hj, hPj, h⟩

theorem foldMinInt_range (P : Nat → Prop) [DecidablePred P] (v : Nat → Int) (hi0 : Int)
    (n : Nat) :
    (List.range n).foldl (fun acc i => if P i then min acc (v i) else acc) hi0 ≤ hi0 ∧
    (∀ i < n, P i →
      (List.range n).foldl (fun acc i => if P i then min acc (v i) else acc) hi0 ≤ v i) ∧
    ((List.range n).foldl (fun acc i => if P i then min acc (v i) else acc) hi0 = hi0 ∨
      ∃ j < n, P j ∧
        (List.range n).foldl (fun acc i => if P i then min acc (v i) else acc) hi0 = v j) := by
  induction n with
  | zero => exact ⟨le_refl _, fun i hi => absurd hi (Nat.not_lt_zero i), Or.inl rfl⟩
  | succ n ih =>
    rw [List.range_succ, List.foldl_append, List.foldl_cons, List.foldl_nil]
    obtain ⟨h1, h2, h3⟩ := ih
    by_cases hP : P n
    · rw [if_pos hP]
      refine ⟨le_trans (min_le_left _ _) h1, ?_, ?_⟩
      · intro i hi hPi
        rcases Nat.lt_succ_iff_lt_or_eq.mp hi with h | h
        · exact le_trans (min_le_left _ _) (h2 i h hPi)
        · rw [h]; exact min_le_right _ _
      · rcases min_cases
          ((List.range n).foldl (fun acc i => if P i then min acc (v i) else acc) hi0) (v n)
          with ⟨hm, _⟩ | ⟨hm, _⟩
        · rw [hm]
          rcases h3 with h | ⟨j, hj, hPj, h⟩
          · exact Or.inl h
          · exact Or.inr ⟨j, Nat.lt_succ_of_lt hj, hPj, h⟩
        · rw [hm]
          exact Or.inr ⟨n, Nat.lt_succ_self n, hP, rfl⟩
    · rw [if_neg hP]
      refine ⟨h1, ?_, ?_⟩
      · intro i hi hPi
        rcases Nat.lt_succ_iff_lt_or_eq.mp hi with h | h
        · exact h2 i h hPi
        · rw [h] at hPi; exact absurd hPi hP
      · rcases h3 with h | ⟨j, hj, hPj, h⟩
        · exact Or.inl h
        · exact Or.inr ⟨j, Nat.lt_succ_of_lt hj, hPj, h⟩

theorem sign_bounds (a : Int) : -1 ≤ Int.sign a ∧ Int.sign a ≤ 1 := by
  rcases lt_trichotomy a 0 with h | h | h
  · rw [Int.sign_eq_neg_one_of_neg h]; omega
  · rw [h]; simp
  · rw [Int.sign_eq_one_of_pos h]; omega

theorem sign_mono (a b : Int) (h : a ≤ b) : Int.sign a ≤ Int.sign b := by
  rcases lt_trichotomy a 0 with ha | ha | ha
  · rw [Int.sign_eq_neg_one_of_neg ha]
    exact (sign_bounds b).1
  · rw [ha, Int.sign_zero]
    rcases lt_or_eq_of_le (ha ▸ h) with hb | hb
    · rw [Int.sign_eq_one_of_pos hb]; omega
    · rw [← hb, Int.sign_zero]
  · rw [Int.sign_eq_one_of_pos ha, Int.sign_eq_one_of_pos (lt_of_lt_of_le ha h)]

theorem score_sign_plain :
    ∀ (fuel : Nat) (state : Board) (depth : Int) (m : Bool),
      state.length = 9 → countEmpty state < fuel → depth + countEmpty state < 10 →
      Int.sign (searchScore fuel state depth m).toInt = plainMinimax fuel state m := by
  intro fuel
  induction fuel with
  | zero => intro state depth m _ h; omega
  | succ n ih =>
    intro state depth m hlen hfuel hdepth
    have inRange : ∀ i : Nat, state[i]? = some Cell.E → i < 9 := by
      intro i hE
      have := lt_length_of_get state i _ hE
      omega
    cases hw : getWinner state with
    | some w =>
      rw [searchScore_terminal n state depth m w hw, toInt_fin, plainMinimax]
      split
      · rename_i h
        rw [hw] at h
        rw [Option.some.inj h]
        exact Int.sign_eq_one_of_pos (by show 0 < 10 - depth; omega)
      · rename_i h
        rw [hw] at h
        rw [Option.some.inj h]
        exact Int.sign_eq_neg_one_of_neg (by show depth - 10 < 0; omega)
      · rename_i w1 hO hX h
        rw [hw] at h
        have hww : w = w1 := Option.some.inj h
        subst hww
        cases w with
        | draw => rfl
        | mark c =>
          cases c
          · rfl
          · exact absurd rfl hX
          · exact absurd rfl hO
      · rename_i h
        rw [hw] at h
        exact Option.noConfusion h
    | none =>
      have child : ∀ (mark : Cell) (m1 : Bool), mark ≠ Cell.E → ∀ i, state[i]? = some Cell.E →
          Int.sign (searchScore n (state.set i mark) (depth + 1) m1).toInt
            = plainMinimax n (state.set i mark) m1 := by
        intro mark m1 hmark i hE
        have hc := countEmpty_set state i mark hmark hE
        exact ih (state.set i mark) (depth + 1) m1
          (by rw [length_set_board]; exact hlen) (by omega) (by omega)
      rw [plainMinimax]
      simp only [hw]
      cases m with
      | true =>
        obtain ⟨j, hj, hval, hmax⟩ := searchScore_max_node n state depth hlen hfuel hdepth hw
        rw [hval, toInt_fin, if_pos rfl]
        obtain ⟨h1, h2, h3⟩ := foldMaxInt_range (fun i => state[i]? = some Cell.E)
          (fun i => plainMinimax n (state.set i Cell.O) false) (-1) 9
        apply le_antisymm
        · have := h2 j (inRange j hj) hj
          rw [← child Cell.O false (by decide) j hj] at this
          exact this
        · rcases h3 with h | ⟨k, _, hk, h⟩
          · rw [h]
            exact (sign_bounds _).1
          · rw [h, ← child Cell.O false (by decide) k hk]
            exact sign_mono _ _ (hmax k hk)
      | false =>
        obtain ⟨j, hj, hval, hmin⟩ := searchScore_min_node n state depth hlen hfuel hdepth hw
        rw [hval, toInt_fin, if_neg Bool.false_ne_true]
        obtain ⟨h1, h2, h3⟩ := foldMinInt_range (fun i => state[i]? = some Cell.E)
          (fun i => plainMinimax n (state.set i Cell.X) true) 1 9
        apply le_antisymm
        · rcases h3 with h | ⟨k, _, hk, h⟩
          · rw [h]
            exact (sign_bounds _).2
          · rw [h, ← child Cell.X true (by decide) k hk]
            exact sign_mono _ _ (hmin k hk)
        · have := h2 j (inRange j hj) hj
          rw [← child Cell.X true (by decide) j hj] at this
          exact this

/-- Claim C19. On a nine-cell board, for either side to move, `minimax` called at
depth 0 returns a finite score (never an infinity) that is positive exactly when
`O` can force a win, negative exactly when `X` can force a win and zero exactly
when neither can; its sign is the value of plain minimax scored `+1`, `-1`, `0`. -/
theorem minimax_sign (fuel : Nat) (state : Board) (isMaximizing : Bool)
    (hlen : state.length = 9) (hfuel : countEmpty state < fuel) :
    ∃ z, minimax fuel state 0 isMaximizing = some (Score.fin z, state) ∧
      (0 < z ↔ OWins state isMaximizing) ∧
      (z < 0 ↔ XWins state isMaximizing) ∧
      (z = 0 ↔ ¬ OWins state isMaximizing ∧ ¬ XWins state isMaximizing) ∧
      Int.sign z = plainMinimax fuel state isMaximizing := by
  have hl := countEmpty_le_length state
  have hd : (0 : Int) + countEmpty state < 10 := by omega
  obtain ⟨z, hz, hX⟩ := score_sign fuel state 0 isMaximizing hlen hfuel hd
  have hO := score_sign_O fuel state 0 isMaximizing hlen hfuel hd
  have hP := score_sign_plain fuel state 0 isMaximizing hlen hfuel hd
  rw [hz, toInt_fin] at hO hP
  refine ⟨z, by rw [minimax_eq fuel state 0 isMaximizing hfuel, hz], hO, hX, ?_, hP⟩
  constructor
  · intro h0
    exact ⟨fun h => by have := hO.2 h; omega, fun h => by have := hX.2 h; omega⟩
  · rintro ⟨h1, h2⟩
    have a : ¬ 0 < z := fun h => h1 (hO.1 h)
    have b : ¬ z < 0 := fun h => h2 (hX.1 h)
    omega

/-- The statement of `minimax_sign` on the empty board with `X` to move. -/
theorem minimax_sign_witness :
    ∃ z, minimax 10 initialGame.gameState 0 false = some (Score.fin z, initialGame.gameState) ∧
      Int.sign z = plainMinimax 10 initialGame.gameState false :=
  match minimax_sign 10 initialGame.gameState false rfl (by decide) with
  | ⟨z, h1, _, _, _, h2⟩ => ⟨z, h1, h2⟩

/-! ## The first move of the hard strategy -/

theorem not_OWins_oTurn (b : Board) (hlen : b.length = 9)
    (h : ∀ i ∈ List.range 9, b[i]? = some Cell.E → ¬ OWins (b.set i Cell.O) false)
    (hw : getWinner b ≠ some (Winner.mark Cell.O)) : ¬ OWins b true := by
  intro hx
  cases hg : getWinner b with
  | some w =>
    have := (OWins_of_result b true w hg).1 hx
    rw [hg, this] at hw
    exact hw rfl
  | none =>
    obtain ⟨i, hE, hxi⟩ := (OWins_oTurn b hg).1 hx
    have hi : i < 9 := by
      have := lt_length_of_get b i _ hE
      omega
    exact h i (List.mem_range.mpr hi) hE hxi

theorem checkMovesO_sound :
    ∀ (fuel : Nat) (c : Cert) (b : Board) (is : List Nat), b.length = 9 →
      checkMovesO fuel c b is = true →
      ∀ i ∈ is, b[i]? = some Cell.E → ¬ OWins (b.set i Cell.O) false := by
  intro fuel
  induction fuel with
  | zero =>
    intro c b is _ h
    simp [checkMovesO] at h
  | succ n ih =>
    intro c b is hlen h
    cases is with
    | nil => intro i hi; cases hi
    | cons i0 rest =>
      rw [checkMovesO] at h
      have goal : (b[i0]? = some Cell.E → ¬ OWins (b.set i0 Cell.O) false) ∧
          ∃ c1, checkMovesO n c1 b rest = true := by
        by_cases hE : b[i0]? = some Cell.E
        · rw [if_pos hE, forceBoard_eq] at h
          have hlen1 : (b.set i0 Cell.O).length = 9 := by rw [length_set_board]; exact hlen
          split at h
          · exact absurd h Bool.false_ne_true
          · rename_i w hO hw
            refine ⟨fun _ hx => hO ?_, c, h⟩
            rw [(OWins_of_result _ false w hw).1 hx]
          · rename_i hw
            split at h
            · exact absurd h Bool.false_ne_true
            · rename_i j sub rest1
              split at h
              · rename_i hEj
                rw [forceBoard_eq] at h
                have hlen2 : ((b.set i0 Cell.O).set j Cell.X).length = 9 := by
                  rw [length_set_board]; exact hlen1
                have key : ¬ OWins ((b.set i0 Cell.O).set j Cell.X) true →
                    ¬ OWins (b.set i0 Cell.O) false := by
                  intro hsafe hx
                  exact hsafe ((OWins_xTurn _ hw).1 hx j hEj)
                split at h
                · exact absurd h Bool.false_ne_true
                · rename_i w hO hw2
                  refine ⟨fun _ => key (fun hx => hO ?_), rest1, h⟩
                  rw [(OWins_of_result _ true w hw2).1 hx]
                · rename_i hw2
                  rw [Bool.and_eq_true] at h
                  refine ⟨fun _ => key ?_, rest1, h.2⟩
                  apply not_OWins_oTurn _ hlen2 (ih sub _ _ hlen2 h.1)
                  rw [hw2]
                  exact fun hc => Option.noConfusion hc
              · exact absurd h Bool.false_ne_true
        · rw [if_neg hE] at h
          exact ⟨fun hc => absurd hc hE, c, h⟩
      obtain ⟨hhead, c1, hc1⟩ := goal
      intro i hi hE
      rcases List.mem_cons.mp hi with h0 | h0
      · rw [h0]
        rw [h0] at hE
        exact hhead hE
      · exact ih c1 b rest hlen hc1 i h0 hE

set_option maxRecDepth 1000000 in
set_option maxHeartbeats 0 in
theorem drawTableO_ok :
    checkMovesO 64 drawTable initialGame.gameState (List.range 9) = true := by
  decide

set_option maxRecDepth 1000000 in
set_option maxHeartbeats 0 in
theorem cornerTable_ok :
    checkMoves 64 cornerTable (initialGame.gameState.set 0 Cell.O) (List.range 9) = true := by
  decide

theorem initial_safe_O : ¬ OWins initialGame.gameState true :=
  not_OWins_oTurn _ rfl (checkMovesO_sound 64 drawTable _ _ rfl drawTableO_ok) (by decide)

theorem corner_safe : ¬ XWins (initialGame.gameState.set 0 Cell.O) false :=
  not_XWins_xTurn _ rfl (checkMoves_sound 64 cornerTable _ _ rfl cornerTable_ok) (by decide)

/-- Claim C12. On the empty board `bestMove` returns index 0 (so index 0 or 4), and
that index is score-optimal: its `minimax` score is at least the score of each of
the nine cells (it is 0, and no cell scores more than 0). -/
theorem bestMove_empty_board (fuel : Nat) (hfuel : 9 ≤ fuel) :
    ∃ j, bestMove fuel initialGame.gameState = some (some j, initialGame.gameState) ∧
      (j = 0 ∨ j = 4) ∧ j = 0 ∧
      ∃ v, minimax fuel (initialGame.gameState.set j Cell.O) 0 false
          = some (Score.fin v, initialGame.gameState.set j Cell.O) ∧ v = 0 ∧
        ∀ i, i < 9 →
          ∃ w, minimax fuel (initialGame.gameState.set i Cell.O) 0 false
              = some (Score.fin w, initialGame.gameState.set i Cell.O) ∧ w ≤ v := by
  have hlen : initialGame.gameState.length = 9 := rfl
  have hcount : countEmpty initialGame.gameState ≤ fuel := by
    have : countEmpty initialGame.gameState = 9 := by decide
    omega
  have hprog : getWinner initialGame.gameState = none := by decide
  have hempty : ∀ i, i < 9 → initialGame.gameState[i]? = some Cell.E := by
    intro i hi
    interval_cases i <;> rfl
  have hle : ∀ i, i < 9 →
      (searchScore fuel (initialGame.gameState.set i Cell.O) 0 false).toInt ≤ 0 := by
    intro i hi
    have hE := hempty i hi
    have hc := countEmpty_set initialGame.gameState i Cell.O (by decide) hE
    have hl := countEmpty_le_length initialGame.gameState
    have hO := score_sign_O fuel (initialGame.gameState.set i Cell.O) 0 false
      (by rw [length_set_board]; exact hlen) (by omega) (by omega)
    by_contra hpos
    exact initial_safe_O ((OWins_oTurn _ hprog).2 ⟨i, hE, hO.1 (by omega)⟩)
  have hzero : (searchScore fuel (initialGame.gameState.set 0 Cell.O) 0 false).toInt = 0 := by
    have h1 := hle 0 (by decide)
    have h2 := (minimax_child fuel initialGame.gameState hlen hcount 0 (hempty 0 (by decide))).2
    have h3 : ¬ (searchScore fuel (initialGame.gameState.set 0 Cell.O) 0 false).toInt < 0 :=
      fun h => corner_safe (h2.1 h)
    omega
  rcases bestMove_spec fuel initialGame.gameState hlen hcount with
    ⟨hnone, _⟩ | ⟨j, hEj, hbest, hmax⟩
  · exact absurd (hempty 0 (by decide)) (hnone 0)
  · have hj9 : j < 9 := by
      have := lt_length_of_get _ j _ hEj
      omega
    have hj0 : j = 0 := by
      by_contra hne
      have h1 := (hmax 0 (hempty 0 (by decide))).2 (by omega)
      have h2 := hle j hj9
      omega
    subst hj0
    refine ⟨0, hbest, Or.inl rfl, rfl, _,
      (minimax_child fuel initialGame.gameState hlen hcount 0 hEj).1, hzero, ?_⟩
    intro i hi
    exact ⟨_, (minimax_child fuel initialGame.gameState hlen hcount i (hempty i hi)).1,
      (hmax i (hempty i hi)).1⟩

/-- The statement of `bestMove_empty_board` with call depth 9. -/
theorem bestMove_empty_board_witness :
    9 ≤ 9 ∧ bestMove 9 initialGame.gameState = some (some 0, initialGame.gameState) :=
  ⟨Nat.le_refl 9,
    match bestMove_empty_board 9 (Nat.le_refl 9) with
    | ⟨j, h1, _, h2, _⟩ => by rw [h2] at h1; exact h1⟩

end TicTacToe
